import Mathlib

/-!
# DBMS storage layer: records, sectors and blocks

A shallow embedding of `src/src/sgbd_basic.cpp` (`Record`, `Sector`, `Track`,
`Surface`, `Platter`), `src/src/disk_manager.cpp` (`Block`, `BufferManager`,
`DiskManager`) and `SGBD::addRecord` of `src/src/sgbd.cpp`.

Modelling conventions.

* `std::string` is a list of characters (`Str`); `operator<` on strings is the
  lexicographic order on `List Char`.
* `std::map<std::string, std::string>` is the list of its entries in iteration
  order, i.e. by strictly ascending key (`StrMap.WF`); `operator[]` assignment
  is `StrMap.assign`.
* `int` is `Int`: sums and products are computed in exact arithmetic.  In C++
  an `int` sum that leaves the range of `int` is undefined, a `size_t` length
  above `INT_MAX` changes its value when it is converted to `int`, and an
  access outside a vector is undefined.  The embedding agrees with the code on
  the calls in which none of this happens, and a theorem is stated for those
  calls only: either its hypotheses already confine it to them (a write that
  succeeded, a block without records), or it assumes that the values stay
  within range (`isInt32`, `Sector.writeInRange`, `Sector.readInRange`,
  `DiskManager.storeInRange`, `DiskManager.capacityInRange`, ...).  The `int`
  to `size_t` conversion in `Block::hasSpace`, which is defined in C++ and
  changes negative values, is modelled explicitly (`toSizeT`).
* Exceptions (`std::stoi`) are the `Except` monad.
* A pointer returned by a search (`Record*`, `Sector*`, ...) is the object it
  refers to, `none` for `nullptr`; `std::vector` is `List`.
* A `Block*` kept in a table is the block object it refers to; in `all_blocks`
  of the facade it is `none` once the object has been deleted (a dangling
  pointer).  Calls that the C++ standard leaves undefined there return `none`.
* The disk theorems are stated for well-formed disks (`DiskManager.WF`): the
  states the constructors build (`DiskManager.new_WF`) and `storeBlock` keeps
  (`DiskManager.storeBlock_WF`).
-/

namespace DBMS

/-- A `std::string`: a sequence of characters. -/
abbrev Str := List Char

/-! ## Strings and numbers: `std::to_string`, `std::stoi`, `std::getline` -/

/-- The character of a decimal digit, `'0' + d`. -/
def digitChar (d : Nat) : Char := Char.ofNat (48 + d)

/-- The value of a decimal digit character, `c - '0'`. -/
def digitVal (c : Char) : Nat := c.toNat - 48

/-- The test `'0' <= c && c <= '9'`. -/
def isDigit (c : Char) : Bool := decide (48 ≤ c.toNat) && decide (c.toNat ≤ 57)

/-- Decimal digits of `n`, most significant first, put in front of `acc`.
The first argument bounds the number of digits. -/
def natDigits : Nat → Nat → Str → Str
  | 0, _, acc => acc
  | fuel + 1, n, acc =>
    if n / 10 = 0 then digitChar (n % 10) :: acc
    else natDigits fuel (n / 10) (digitChar (n % 10) :: acc)

/-- Decimal representation of a natural number (no leading zeros, `0` is "0"). -/
def natToStr (n : Nat) : Str := natDigits (n + 1) n []

/-- The function `std::to_string(int)`: the `%d` rendering. -/
def to_string (x : Int) : Str :=
  if x < 0 then '-' :: natToStr x.natAbs else natToStr x.natAbs

/-- The test `isspace` of the C locale. -/
def isSpace (c : Char) : Bool :=
  c = ' ' || c = '\t' || c = '\n' || c = Char.ofNat 11 || c = Char.ofNat 12 || c = '\r'

/-- Skips leading white space, as `strtol` does. -/
def skipSpace : Str → Str
  | [] => []
  | c :: cs => if isSpace c then skipSpace cs else c :: cs

/-- Reads the longest run of decimal digits at the start of the string.
Returns the accumulated value and the number of digits read. -/
def readDigits : Str → Nat → Nat → Nat × Nat
  | [], acc, k => (acc, k)
  | c :: cs, acc, k =>
    if isDigit c then readDigits cs (acc * 10 + digitVal c) (k + 1) else (acc, k)

/-- The exceptions `std::stoi` throws. -/
inductive Exn where
  | invalid_argument
  | out_of_range
  deriving DecidableEq, Repr

/-- The function `std::stoi(token)` (base 10, no position argument): `strtol`
followed by the range check for `int`.  Throws `invalid_argument` when no
digit can be read and `out_of_range` when the value does not fit an `int`. -/
def stoi (s : Str) : Except Exn Int :=
  let s1 := skipSpace s
  let signed : Bool × Str :=
    match s1 with
    | [] => (false, [])
    | c :: t => if c = '-' then (true, t) else if c = '+' then (false, t) else (false, c :: t)
  let vk := readDigits signed.2 0 0
  if vk.2 = 0 then Except.error Exn.invalid_argument
  else
    let x : Int := if signed.1 then -(vk.1 : Int) else (vk.1 : Int)
    if x < -2147483648 ∨ 2147483647 < x then Except.error Exn.out_of_range
    else Except.ok x

/-- A `std::istringstream`: the characters not yet read and the state flags
`eofbit` and `failbit`. -/
structure IStream where
  rest : Str
  eofbit : Bool
  failbit : Bool
  deriving DecidableEq, Repr

/-- The constructor `std::istringstream iss(s)`. -/
def IStream.ofStr (s : Str) : IStream := { rest := s, eofbit := false, failbit := false }

/-- The conversion of a stream to `bool`: `!fail()`. -/
def IStream.ok (s : IStream) : Bool := !s.failbit

/-- The function `std::getline(stream, token, delim)`; returns the stream and
the token after the call.

When the stream is not good the sentry fails: `failbit` is set and the token
keeps its old value.  Otherwise the token is erased and characters are
extracted up to the delimiter (extracted, not stored) or the end of input
(`eofbit`); when nothing at all is extracted `failbit` is set. -/
def getline (s : IStream) (token : Str) (delim : Char) : IStream × Str :=
  if s.eofbit || s.failbit then ({ s with failbit := true }, token)
  else
    match s.rest with
    | [] => ({ rest := [], eofbit := true, failbit := true }, [])
    | c :: cs =>
      match (c :: cs).dropWhile (fun x => x != delim) with
      | [] => ({ rest := [], eofbit := true, failbit := false },
               (c :: cs).takeWhile (fun x => x != delim))
      | _ :: after => ({ rest := after, eofbit := false, failbit := false },
               (c :: cs).takeWhile (fun x => x != delim))

/-! ## `std::map<std::string, std::string>` -/

/-- The entries of a `std::map<std::string, std::string>` in iteration order. -/
abbrev StrMap := List (Str × Str)

/-- The invariant of `std::map`: keys strictly ascending (hence unique). -/
def StrMap.WF (m : StrMap) : Prop := m.Pairwise (fun a b => a.1 < b.1)

/-- The assignment `m[key] = value`. -/
def StrMap.assign (key value : Str) : StrMap → StrMap
  | [] => [(key, value)]
  | (k, v) :: rest =>
    if key < k then (key, value) :: (k, v) :: rest
    else if k < key then (k, v) :: StrMap.assign key value rest
    else (k, value) :: rest

/-- The lookup `m.find(key)`: the value stored under `key`, if any. -/
def StrMap.find (key : Str) : StrMap → Option Str
  | [] => none
  | (k, v) :: rest => if k = key then some v else StrMap.find key rest

/-! ## Record (`src/src/sgbd_basic.cpp`, lines 26-82) -/

/-- The class `Record`. -/
structure Record where
  data : StrMap
  is_deleted : Bool
  record_id : Int
  deriving DecidableEq, Repr

/-- The default constructor `Record::Record()`. -/
def Record.default : Record := { data := [], is_deleted := false, record_id := -1 }

/-- The constructor `Record::Record(record_data, id)`. -/
def Record.new (record_data : StrMap) (id : Int) : Record :=
  { data := record_data, is_deleted := false, record_id := id }

/-- The loop `for (pair : data) result += pair.first + ":" + pair.second + ";"`. -/
def serializePairs : StrMap → Str
  | [] => []
  | (k, v) :: rest => k ++ ':' :: (v ++ ';' :: serializePairs rest)

/-- The method `Record::serialize`. -/
def Record.serialize (r : Record) : Str :=
  to_string r.record_id ++ '|' :: ((if r.is_deleted then ['1'] else ['0']) ++
    '|' :: serializePairs r.data)

/-- The body of the `while` loop of `Record::deserialize`: splits `pair` at its
first `':'` and stores the two halves; a pair without `':'` is skipped. -/
def storePair (pair : Str) (data : StrMap) : StrMap :=
  match pair.dropWhile (fun x => x != ':') with
  | [] => data
  | _ :: value => StrMap.assign (pair.takeWhile (fun x => x != ':')) value data

/-- The loop
`while (std::getline(data_stream, pair, ';') && !pair.empty()) { ... }`.
The first argument bounds the number of iterations; `none` when it is used
up, which `parsePairs_isSome` excludes for the bound `deserialize` passes:
every iteration but the last extracts at least one character. -/
def parsePairs : Nat → IStream → Str → StrMap → Option StrMap
  | 0, _, _, _ => none
  | fuel + 1, data_stream, pair, data =>
    let g := getline data_stream pair ';'
    if g.1.ok && !g.2.isEmpty then parsePairs fuel g.1 g.2 (storePair g.2 data)
    else some data

instance : DecidableEq (Except Exn Record) := fun a b =>
  match a, b with
  | Except.ok x, Except.ok y =>
    if h : x = y then isTrue (by rw [h]) else isFalse (fun e => h (Except.ok.inj e))
  | Except.error x, Except.error y =>
    if h : x = y then isTrue (by rw [h]) else isFalse (fun e => h (Except.error.inj e))
  | Except.ok _, Except.error _ => isFalse (fun e => by cases e)
  | Except.error _, Except.ok _ => isFalse (fun e => by cases e)

/-- The outcome of `Record::deserialize`: the record, or the exception thrown. -/
def Record.deserialize (serialized_data : Str) : Except Exn Record :=
  let iss := IStream.ofStr serialized_data
  let g1 := getline iss [] '|'
  match stoi g1.2 with
  | Except.error e => Except.error e
  | Except.ok id =>
    let g2 := getline g1.1 g1.2 '|'
    let deleted : Bool := decide (g2.2 = ['1'])
    let g3 := getline g2.1 g2.2 '|'
    let data := (parsePairs (g3.2.length + 1) (IStream.ofStr g3.2) [] []).getD []
    Except.ok { data := data, is_deleted := deleted, record_id := id }

/-- No character of the string is one of the separators `|`, `:` and `;`. -/
def sepFree (s : Str) : Prop := ∀ c ∈ s, c ≠ '|' ∧ c ≠ ':' ∧ c ≠ ';'

/-- The value is one an `int` (32 bits) can hold. -/
def isInt32 (x : Int) : Prop := -2147483648 ≤ x ∧ x ≤ 2147483647

/-- The method `Record::getSize`. -/
def Record.getSize (r : Record) : Int := (r.serialize.length : Int)

/-! ## Sector (`src/src/sgbd_basic.cpp`, lines 84-117) -/

/-- The class `Sector`; `data` is the `std::vector<char>` buffer. -/
structure Sector where
  sector_id : Int
  capacity : Int
  data : List Char
  used_space : Int
  deriving DecidableEq, Repr

/-- The constructor `Sector::Sector(id, cap)`: `used_space(0)` and
`data.resize(capacity, 0)`.  For a negative `cap` the `resize` throws and no
sector is built; the definition is meant for `cap >= 0`. -/
def Sector.new (id cap : Int) : Sector :=
  { sector_id := id, capacity := cap, data := List.replicate cap.toNat (Char.ofNat 0),
    used_space := 0 }

/-- The method `Sector::hasSpace`.  The C++ sum `used_space + required_space` is
an `int` sum; the definition is its result whenever that sum is within the
range of `int`, and the theorems about it are stated for such calls
(`Sector.writeInRange`, `DiskManager.searchInRange`). -/
def Sector.hasSpace (s : Sector) (required_space : Int) : Bool :=
  decide (s.used_space + required_space ≤ s.capacity)

/-- The loop `for (i = 0; i < content.length(); ++i) data[used_space + i] = content[i]`,
started at index `i` with the characters of `content` from `i` on still to copy. -/
def Sector.writeLoop (used_space : Int) : Str → Nat → List Char → List Char
  | [], _, data => data
  | c :: cs, i, data =>
    Sector.writeLoop used_space cs (i + 1) (data.set (used_space + (i : Int)).toNat c)

/-- What `Sector::writeData` leaves behind: the returned `bool`, the reference
argument `position` and the sector. -/
structure WriteResult where
  ok : Bool
  position : Int
  sector : Sector
  deriving DecidableEq, Repr

/-- The method `Sector::writeData(content, position)`.  The argument of
`hasSpace` is `content.length()` converted to `int`, and `used_space` is
advanced in `int`; the definition takes the length as it is.  It is the C++
method for the calls with `used_space + content.length() <= INT_MAX`
(`Sector.writeInRange`), hence also for every call on which it returns `true`
when `0 <= used_space` and the capacity is an `int`.  For other calls the conversion changes
the length or the sum overflows, and the C++ method may pass the check and
write outside the buffer; no theorem is stated for them. -/
def Sector.writeData (s : Sector) (content : Str) (position : Int) : WriteResult :=
  if !s.hasSpace (content.length : Int) then { ok := false, position := position, sector := s }
  else
    { ok := true
      position := s.used_space
      sector := { s with data := Sector.writeLoop s.used_space content 0 s.data
                         used_space := s.used_space + (content.length : Int) } }

/-- The method `Sector::readData(position, length)`: the empty string when
`position + length > used_space`, else the characters between the iterators
`data.begin() + position` and `data.begin() + position + length`.  The C++
sum `position + length` is an `int` sum, and the iterators are valid for
`position >= 0` and `length >= 0` within the buffer: the definition is the C++
method for the calls that satisfy `Sector.readInRange`, and the theorems about
it are stated for such calls. -/
def Sector.readData (s : Sector) (position length : Int) : Str :=
  if position + length > s.used_space then []
  else (s.data.take (position + length).toNat).drop position.toNat

/-- A call on a sector: `writeData(content, position)` or `readData(position, length)`. -/
inductive SectorOp where
  | write (content : Str)
  | read (position length : Int)
  deriving DecidableEq, Repr

/-- The sector after one call; `readData` is `const`. -/
def Sector.step (s : Sector) : SectorOp → Sector
  | SectorOp.write content => (s.writeData content 0).sector
  | SectorOp.read _ _ => s

/-- The sector after a sequence of calls. -/
def Sector.run (s : Sector) (ops : List SectorOp) : Sector := ops.foldl Sector.step s

/-- The struct `PhysicalLocation`. -/
structure PhysicalLocation where
  platter_id : Int
  surface_id : Int
  track_id : Int
  sector_id : Int
  position : Int
  deriving DecidableEq, Repr

/-- The default arguments of the `PhysicalLocation` constructor: all `-1`. -/
def PhysicalLocation.unset : PhysicalLocation :=
  { platter_id := -1, surface_id := -1, track_id := -1, sector_id := -1, position := -1 }

/-- The class `Block`. -/
structure Block where
  block_id : Int
  records : List Record
  max_records : Int
  location : PhysicalLocation
  is_dirty : Bool
  deriving DecidableEq, Repr

/-- The constructor `Block::Block(id, max_rec)`. -/
def Block.new (id max_rec : Int) : Block :=
  { block_id := id, records := [], max_records := max_rec,
    location := PhysicalLocation.unset, is_dirty := false }

/-- The conversion of an `int` to `size_t` (64 bits): reduction modulo `2^64`. -/
def toSizeT (x : Int) : Nat := (x % 18446744073709551616).toNat

/-- The method `Block::hasSpace`: `records.size() < max_records`.  The left
operand is a `size_t`, so the usual arithmetic conversions turn `max_records`
into a `size_t` before the comparison. -/
def Block.hasSpace (b : Block) : Bool := decide (b.records.length < toSizeT b.max_records)

/-- The method `Block::addRecord`: the returned `bool` and the block. -/
def Block.addRecord (b : Block) (record : Record) : Bool × Block :=
  if !b.hasSpace then (false, b)
  else (true, { b with records := b.records ++ [record], is_dirty := true })

/-- The loop of `Block::removeRecord` over `records`: the records after the
first one whose id matches got `is_deleted = true`, or `none` when the loop
ends without a match. -/
def Block.removeLoop (record_id : Int) : List Record → Option (List Record)
  | [] => none
  | r :: rs =>
    if r.record_id = record_id then some ({ r with is_deleted := true } :: rs)
    else (Block.removeLoop record_id rs).map (fun rs1 => r :: rs1)

/-- The method `Block::removeRecord`: the returned `bool` and the block. -/
def Block.removeRecord (b : Block) (record_id : Int) : Bool × Block :=
  match Block.removeLoop record_id b.records with
  | some rs => (true, { b with records := rs, is_dirty := true })
  | none => (false, b)

/-- The method `Block::findRecord`: the record the returned pointer refers to,
`none` for `nullptr`. -/
def Block.findRecord (b : Block) (record_id : Int) : Option Record :=
  b.records.find? (fun r => decide (r.record_id = record_id) && !r.is_deleted)

/-- A live record of the block with the given id exists. -/
def Block.hasLive (b : Block) (record_id : Int) : Prop :=
  ∃ r ∈ b.records, r.record_id = record_id ∧ r.is_deleted = false


/-! ## Block: queries by attribute (`src/src/disk_manager.cpp`, lines 40-71) -/

/-- The chain of `if (operator_type == ...)` in `Block::findRecordsByAttribute`:
the value of `matches` for the stored `record_value`.  The comparisons are the
operators of `std::string`. -/
def Block.matchesOp (operator_type record_value value : Str) : Bool :=
  if operator_type = ['='] then decide (record_value = value)
  else if operator_type = ['>', '='] then decide (record_value ≥ value)
  else if operator_type = ['<', '='] then decide (record_value ≤ value)
  else if operator_type = ['>'] then decide (record_value > value)
  else if operator_type = ['<'] then decide (record_value < value)
  else false

/-- The loop of `Block::findRecordsByAttribute` over `records`; the result
lists the records the returned pointers refer to. -/
def Block.findLoop (attr value operator_type : Str) : List Record → List Record
  | [] => []
  | record :: rest =>
    if record.is_deleted then Block.findLoop attr value operator_type rest
    else
      match StrMap.find attr record.data with
      | some record_value =>
        if Block.matchesOp operator_type record_value value then
          record :: Block.findLoop attr value operator_type rest
        else Block.findLoop attr value operator_type rest
      | none => Block.findLoop attr value operator_type rest

/-- The method `Block::findRecordsByAttribute(attribute, value, operator_type)`. -/
def Block.findRecordsByAttribute (b : Block) (attr value operator_type : Str) :
    List Record :=
  Block.findLoop attr value operator_type b.records

/-- Lexicographic order, character by character: `a` comes strictly before `b`
when at the first position where they differ `a` has the smaller character, or
when `a` ends there and `b` does not. -/
def lexBefore : Str → Str → Bool
  | [], [] => false
  | [], _ :: _ => true
  | _ :: _, [] => false
  | x :: xs, y :: ys => if x < y then true else if y < x then false else lexBefore xs ys

/-- What the specification asks of a comparison operator: the relation between
the stored string and the query value under lexicographic ordering. -/
def lexRelates (op stored value : Str) : Bool :=
  if op = ['='] then decide (stored = value)
  else if op = ['>', '='] then !lexBefore stored value
  else if op = ['<', '='] then !lexBefore value stored
  else if op = ['>'] then lexBefore value stored
  else if op = ['<'] then lexBefore stored value
  else false

/-- What the specification asks of `findByAttribute`: the record is live, has
the attribute, and its stored string relates to the value by the operator. -/
def specSelects (attr value op : Str) (r : Record) : Bool :=
  !r.is_deleted &&
    match StrMap.find attr r.data with
    | some stored => lexRelates op stored value
    | none => false

/-! ## Track, Surface, Platter (`src/src/sgbd_basic.cpp`, lines 119-193) -/

/-- The class `Track`. -/
structure Track where
  track_id : Int
  sectors : List Sector
  sectors_per_track : Int
  deriving DecidableEq, Repr

/-- The constructor `Track::Track(id, num_sectors, sector_capacity)`: the loop
`for (i = 0; i < num_sectors; ++i) sectors.emplace_back(i, sector_capacity)`. -/
def Track.new (id num_sectors sector_capacity : Int) : Track :=
  { track_id := id
    sectors := (List.range num_sectors.toNat).map (fun (i : Nat) => Sector.new (i : Int) sector_capacity)
    sectors_per_track := num_sectors }

/-- The method `Track::findSectorWithSpace`: the first sector with space, as
the sector the returned pointer refers to; `none` for `nullptr`. -/
def Track.findSectorWithSpace (t : Track) (required_space : Int) : Option Sector :=
  t.sectors.find? (fun sector => sector.hasSpace required_space)

/-- The class `Surface`. -/
structure Surface where
  surface_id : Int
  tracks : List Track
  tracks_per_surface : Int
  deriving DecidableEq, Repr

/-- The constructor `Surface::Surface(id, num_tracks, sectors_per_track, sector_capacity)`. -/
def Surface.new (id num_tracks sectors_per_track sector_capacity : Int) : Surface :=
  { surface_id := id
    tracks := (List.range num_tracks.toNat).map
      (fun (i : Nat) => Track.new (i : Int) sectors_per_track sector_capacity)
    tracks_per_surface := num_tracks }

/-- The method `Surface::findTrackWithSpace`: the first track for which
`findSectorWithSpace` is not `nullptr`. -/
def Surface.findTrackWithSpace (s : Surface) (required_space : Int) : Option Track :=
  s.tracks.find? (fun track => (track.findSectorWithSpace required_space).isSome)

/-- The class `Platter`. -/
structure Platter where
  platter_id : Int
  surfaces : List Surface
  surfaces_per_platter : Int
  deriving DecidableEq, Repr

/-- The constructor `Platter::Platter(id, num_surfaces, tracks_per_surface,
sectors_per_track, sector_capacity)`. -/
def Platter.new (id num_surfaces tracks_per_surface sectors_per_track sector_capacity : Int) :
    Platter :=
  { platter_id := id
    surfaces := (List.range num_surfaces.toNat).map
      (fun (i : Nat) =>
        Surface.new (i : Int) tracks_per_surface sectors_per_track sector_capacity)
    surfaces_per_platter := num_surfaces }

/-- The method `Platter::findSurfaceWithSpace`: the first surface for which
`findTrackWithSpace` is not `nullptr`. -/
def Platter.findSurfaceWithSpace (p : Platter) (required_space : Int) : Option Surface :=
  p.surfaces.find? (fun surface => (surface.findTrackWithSpace required_space).isSome)

/-! ## BufferManager (`src/src/disk_manager.cpp`, lines 88-161) -/

/-- The class `BufferManager`.  `buffer_pool` lists the entries of the
`std::unordered_map<int, Block*>`, each pointer given as the block it owns;
the order of the list has no meaning.  `lru_queue` is the `std::queue<int>`,
front first.  `disk_writes` records the calls of `writeBlockToDisk`, by block
id, in order: each call prints one line. -/
structure BufferManager where
  buffer_pool : List (Int × Block)
  lru_queue : List Int
  max_buffer_size : Int
  disk_writes : List Int
  deriving DecidableEq, Repr

/-- The constructor `BufferManager::BufferManager(max_size)`. -/
def BufferManager.new (max_size : Int) : BufferManager :=
  { buffer_pool := [], lru_queue := [], max_buffer_size := max_size, disk_writes := [] }

/-- The lookup `buffer_pool.find(block_id)`. -/
def poolFind (block_id : Int) : List (Int × Block) → Option Block
  | [] => none
  | (k, b) :: rest => if k = block_id then some b else poolFind block_id rest

/-- The assignment `buffer_pool[block_id] = block`. -/
def poolAssign (block_id : Int) (block : Block) : List (Int × Block) → List (Int × Block)
  | [] => [(block_id, block)]
  | (k, b) :: rest =>
    if k = block_id then (k, block) :: rest else (k, b) :: poolAssign block_id block rest

/-- The call `buffer_pool.erase(it)` for the entry with key `block_id`. -/
def poolErase (block_id : Int) : List (Int × Block) → List (Int × Block)
  | [] => []
  | (k, b) :: rest => if k = block_id then rest else (k, b) :: poolErase block_id rest

/-- The method `BufferManager::getBlock`. -/
def BufferManager.getBlock (bm : BufferManager) (block_id : Int) : Option Block :=
  poolFind block_id bm.buffer_pool

/-- The effect of `BufferManager::writeBlockToDisk` on the block:
`block->is_dirty = false`. -/
def writeBlockToDisk (block : Block) : Block := { block with is_dirty := false }

/-- The method `BufferManager::evictLRU`.  The evicted block is written back
when it is dirty and then deleted. -/
def BufferManager.evictLRU (bm : BufferManager) : BufferManager :=
  match bm.lru_queue with
  | [] => bm
  | block_to_evict :: queue =>
    match poolFind block_to_evict bm.buffer_pool with
    | some block =>
      { bm with lru_queue := queue
                buffer_pool := poolErase block_to_evict bm.buffer_pool
                disk_writes :=
                  if block.is_dirty then bm.disk_writes ++ [block.block_id] else bm.disk_writes }
    | none => { bm with lru_queue := queue }

/-- The method `BufferManager::addBlock`: the returned `bool` and the manager.
The test `buffer_pool.size() >= max_buffer_size` is made in `size_t`.  The
argument is a block object given by value: the definition is the C++ method
for the calls in which the eviction does not delete the very block that is
being admitted (`BufferManager.evictedByAdd`); in that case the C++ method
reads a deleted object, which is undefined. -/
def BufferManager.addBlock (bm : BufferManager) (block : Block) : Bool × BufferManager :=
  let bm1 := if bm.buffer_pool.length ≥ toSizeT bm.max_buffer_size then bm.evictLRU else bm
  (true, { bm1 with buffer_pool := poolAssign block.block_id block bm1.buffer_pool
                    lru_queue := bm1.lru_queue ++ [block.block_id] })

/-- A call on the buffer manager: `addBlock(block)` or `getBlock(block_id)`. -/
inductive BufOp where
  | add (block : Block)
  | get (block_id : Int)
  deriving DecidableEq, Repr

/-- The manager after one call; `getBlock` only looks up. -/
def BufferManager.step (bm : BufferManager) : BufOp → BufferManager
  | BufOp.add block => (bm.addBlock block).2
  | BufOp.get _ => bm

/-- The manager after a sequence of calls. -/
def BufferManager.run (bm : BufferManager) (ops : List BufOp) : BufferManager :=
  ops.foldl BufferManager.step bm

/-- The blocks a sequence of calls admits, in order. -/
def BufOp.admitted : List BufOp → List Block
  | [] => []
  | BufOp.add block :: rest => block :: BufOp.admitted rest
  | BufOp.get _ :: rest => BufOp.admitted rest

/-! ## DiskManager (`src/src/disk_manager.cpp`, lines 163-276) -/

/-- The class `DiskManager`. -/
structure DiskManager where
  platters : List Platter
  total_platters : Int
  surfaces_per_platter : Int
  tracks_per_surface : Int
  sectors_per_track : Int
  sector_capacity : Int
  records_per_block : Int
  next_record_id : Int
  next_block_id : Int
  record_locations : List (Int × PhysicalLocation)
  buffer_manager : BufferManager
  deriving DecidableEq, Repr

/-- The constructor `DiskManager::DiskManager`: the loop
`for (p = 0; p < num_platters; ++p) platters.emplace_back(p, surfaces, tracks, sectors, sec_capacity)`. -/
def DiskManager.new (num_platters surfaces tracks sectors sec_capacity rec_per_block
    buffer_size : Int) : DiskManager :=
  { platters := (List.range num_platters.toNat).map
      (fun (p : Nat) => Platter.new (p : Int) surfaces tracks sectors sec_capacity)
    total_platters := num_platters
    surfaces_per_platter := surfaces
    tracks_per_surface := tracks
    sectors_per_track := sectors
    sector_capacity := sec_capacity
    records_per_block := rec_per_block
    next_record_id := 1
    next_block_id := 1
    record_locations := []
    buffer_manager := BufferManager.new buffer_size }

/-- The method `DiskManager::getTotalCapacity`.  The C++ product is taken in
`long long`, from the left; the definition is its result whenever every
partial product is within the range of `long long` (`productInRange`), and the
theorems about it are stated for such disks. -/
def DiskManager.getTotalCapacity (d : DiskManager) : Int :=
  d.total_platters * d.surfaces_per_platter * d.tracks_per_surface * d.sectors_per_track *
    d.sector_capacity

/-- The method `DiskManager::getUsedCapacity`: four nested loops adding
`sector.used_space` to `used`. -/
def DiskManager.getUsedCapacity (d : DiskManager) : Int :=
  d.platters.foldl (fun used platter =>
    platter.surfaces.foldl (fun used surface =>
      surface.tracks.foldl (fun used track =>
        track.sectors.foldl (fun used sector => used + sector.used_space) used) used) used) 0

/-- The method `DiskManager::getFreeCapacity`. -/
def DiskManager.getFreeCapacity (d : DiskManager) : Int :=
  d.getTotalCapacity - d.getUsedCapacity

/-- The loop of `DiskManager::findLocationForBlock` over the platters, from
index `p` on. -/
def DiskManager.findLocationLoop (required_space : Int) : List Platter → Nat → PhysicalLocation
  | [], _ => PhysicalLocation.unset
  | platter :: rest, p =>
    match platter.findSurfaceWithSpace required_space with
    | some surface =>
      match surface.findTrackWithSpace required_space with
      | some track =>
        match track.findSectorWithSpace required_space with
        | some sector =>
          { platter_id := (p : Int), surface_id := surface.surface_id,
            track_id := track.track_id, sector_id := sector.sector_id,
            position := sector.used_space }
        | none => DiskManager.findLocationLoop required_space rest (p + 1)
      | none => DiskManager.findLocationLoop required_space rest (p + 1)
    | none => DiskManager.findLocationLoop required_space rest (p + 1)

/-- The method `DiskManager::findLocationForBlock`. -/
def DiskManager.findLocationForBlock (d : DiskManager) (required_space : Int) :
    PhysicalLocation :=
  DiskManager.findLocationLoop required_space d.platters 0

/-- The loop `for (record : block->records) block_data += record.serialize() + "\n"`. -/
def serializeRecords : List Record → Str
  | [] => []
  | record :: rest => record.serialize ++ '\n' :: serializeRecords rest

/-- The sector `platters[p].surfaces[s].tracks[t].sectors[k]`, when the four
indices are within the vectors. -/
def DiskManager.sectorAt (d : DiskManager) (p s t k : Nat) : Option Sector :=
  match d.platters[p]? with
  | none => none
  | some platter =>
    match platter.surfaces[s]? with
    | none => none
    | some surface =>
      match surface.tracks[t]? with
      | none => none
      | some track => track.sectors[k]?

/-- The track with the sector at index `k` replaced. -/
def Track.withSector (track : Track) (k : Nat) (sector : Sector) : Track :=
  { track with sectors := track.sectors.set k sector }

/-- The surface with the track at index `t` replaced. -/
def Surface.withTrack (surface : Surface) (t : Nat) (track : Track) : Surface :=
  { surface with tracks := surface.tracks.set t track }

/-- The platter with the surface at index `s` replaced. -/
def Platter.withSurface (platter : Platter) (s : Nat) (surface : Surface) : Platter :=
  { platter with surfaces := platter.surfaces.set s surface }

/-- The disk after an assignment through the reference
`platters[p].surfaces[s].tracks[t].sectors[k]`. -/
def DiskManager.setSector (d : DiskManager) (p s t k : Nat) (sector : Sector) : DiskManager :=
  match d.platters[p]? with
  | none => d
  | some platter =>
    match platter.surfaces[s]? with
    | none => d
    | some surface =>
      match surface.tracks[t]? with
      | none => d
      | some track =>
        { d with platters := (d.platters.set p
            (platter.withSurface s (surface.withTrack t (track.withSector k sector)))) }

/-- What `DiskManager::storeBlock` leaves behind: the returned `bool`, the disk
manager and the block. -/
structure StoreResult where
  ok : Bool
  disk : DiskManager
  block : Block
  deriving DecidableEq, Repr

/-- The method `DiskManager::storeBlock`.  Indexing the vectors with the ids of
the location is undefined in C++ when an id is not an index; the embedding
returns `false` with nothing changed there (`DiskManager.storeBlock_cases` shows
it does not happen on a well-formed disk).  The variable `position` is not
initialised before `writeData`; it is read only after a successful write.
The C++ variable `required_space` is an `int` that receives
`block_data.length()`; the definition takes the length as it is, which is the
C++ value for a serialized block of at most `INT_MAX` bytes.  The theorems
about it are stated for the calls that satisfy `DiskManager.storeInRange`, or
for blocks without records. -/
def DiskManager.storeBlock (d : DiskManager) (block : Block) : StoreResult :=
  let block_data := serializeRecords block.records
  let required_space : Int := (block_data.length : Int)
  let location := d.findLocationForBlock required_space
  if location.platter_id = -1 then { ok := false, disk := d, block := block }
  else
    match d.sectorAt location.platter_id.toNat location.surface_id.toNat
        location.track_id.toNat location.sector_id.toNat with
    | none => { ok := false, disk := d, block := block }
    | some sector =>
      let w := sector.writeData block_data 0
      if w.ok then
        { ok := true
          disk := d.setSector location.platter_id.toNat location.surface_id.toNat
            location.track_id.toNat location.sector_id.toNat w.sector
          block := { block with location :=
            { platter_id := location.platter_id, surface_id := location.surface_id,
              track_id := location.track_id, sector_id := location.sector_id,
              position := w.position } } }
      else { ok := false, disk := d, block := block }

/-- All sectors of the disk, in construction order. -/
def DiskManager.allSectors (d : DiskManager) : List Sector :=
  d.platters.flatMap (fun platter =>
    platter.surfaces.flatMap (fun surface =>
      surface.tracks.flatMap (fun track => track.sectors)))

/-- The invariant of a sector: `0 <= used_space <= capacity`, and the buffer
has the size the constructor gave it. -/
def Sector.WF (s : Sector) : Prop :=
  0 ≤ s.used_space ∧ s.used_space ≤ s.capacity ∧ (s.data.length : Int) = s.capacity

/-- The invariant of a track: the id of every sector is its index, and every
sector satisfies its invariant. -/
def Track.WF (t : Track) : Prop :=
  ∀ (k : Nat) (sector : Sector), t.sectors[k]? = some sector →
    sector.sector_id = (k : Int) ∧ sector.WF

/-- The invariant of a surface: the id of every track is its index. -/
def Surface.WF (s : Surface) : Prop :=
  ∀ (t : Nat) (track : Track), s.tracks[t]? = some track →
    track.track_id = (t : Int) ∧ track.WF

/-- The invariant of a platter: the id of every surface is its index. -/
def Platter.WF (p : Platter) : Prop :=
  ∀ (s : Nat) (surface : Surface), p.surfaces[s]? = some surface →
    surface.surface_id = (s : Int) ∧ surface.WF

/-- The invariant of the disk: what the constructors establish and
`storeBlock` keeps. -/
def DiskManager.WF (d : DiskManager) : Prop :=
  ∀ (p : Nat) (platter : Platter), d.platters[p]? = some platter →
    platter.platter_id = (p : Int) ∧ platter.WF

/-- The sector at the four indices exists and has room for `required_space`. -/
def DiskManager.fitsAt (d : DiskManager) (required_space : Int) (p s t k : Nat) : Prop :=
  ∃ sector, d.sectorAt p s t k = some sector ∧
    sector.used_space + required_space ≤ sector.capacity

/-- Lexicographic order on index tuples (platter, surface, track, sector). -/
def lexLe (p s t k p1 s1 t1 k1 : Nat) : Prop :=
  p < p1 ∨ (p = p1 ∧ (s < s1 ∨ (s = s1 ∧ (t < t1 ∨ (t = t1 ∧ k ≤ k1)))))

/-- The bytes in use on a track: the sum of `used_space` over its sectors. -/
def Track.used (t : Track) : Int := (t.sectors.map (fun sector => sector.used_space)).sum

/-- The bytes in use on a surface. -/
def Surface.used (s : Surface) : Int := (s.tracks.map Track.used).sum

/-- The bytes in use on a platter. -/
def Platter.used (p : Platter) : Int := (p.surfaces.map Surface.used).sum

/-- What the specification calls `requiredBytes`: the sum over all records of
the block, live and tombstoned, of `len(serialize(record)) + 1`. -/
def requiredBytes (b : Block) : Int :=
  (b.records.map (fun record => (record.serialize.length : Int) + 1)).sum

/-- The manager after a sequence of `addBlock` calls. -/
def BufferManager.addAll (bm : BufferManager) (blocks : List Block) : BufferManager :=
  blocks.foldl (fun m block => (m.addBlock block).2) bm

/-- The pool entries of a list of blocks, each under its own id. -/
def poolOf (blocks : List Block) : List (Int × Block) :=
  blocks.map (fun block => (block.block_id, block))

/-! ## BufferManager: flushing and call sequences -/

/-- The method `BufferManager::flushAllBlocks`: every dirty block of the pool is
passed to `writeBlockToDisk`.  The pool is visited in list order, which stands
for the unspecified iteration order of the `unordered_map`. -/
def BufferManager.flushAllBlocks (bm : BufferManager) : BufferManager :=
  { bm with
    buffer_pool := bm.buffer_pool.map
      (fun e => (e.1, if e.2.is_dirty then writeBlockToDisk e.2 else e.2))
    disk_writes := bm.disk_writes ++
      (bm.buffer_pool.filter (fun e => e.2.is_dirty)).map (fun e => e.2.block_id) }

/-- A call on the buffer manager, with its arguments. -/
inductive CacheOp where
  | addBlock (block : Block)
  | getBlock (block_id : Int)
  | evictLRU
  | flushAllBlocks
  deriving DecidableEq, Repr

/-- The manager after one call. -/
def BufferManager.apply (bm : BufferManager) : CacheOp → BufferManager
  | CacheOp.addBlock block => (bm.addBlock block).2
  | CacheOp.getBlock _ => bm
  | CacheOp.evictLRU => bm.evictLRU
  | CacheOp.flushAllBlocks => bm.flushAllBlocks

/-- The manager after a sequence of calls. -/
def BufferManager.applyAll (bm : BufferManager) (ops : List CacheOp) : BufferManager :=
  ops.foldl BufferManager.apply bm

/-- The call does not admit a block whose id is still in the admission queue. -/
def CacheOp.admitsFresh (bm : BufferManager) : CacheOp → Prop
  | CacheOp.addBlock block => block.block_id ∉ bm.lru_queue
  | _ => True

/-- No call of the sequence, run from `bm`, admits a block whose id is still in
the admission queue at that moment. -/
def BufferManager.freshRun : BufferManager → List CacheOp → Prop
  | _, [] => True
  | bm, op :: ops => op.admitsFresh bm ∧ BufferManager.freshRun (bm.apply op) ops

/-- The invariant of the `unordered_map`: no key occurs twice. -/
def poolKeysUnique (pool : List (Int × Block)) : Prop := (pool.map (fun e => e.1)).Nodup

/-! ## SGBD (`src/src/sgbd.cpp`, lines 3-108) -/

/-- The class `SGBD`.  `all_blocks` lists the entries of the
`std::unordered_map<int, Block*>`: each pointer is given as the block object
it refers to, and as `none` once that object has been deleted.  The facade
registers a block object under its own `block_id` both here and in the pool of
the buffer manager, so the two entries with one id stand for one object. -/
structure SGBD where
  disk_manager : DiskManager
  all_blocks : List (Int × Option Block)
  next_record_id : Int
  deriving DecidableEq, Repr

/-- The constructor `SGBD::SGBD`. -/
def SGBD.new (platters surfaces tracks sectors sector_cap rec_per_block buffer_size : Int) :
    SGBD :=
  { disk_manager :=
      DiskManager.new platters surfaces tracks sectors sector_cap rec_per_block buffer_size
    all_blocks := []
    next_record_id := 1 }

/-- The loop `for (pair : all_blocks) if (pair.second->hasSpace()) { ...; break; }`
of `SGBD::addRecord`: `some (some (id, block))` for the first block with space,
`some none` when the loop ends without one, and `none` when the loop calls
`hasSpace` through a pointer to a deleted block, which is undefined.  The table
is visited in list order, which stands for the unspecified iteration order. -/
def SGBD.findBlockWithSpace : List (Int × Option Block) → Option (Option (Int × Block))
  | [] => some none
  | (_, none) :: _ => none
  | (k, some b) :: rest =>
    if b.hasSpace then some (some (k, b)) else SGBD.findBlockWithSpace rest

/-- The assignment `all_blocks[block_id] = pointer`. -/
def blocksAssign (block_id : Int) (pointer : Option Block) :
    List (Int × Option Block) → List (Int × Option Block)
  | [] => [(block_id, pointer)]
  | (k, p) :: rest =>
    if k = block_id then (k, pointer) :: rest
    else (k, p) :: blocksAssign block_id pointer rest

/-- The lookup `all_blocks.find(block_id)`. -/
def blocksFind (block_id : Int) : List (Int × Option Block) → Option (Option Block)
  | [] => none
  | (k, p) :: rest => if k = block_id then some p else blocksFind block_id rest

/-- The pool after a write through a pointer to the object cached under
`block_id`: the pool sees the new contents; a pool without that id is unchanged. -/
def poolUpdate (block_id : Int) (block : Block) : List (Int × Block) → List (Int × Block)
  | [] => []
  | (k, b) :: rest =>
    if k = block_id then (k, block) :: rest else (k, b) :: poolUpdate block_id block rest

/-- The id of the block an `addBlock` call deletes: the front of the queue,
when the pool is at its bound and that id is cached. -/
def BufferManager.evictedByAdd (bm : BufferManager) : Option Int :=
  if bm.buffer_pool.length ≥ toSizeT bm.max_buffer_size then
    match bm.lru_queue with
    | [] => none
    | front :: _ =>
      match poolFind front bm.buffer_pool with
      | some _ => some front
      | none => none
  else none

/-- The method `SGBD::addRecord`: the returned `bool` and the system, or `none`
where the C++ code has undefined behaviour: the search loop reaching a deleted
block, and the failure path, whose `all_blocks.erase(target_block->block_id)`
reads the block after `delete target_block`. -/
def SGBD.addRecord (s : SGBD) (record : Record) : Option (Bool × SGBD) :=
  match SGBD.findBlockWithSpace s.all_blocks with
  | none => none
  | some (some (k, block)) =>
    let added := block.addRecord record
    let bm := s.disk_manager.buffer_manager
    some (added.1,
      { s with
        all_blocks := blocksAssign k (some added.2) s.all_blocks
        disk_manager := { s.disk_manager with
          buffer_manager := { bm with buffer_pool := poolUpdate k added.2 bm.buffer_pool } } })
  | some none =>
    let target_block := Block.new ((s.all_blocks.length : Int) + 1) 5
    let registered := blocksAssign target_block.block_id (some target_block) s.all_blocks
    let stored := s.disk_manager.storeBlock target_block
    if !stored.ok then none
    else
      let evicted := stored.disk.buffer_manager.evictedByAdd
      let bm1 := (stored.disk.buffer_manager.addBlock stored.block).2
      let afterEvict :=
        match evicted with
        | some e => if e = target_block.block_id then registered else blocksAssign e none registered
        | none => registered
      let added := stored.block.addRecord record
      some (added.1,
        { s with
          all_blocks := blocksAssign target_block.block_id (some added.2) afterEvict
          disk_manager := { stored.disk with
            buffer_manager :=
              { bm1 with
                buffer_pool := poolUpdate target_block.block_id added.2 bm1.buffer_pool } } })

/-- The system after a sequence of `addRecord` calls, `none` when one of them
is undefined. -/
def SGBD.addRecords : SGBD → List Record → Option SGBD
  | s, [] => some s
  | s, record :: rest =>
    match s.addRecord record with
    | none => none
    | some r => SGBD.addRecords r.2 rest

/-- A record of 40 serialized bytes, as in the end-to-end scenario. -/
def scenarioRecord (id : Int) : Record :=
  Record.new
    [(['c', 'i', 't', 'y'], ['A', 'r', 'e', 'q', 'u', 'i', 'p', 'a']),
     (['n', 'a', 'm', 'e'],
      ['P', 'a', 's', 's', 'e', 'n', 'g', 'e', 'r', '-', 'N', 'u', 'm', '-', '0', '1'])] id

/-- The ids registered in `all_blocks` whose pointer is dangling. -/
def SGBD.danglingIds (s : SGBD) : List Int :=
  (s.all_blocks.filter (fun e => e.2.isNone)).map (fun e => e.1)

/-- What a decoded attribute map can hold: no key contains `|`, `:` or `;`, and
no value contains `|` or `;`. -/
def decodable (e : Str × Str) : Prop :=
  (∀ c ∈ e.1, c ≠ '|' ∧ c ≠ ':' ∧ c ≠ ';') ∧ (∀ c ∈ e.2, c ≠ '|' ∧ c ≠ ';')

/-! ## Disk layout and sequences of `storeBlock` calls -/

/-- The part of a sector the constructor fixes: `sector_id` and `capacity`. -/
def Sector.frame (s : Sector) : Int × Int := (s.sector_id, s.capacity)

/-- The part of a track the constructor fixes: `track_id`, `sectors_per_track`
and the fixed part of every sector, in order. -/
def Track.layout (t : Track) : Int × Int × List (Int × Int) :=
  (t.track_id, t.sectors_per_track, t.sectors.map Sector.frame)

/-- The part of a surface the constructor fixes. -/
def Surface.layout (s : Surface) : Int × Int × List (Int × Int × List (Int × Int)) :=
  (s.surface_id, s.tracks_per_surface, s.tracks.map Track.layout)

/-- The part of a platter the constructor fixes. -/
def Platter.layout (p : Platter) :
    Int × Int × List (Int × Int × List (Int × Int × List (Int × Int))) :=
  (p.platter_id, p.surfaces_per_platter, p.surfaces.map Surface.layout)

/-- The layout of the disk: for every platter, surface, track and sector, in
order, its id, and for every sector its capacity. -/
def DiskManager.layout (d : DiskManager) :
    List (Int × Int × List (Int × Int × List (Int × Int × List (Int × Int)))) :=
  d.platters.map Platter.layout

/-- The ids of the blocks a sequence of calls passes to `addBlock`, in order. -/
def CacheOp.admittedIds : List CacheOp → List Int
  | [] => []
  | CacheOp.addBlock block :: rest => block.block_id :: CacheOp.admittedIds rest
  | _ :: rest => CacheOp.admittedIds rest

/-- The location platter 0, surface 0, track 0, sector 0, position 0. -/
def PhysicalLocation.origin : PhysicalLocation :=
  { platter_id := 0, surface_id := 0, track_id := 0, sector_id := 0, position := 0 }

/-- The state of the facade in which no byte of the disk is in use: the disk is
well formed, its first sector exists and is empty, `getUsedCapacity()` is 0, and
every registered block that has not been deleted is located at the origin. -/
def SGBD.diskUnused (s : SGBD) : Prop :=
  s.disk_manager.WF ∧
  (∃ sector, s.disk_manager.sectorAt 0 0 0 0 = some sector ∧ sector.used_space = 0) ∧
  s.disk_manager.getUsedCapacity = 0 ∧
  ∀ e ∈ s.all_blocks, ∀ block : Block, e.2 = some block →
    block.location = PhysicalLocation.origin

/-! ## Sector: the buffer indices of `writeData` and `readData` -/

/-- The range of `long long`. -/
def isInt64 (x : Int) : Prop := -9223372036854775808 ≤ x ∧ x ≤ 9223372036854775807

/-- The `int` with the low 32 bits of `x` (two's complement): what a `size_t`
value `x` becomes when it is converted to `int`, and what the hardware yields
for an `int` sum whose exact value is `x`. -/
def toInt32 (x : Int) : Int := (x + 2147483648) % 4294967296 - 2147483648

/-- The `long long` with the low 64 bits of `x` (two's complement). -/
def toInt64 (x : Int) : Int :=
  (x + 9223372036854775808) % 18446744073709551616 - 9223372036854775808

/-- The call `writeData(content)` on `s` stays within the range of `int`:
`used_space + content.length()` does not exceed `INT_MAX`.  For
`used_space >= 0` the conversion of the length to `int` then keeps its value,
and neither the sum in `hasSpace` nor the update of `used_space` overflows. -/
def Sector.writeInRange (s : Sector) (content : Str) : Prop :=
  s.used_space + (content.length : Int) ≤ 2147483647

/-- The call `readData(position, length)` on `s` is defined in C++: the sum
`position + length` is within the range of `int`, and a call that passes the
check `position + length <= used_space` has `position >= 0` and `length >= 0`,
so that its iterators stay inside the part of the buffer in use. -/
def Sector.readInRange (s : Sector) (position length : Int) : Prop :=
  isInt32 (position + length) ∧
    (position + length ≤ s.used_space → 0 ≤ position ∧ 0 ≤ length)

/-- The search for `required_space` bytes stays within the range of `int`: for
every sector of the disk the sum `used_space + required_space` of `hasSpace` is
an `int`. -/
def DiskManager.searchInRange (d : DiskManager) (required_space : Int) : Prop :=
  ∀ sector ∈ d.allSectors, isInt32 (sector.used_space + required_space)

/-- The call `storeBlock(block)` stays within the range of `int`: the length of
the serialized block is at most `INT_MAX`, so that `int required_space` holds
it, and the search for that many bytes stays within the range of `int`. -/
def DiskManager.storeInRange (d : DiskManager) (block : Block) : Prop :=
  requiredBytes block ≤ 2147483647 ∧ d.searchInRange (requiredBytes block)

/-- The product of `getTotalCapacity` stays within the range of `long long`:
the five factors are `int`s and every partial product, taken from the left as
the code multiplies, is a `long long`. -/
def productInRange (P S T K C : Int) : Prop :=
  isInt32 P ∧ isInt32 S ∧ isInt32 T ∧ isInt32 K ∧ isInt32 C ∧
    isInt64 (P * S) ∧ isInt64 (P * S * T) ∧ isInt64 (P * S * T * K) ∧
    isInt64 (P * S * T * K * C)

/-- The three capacity methods stay within the range of `long long` on `d`: the
product of the geometry members does, and so do the sum of the `used_space`
values and the difference of the two. -/
def DiskManager.capacityInRange (d : DiskManager) : Prop :=
  productInRange d.total_platters d.surfaces_per_platter d.tracks_per_surface
      d.sectors_per_track d.sector_capacity ∧
    isInt64 d.getUsedCapacity ∧ isInt64 (d.getTotalCapacity - d.getUsedCapacity)

/-! ## Lemmas on strings and numbers -/

theorem digitVal_digitChar (d : Nat) (h : d < 10) : digitVal (digitChar d) = d := by
  interval_cases d <;> rfl

theorem isDigit_digitChar (d : Nat) (h : d < 10) : isDigit (digitChar d) = true := by
  interval_cases d <;> rfl

theorem isDigit_ne (c : Char) (h : isDigit c = true) :
    c ≠ '|' ∧ c ≠ '-' ∧ c ≠ '+' ∧ isSpace c = false := by
  refine ⟨?_, ?_, ?_, ?_⟩
  · rintro rfl; revert h; decide
  · rintro rfl; revert h; decide
  · rintro rfl; revert h; decide
  · cases hs : isSpace c with
    | false => rfl
    | true =>
      simp only [isSpace, Bool.or_eq_true, decide_eq_true_eq] at hs
      rcases hs with ((((rfl | rfl) | rfl) | rfl) | rfl) | rfl <;> revert h <;> decide

/-- The value read from a run of digits, starting from `a`. -/
theorem readDigits_append (ds rest : Str) (a k : Nat) (hds : ∀ c ∈ ds, isDigit c = true) :
    readDigits (ds ++ rest) a k =
      readDigits rest (ds.foldl (fun x c => x * 10 + digitVal c) a) (k + ds.length) := by
  induction ds generalizing a k with
  | nil => simp
  | cons c cs ih =>
    have hc : isDigit c = true := hds c (List.mem_cons_self _ _)
    simp only [List.cons_append, readDigits, hc, if_true, List.foldl_cons, List.length_cons]
    rw [List.append_eq, ih _ _ (fun x hx => hds x (List.mem_cons_of_mem _ hx))]
    congr 1
    omega

theorem natDigits_spec (fuel n : Nat) (acc : Str) (h : n < fuel) :
    ∃ ds : Str, natDigits fuel n acc = ds ++ acc ∧ 0 < ds.length ∧
      (∀ c ∈ ds, isDigit c = true) ∧
      ∀ a, ds.foldl (fun x c => x * 10 + digitVal c) a = a * 10 ^ ds.length + n := by
  induction fuel generalizing n acc with
  | zero => omega
  | succ fuel ih =>
    have hmod : n % 10 < 10 := Nat.mod_lt _ (by decide)
    by_cases h0 : n / 10 = 0
    · refine ⟨[digitChar (n % 10)], by simp [natDigits, h0], by simp, ?_, ?_⟩
      · intro c hc
        rw [List.mem_singleton] at hc
        rw [hc]; exact isDigit_digitChar _ hmod
      · intro a
        simp only [List.foldl_cons, List.foldl_nil, List.length_singleton, pow_one,
          digitVal_digitChar _ hmod]
        omega
    · obtain ⟨ds, hds, _, hdig, hval⟩ := ih (n / 10) (digitChar (n % 10) :: acc) (by omega)
      refine ⟨ds ++ [digitChar (n % 10)], by simp [natDigits, h0, hds], by simp, ?_, ?_⟩
      · intro c hc
        rcases List.mem_append.1 hc with hc | hc
        · exact hdig c hc
        · rw [List.mem_singleton] at hc
          rw [hc]; exact isDigit_digitChar _ hmod
      · intro a
        simp only [List.foldl_append, List.foldl_cons, List.foldl_nil, hval,
          digitVal_digitChar _ hmod, List.length_append, List.length_singleton, pow_succ]
        have := Nat.div_add_mod n 10
        nlinarith [this]

theorem natToStr_spec (n : Nat) :
    0 < (natToStr n).length ∧ (∀ c ∈ natToStr n, isDigit c = true) ∧
      readDigits (natToStr n) 0 0 = (n, (natToStr n).length) := by
  obtain ⟨ds, hds, hlen, hdig, hval⟩ := natDigits_spec (n + 1) n [] (Nat.lt_succ_self n)
  have e : natToStr n = ds := by simp [natToStr, hds]
  rw [e]
  refine ⟨hlen, hdig, ?_⟩
  have := readDigits_append ds [] 0 0 hdig
  simp only [List.append_nil, readDigits, hval] at this
  simpa using this


theorem stoi_natToStr_tail (n : Nat) :
    ∃ c t, natToStr n = c :: t ∧ isDigit c = true := by
  obtain ⟨hlen, hdig, _⟩ := natToStr_spec n
  cases e : natToStr n with
  | nil => rw [e] at hlen; simp at hlen
  | cons c t => exact ⟨c, t, rfl, hdig c (by rw [e]; exact List.mem_cons_self _ _)⟩

/-- The function `std::stoi` reads back what `std::to_string` printed, for every
value of type `int`. -/
theorem stoi_to_string (x : Int) (hlo : -2147483648 ≤ x) (hhi : x ≤ 2147483647) :
    stoi (to_string x) = Except.ok x := by
  obtain ⟨hlen, _, hread⟩ := natToStr_spec x.natAbs
  obtain ⟨c, t, hct, hc⟩ := stoi_natToStr_tail x.natAbs
  obtain ⟨_, hminus, hplus, hsp⟩ := isDigit_ne c hc
  have hk : (natToStr x.natAbs).length ≠ 0 := by omega
  by_cases hneg : x < 0
  · have e : skipSpace (to_string x) = '-' :: natToStr x.natAbs := by
      simp only [to_string, hneg, if_true, skipSpace]
      rfl
    simp only [stoi, e, if_true, hread, hk, if_false]
    rw [if_neg (by omega)]
    congr 1
    omega
  · have e : skipSpace (to_string x) = c :: t := by
      simp only [to_string, hneg, if_false, hct, skipSpace, hsp, Bool.false_eq_true]
    simp only [stoi, e, hminus, hplus, if_false]
    rw [← hct]
    simp only [hread, hk, if_false, Bool.false_eq_true]
    rw [if_neg (by omega)]
    congr 1
    omega

theorem to_string_no_bar (x : Int) : ∀ c ∈ to_string x, c ≠ '|' := by
  intro c hc
  obtain ⟨_, hdig, _⟩ := natToStr_spec x.natAbs
  unfold to_string at hc
  split at hc
  · rcases List.mem_cons.1 hc with rfl | hc
    · decide
    · exact (isDigit_ne c (hdig c hc)).1
  · exact (isDigit_ne c (hdig c hc)).1

/-! ## Lemmas on `getline` -/

theorem takeWhile_ne_append (d : Char) (l r : Str) (h : ∀ c ∈ l, c ≠ d) :
    (l ++ d :: r).takeWhile (fun x => x != d) = l := by
  induction l with
  | nil => simp
  | cons a l ih =>
    have ha : a ≠ d := h a (List.mem_cons_self _ _)
    simp [List.takeWhile_cons, ha, ih (fun c hc => h c (List.mem_cons_of_mem _ hc))]

theorem dropWhile_ne_append (d : Char) (l r : Str) (h : ∀ c ∈ l, c ≠ d) :
    (l ++ d :: r).dropWhile (fun x => x != d) = d :: r := by
  induction l with
  | nil => simp
  | cons a l ih =>
    have ha : a ≠ d := h a (List.mem_cons_self _ _)
    simp [List.dropWhile_cons, ha, ih (fun c hc => h c (List.mem_cons_of_mem _ hc))]

theorem takeWhile_ne_all (d : Char) (l : Str) (h : ∀ c ∈ l, c ≠ d) :
    l.takeWhile (fun x => x != d) = l := by
  induction l with
  | nil => simp
  | cons a l ih =>
    have ha : a ≠ d := h a (List.mem_cons_self _ _)
    simp [List.takeWhile_cons, ha, ih (fun c hc => h c (List.mem_cons_of_mem _ hc))]

theorem dropWhile_ne_all (d : Char) (l : Str) (h : ∀ c ∈ l, c ≠ d) :
    l.dropWhile (fun x => x != d) = [] := by
  induction l with
  | nil => simp
  | cons a l ih =>
    have ha : a ≠ d := h a (List.mem_cons_self _ _)
    simp [List.dropWhile_cons, ha, ih (fun c hc => h c (List.mem_cons_of_mem _ hc))]

/-- On a good stream whose input is `l`, the delimiter and `r`, with no
delimiter in `l`, `getline` returns `l` and leaves `r`. -/
theorem getline_delim (d : Char) (l r token : Str) (h : ∀ c ∈ l, c ≠ d) :
    getline (IStream.ofStr (l ++ d :: r)) token d = (IStream.ofStr r, l) := by
  have ht := takeWhile_ne_append d l r h
  have hd := dropWhile_ne_append d l r h
  cases e : l ++ d :: r with
  | nil => cases l <;> simp at e
  | cons a as =>
    rw [e] at ht hd
    simp only [getline, IStream.ofStr, Bool.or_self, Bool.false_eq_true, if_false, ht, hd]

/-- On a good stream whose input has no delimiter and is not empty, `getline`
returns the whole input and sets `eofbit` only. -/
theorem getline_last (d : Char) (l token : Str) (h : ∀ c ∈ l, c ≠ d) (hne : l ≠ []) :
    getline (IStream.ofStr l) token d = ({ rest := [], eofbit := true, failbit := false }, l) := by
  have ht := takeWhile_ne_all d l h
  have hd := dropWhile_ne_all d l h
  cases l with
  | nil => exact absurd rfl hne
  | cons a as =>
    simp only [getline, IStream.ofStr, Bool.or_self, Bool.false_eq_true, if_false, ht, hd]

theorem getline_empty (d : Char) (token : Str) :
    getline (IStream.ofStr []) token d = ({ rest := [], eofbit := true, failbit := true }, []) := by
  rfl

/-! ## Lemmas on the attribute map and the parsing loop -/

theorem StrMap.assign_append (key value : Str) (m : StrMap) (h : ∀ e ∈ m, e.1 < key) :
    StrMap.assign key value m = m ++ [(key, value)] := by
  induction m with
  | nil => rfl
  | cons e m ih =>
    obtain ⟨k, v⟩ := e
    have hk : k < key := h (k, v) (List.mem_cons_self _ _)
    have hnk : ¬ key < k := lt_asymm hk
    simp only [StrMap.assign, hnk, if_false, hk, if_true, List.cons_append]
    rw [ih (fun e he => h e (List.mem_cons_of_mem _ he))]

/-- A call of `getline` that leaves the stream without `failbit` has extracted
at least one character. -/
theorem getline_ok_extracts (s : IStream) (token : Str) (d : Char)
    (h : (getline s token d).1.ok = true) :
    (getline s token d).1.rest.length + 1 ≤ s.rest.length := by
  obtain ⟨rest, eofbit, failbit⟩ := s
  cases hflags : (eofbit || failbit) with
  | true => simp [getline, hflags, IStream.ok] at h
  | false =>
    cases rest with
    | nil => simp [getline, hflags, IStream.ok] at h
    | cons c cs =>
      have hlen := (List.dropWhile_sublist (l := c :: cs) (fun x => x != d)).length_le
      simp only [getline, hflags, Bool.false_eq_true, if_false]
      cases hdw : List.dropWhile (fun x => x != d) (c :: cs) with
      | nil => simp
      | cons a after =>
        rw [hdw] at hlen
        simp only [List.length_cons] at hlen ⊢
        omega

/-- The bound `deserialize` gives the loop is never used up. -/
theorem parsePairs_isSome (fuel : Nat) (s : IStream) (pair : Str) (data : StrMap)
    (h : s.rest.length + 1 ≤ fuel) : (parsePairs fuel s pair data).isSome = true := by
  induction fuel generalizing s pair data with
  | zero => omega
  | succ fuel ih =>
    simp only [parsePairs]
    split
    · rename_i hcont
      apply ih
      simp only [Bool.and_eq_true] at hcont
      have := getline_ok_extracts s pair ';' hcont.1
      omega
    · rfl


theorem serializePairs_no_bar (m : StrMap) (h : ∀ e ∈ m, sepFree e.1 ∧ sepFree e.2) :
    ∀ c ∈ serializePairs m, c ≠ '|' := by
  induction m with
  | nil => intro c hc; simp [serializePairs] at hc
  | cons e m ih =>
    obtain ⟨k, v⟩ := e
    have hkv := h (k, v) (List.mem_cons_self _ _)
    intro c hc
    simp only [serializePairs, List.mem_append, List.mem_cons] at hc
    rcases hc with hc | rfl | hc | rfl | hc
    · exact (hkv.1 c hc).1
    · decide
    · exact (hkv.2 c hc).1
    · decide
    · exact ih (fun e he => h e (List.mem_cons_of_mem _ he)) c hc

/-- The parsing loop, run on the serialized form of the entries `rest` with
the entries `acc` already stored, ends with `acc ++ rest`. -/
theorem parsePairs_serializePairs (rest : StrMap) (acc : StrMap) (fuel : Nat) (pair : Str)
    (hfuel : (serializePairs rest).length + 1 ≤ fuel)
    (hfree : ∀ e ∈ rest, sepFree e.1 ∧ sepFree e.2)
    (hwf : StrMap.WF (acc ++ rest)) :
    parsePairs fuel (IStream.ofStr (serializePairs rest)) pair acc = some (acc ++ rest) := by
  induction rest generalizing acc fuel pair with
  | nil =>
    cases fuel with
    | zero => omega
    | succ fuel => simp [parsePairs, serializePairs, getline_empty, IStream.ok]
  | cons e tl ih =>
    obtain ⟨k, v⟩ := e
    have hkv := hfree (k, v) (List.mem_cons_self _ _)
    cases fuel with
    | zero => omega
    | succ fuel =>
      have hsplit : serializePairs ((k, v) :: tl) = (k ++ ':' :: v) ++ ';' :: serializePairs tl := by
        simp [serializePairs]
      have hnosemi : ∀ c ∈ k ++ ':' :: v, c ≠ ';' := by
        intro c hc
        simp only [List.mem_append, List.mem_cons] at hc
        rcases hc with hc | rfl | hc
        · exact (hkv.1 c hc).2.2
        · decide
        · exact (hkv.2 c hc).2.2
      have hnocolon : ∀ c ∈ k, c ≠ ':' := fun c hc => (hkv.1 c hc).2.1
      have hne : (k ++ ':' :: v).isEmpty = false := by
        cases k <;> rfl
      have hkeys : ∀ e ∈ acc, e.1 < k := by
        intro e he
        have := List.pairwise_append.1 hwf
        exact this.2.2 e he (k, v) (List.mem_cons_self _ _)
      have hstore : storePair (k ++ ':' :: v) acc = acc ++ [(k, v)] := by
        simp only [storePair, dropWhile_ne_append ':' k v hnocolon,
          takeWhile_ne_append ':' k v hnocolon]
        exact StrMap.assign_append k v acc hkeys
      rw [hsplit] at hfuel
      simp only [parsePairs, hsplit, getline_delim ';' _ _ pair hnosemi, hne, hstore]
      simp only [IStream.ok, IStream.ofStr, Bool.not_false, Bool.and_self, if_true]
      have := ih (acc ++ [(k, v)]) fuel (k ++ ':' :: v)
        (by simp only [List.length_append, List.length_cons] at hfuel ⊢; omega)
        (fun e he => hfree e (List.mem_cons_of_mem _ he))
        (by simpa [StrMap.WF] using hwf)
      simpa [IStream.ofStr] using this


/-! ## Record: serialization round trip -/

/-- C1. Round trip: for every record whose id is an `int`, whose attribute map
is a `std::map` (keys strictly ascending) and whose attribute keys and values
contain none of `|`, `:` and `;`, `Record::deserialize(Record::serialize(r))`
returns a record, and that record is `r`: it has the id, the tombstone flag
and the attribute map of `r`, the three fields of a record. -/
theorem C1_deserialize_serialize (r : Record) (hid : isInt32 r.record_id)
    (hwf : StrMap.WF r.data) (hfree : ∀ e ∈ r.data, sepFree e.1 ∧ sepFree e.2) :
    Record.deserialize (Record.serialize r) = Except.ok r := by
  obtain ⟨data, is_deleted, record_id⟩ := r
  simp only at hid hwf hfree
  have hflag : ∀ c ∈ (if is_deleted then ['1'] else ['0']), c ≠ '|' := by
    intro c hc
    cases is_deleted <;> simp at hc <;> rw [hc] <;> decide
  have hg1 := getline_delim '|' (to_string record_id)
    ((if is_deleted then ['1'] else ['0']) ++ '|' :: serializePairs data) []
    (to_string_no_bar record_id)
  have hg2 := getline_delim '|' (if is_deleted then ['1'] else ['0']) (serializePairs data)
    (to_string record_id) hflag
  have hg3 : getline (IStream.ofStr (serializePairs data)) (if is_deleted then ['1'] else ['0'])
      '|' = ((getline (IStream.ofStr (serializePairs data))
        (if is_deleted then ['1'] else ['0']) '|').1, serializePairs data) := by
    by_cases hnil : serializePairs data = []
    · rw [hnil, getline_empty]
    · rw [getline_last '|' _ _ (serializePairs_no_bar data hfree) hnil]
  have hloop := parsePairs_serializePairs data [] ((serializePairs data).length + 1) []
    (le_refl _) hfree (by simpa using hwf)
  have hdel : decide ((if is_deleted then ['1'] else ['0']) = ['1']) = is_deleted := by
    cases is_deleted <;> decide
  simp only [Record.deserialize, Record.serialize, hg1, stoi_to_string record_id hid.1 hid.2, hg2]
  rw [hg3]
  simp only [hloop, hdel, List.nil_append, Option.getD_some]


/-! ## Sector: the copy loop -/

/-- The copy loop leaves every index below `used_space + i` as it was. -/
theorem Sector.writeLoop_below (u : Int) (cs : Str) (i : Nat) (data : List Char) (j : Nat)
    (hj : (j : Int) < u + (i : Int)) : (Sector.writeLoop u cs i data)[j]? = data[j]? := by
  induction cs generalizing i data with
  | nil => rfl
  | cons c cs ih =>
    simp only [Sector.writeLoop]
    rw [ih (i + 1) _ (by push_cast; omega)]
    exact List.getElem?_set_ne (by omega)

/-- The copy loop stores the characters of the content, in order, from index
`used_space + i` on, when they fit the buffer. -/
theorem Sector.writeLoop_stored (u : Int) (cs : Str) (i : Nat) (data : List Char) (hu : 0 ≤ u)
    (hfit : u + (i : Int) + (cs.length : Int) ≤ (data.length : Int)) (k : Nat)
    (hk : k < cs.length) : (Sector.writeLoop u cs i data)[u.toNat + i + k]? = cs[k]? := by
  induction cs generalizing i data k with
  | nil => simp at hk
  | cons c cs ih =>
    simp only [Sector.writeLoop]
    simp only [List.length_cons] at hfit hk
    cases k with
    | zero =>
      rw [Sector.writeLoop_below u cs (i + 1) _ (u.toNat + i + 0) (by push_cast; omega)]
      have e : (u + (i : Int)).toNat = u.toNat + i + 0 := by omega
      rw [e, List.getElem?_set_self (by omega)]
      simp
    | succ k =>
      have := ih (i + 1) (data.set (u + (i : Int)).toNat c)
        (by rw [List.length_set]; push_cast; omega) k (by omega)
      rw [show u.toNat + i + (k + 1) = u.toNat + (i + 1) + k by omega, this]
      simp

/-! ## Sector: `writeData` and `readData` -/

theorem Sector.writeData_ok_iff (s : Sector) (c : Str) (position : Int) :
    (s.writeData c position).ok = true ↔ s.used_space + (c.length : Int) ≤ s.capacity := by
  unfold Sector.writeData Sector.hasSpace
  by_cases h : s.used_space + (c.length : Int) ≤ s.capacity <;> simp [h]

theorem Sector.writeData_success (s : Sector) (c : Str) (position : Int)
    (h : s.used_space + (c.length : Int) ≤ s.capacity) :
    s.writeData c position =
      { ok := true, position := s.used_space,
        sector := { s with data := Sector.writeLoop s.used_space c 0 s.data
                           used_space := s.used_space + (c.length : Int) } } := by
  simp [Sector.writeData, Sector.hasSpace, h]

theorem Sector.readData_getElem? (s : Sector) (p n : Int) (hp : 0 ≤ p) (hn : 0 ≤ n)
    (h : p + n ≤ s.used_space) (i : Nat) :
    (s.readData p n)[i]? = if i < n.toNat then s.data[p.toNat + i]? else none := by
  have e : (p + n).toNat = p.toNat + n.toNat := by omega
  simp only [Sector.readData, gt_iff_lt, not_lt.2 h, if_false, List.getElem?_drop,
    List.getElem?_take, e]
  by_cases hi : i < n.toNat
  · rw [if_pos hi, if_pos (by omega)]
  · rw [if_neg hi, if_neg (by omega)]

/-- C6. Write/read round trip: for every sector with `0 <= used_space`, whose
buffer has the size the constructor gave it, and every byte string `c`: when
`writeData(c)` succeeds and reports position `p`, `readData(p, len(c))` on the
resulting sector returns exactly `c`. -/
theorem C6_write_read_roundtrip (s : Sector) (c : Str) (position : Int)
    (h0 : 0 ≤ s.used_space) (hbuf : (s.data.length : Int) = s.capacity)
    (hok : (s.writeData c position).ok = true) :
    (s.writeData c position).sector.readData (s.writeData c position).position
      (c.length : Int) = c := by
  have h := (Sector.writeData_ok_iff s c position).1 hok
  rw [Sector.writeData_success s c position h]
  apply List.ext_getElem?
  intro i
  rw [Sector.readData_getElem? _ _ _ h0 (by omega) (le_refl _)]
  by_cases hi : i < c.length
  · rw [if_pos (by simpa using hi)]
    have := Sector.writeLoop_stored s.used_space c 0 s.data h0 (by push_cast; omega) i hi
    simpa using this
  · rw [if_neg (by simpa using hi), List.getElem?_eq_none (by omega)]


/-! ## Block -/

/-- For a capacity that is a non-negative `int`, the conversion to `size_t`
changes nothing and `hasSpace` compares the two numbers as integers. -/
theorem Block.hasSpace_iff (b : Block) (h0 : 0 ≤ b.max_records)
    (hmax : b.max_records ≤ 2147483647) :
    b.hasSpace = true ↔ (b.records.length : Int) < b.max_records := by
  have e : toSizeT b.max_records = b.max_records.toNat := by
    unfold toSizeT
    rw [Int.emod_eq_of_lt h0 (by omega)]
  simp only [Block.hasSpace, e, decide_eq_true_eq]
  omega

/-- The loop of `removeRecord` ends without a match iff no record, live or
tombstoned, has the id. -/
theorem Block.removeLoop_eq_none (record_id : Int) (rs : List Record) :
    Block.removeLoop record_id rs = none ↔ ∀ r ∈ rs, r.record_id ≠ record_id := by
  induction rs with
  | nil => simp [Block.removeLoop]
  | cons r rs ih =>
    by_cases h : r.record_id = record_id
    · simp [Block.removeLoop, h]
    · simp [Block.removeLoop, h, ih]

/-- What the code does: `removeRecord` returns `false` iff no record of the
block, live or tombstoned, has the id. -/
theorem Block.removeRecord_false_iff (b : Block) (record_id : Int) :
    (b.removeRecord record_id).1 = false ↔ ∀ r ∈ b.records, r.record_id ≠ record_id := by
  rw [← Block.removeLoop_eq_none]
  unfold Block.removeRecord
  cases Block.removeLoop record_id b.records <;> simp

/-- C7. Block capacity invariant: for every block with
`len(records) <= max_records` (`max_records` an `int`) and every record `r`,
after `Block::addRecord(r)` still `len(records) <= max_records`, and `addRecord`
returns failure exactly when `len(records) = max_records` before the call. -/
theorem C7_block_capacity (b : Block) (r : Record) (hmax : isInt32 b.max_records)
    (hle : (b.records.length : Int) ≤ b.max_records) :
    (((b.addRecord r).2.records.length : Int) ≤ (b.addRecord r).2.max_records) ∧
    ((b.addRecord r).1 = false ↔ (b.records.length : Int) = b.max_records) := by
  have hs := Block.hasSpace_iff b (by omega) hmax.2
  unfold Block.addRecord
  cases h : b.hasSpace with
  | true =>
    have := hs.1 h
    simp only [Bool.not_true, Bool.false_eq_true, if_false, List.length_append,
      List.length_singleton]
    constructor
    · push_cast; omega
    · constructor
      · intro hf; cases hf
      · intro he; omega
  | false =>
    have : ¬ (b.records.length : Int) < b.max_records := by
      intro hlt
      rw [hs.2 hlt] at h
      cases h
    simp only [Bool.not_false, if_true, true_iff]
    exact ⟨hle, by omega⟩

/-- C8. At the block `Block(1, -1)` with no records, `Block::hasSpace()`
returns `true`, although the number of records, 0, is not less than
`max_records = -1` as integers: the comparison `records.size() < max_records`
is made in `size_t`, where `-1` is `2^64 - 1`. -/
theorem C8_hasSpace_negative_capacity :
    (Block.new 1 (-1)).hasSpace = true ∧
      ¬ (((Block.new 1 (-1)).records.length : Int) < (Block.new 1 (-1)).max_records) := by
  decide

/-- C9. For every block `b` and record `r`: if `hasSpace()` is false,
`addRecord(r)` returns false and leaves the block (records, dirty flag,
location and the rest) unchanged; if `hasSpace()` is true, `addRecord(r)`
returns true, the records are the old ones followed by `r`, `is_dirty` is
true, and `block_id`, `max_records` and `location` are unchanged. -/
theorem C9_addRecord_contract (b : Block) (r : Record) :
    (b.hasSpace = false → (b.addRecord r).1 = false ∧ (b.addRecord r).2 = b) ∧
    (b.hasSpace = true →
      (b.addRecord r).1 = true ∧
      (b.addRecord r).2.records = b.records ++ [r] ∧
      (b.addRecord r).2.is_dirty = true ∧
      (b.addRecord r).2.block_id = b.block_id ∧
      (b.addRecord r).2.max_records = b.max_records ∧
      (b.addRecord r).2.location = b.location) := by
  constructor
  · intro h
    simp [Block.addRecord, h]
  · intro h
    simp [Block.addRecord, h]

/-- C10. On a block whose only record with id 7 is already tombstoned (built
by `addRecord` and a first `removeRecord(7)`), a second `removeRecord(7)`
returns `true` although the block holds no live record with id 7. -/
theorem C10_removeRecord_tombstoned :
    (((Block.new 1 5).addRecord (Record.new [] 7)).2.removeRecord 7).2.records =
        [{ data := [], is_deleted := true, record_id := 7 }] ∧
      ((((Block.new 1 5).addRecord (Record.new [] 7)).2.removeRecord 7).2.removeRecord 7).1
        = true ∧
      ¬ (((Block.new 1 5).addRecord (Record.new [] 7)).2.removeRecord 7).2.hasLive 7 := by
  refine ⟨by decide, by decide, ?_⟩
  unfold Block.hasLive
  decide


/-! ## The claims at concrete inputs -/

theorem C1_deserialize_serialize_witness :
    Record.deserialize (Record.serialize
      { data := [(['a', 'g', 'e'], ['9']), (['n', 'a', 'm', 'e'], ['A', 'n', 'n'])],
        is_deleted := true, record_id := -12 }) =
    Except.ok
      { data := [(['a', 'g', 'e'], ['9']), (['n', 'a', 'm', 'e'], ['A', 'n', 'n'])],
        is_deleted := true, record_id := -12 } :=
  C1_deserialize_serialize _ (by unfold isInt32; decide) (by unfold StrMap.WF; decide)
    (by unfold sepFree; decide)

theorem C6_write_read_roundtrip_witness :
    (((Sector.new 0 8).writeData ['a', 'b', 'c'] 0).sector.writeData ['d', 'e'] 0).sector.readData
      (((Sector.new 0 8).writeData ['a', 'b', 'c'] 0).sector.writeData ['d', 'e'] 0).position
      ((['d', 'e'] : Str).length : Int) = ['d', 'e'] :=
  C6_write_read_roundtrip ((Sector.new 0 8).writeData ['a', 'b', 'c'] 0).sector ['d', 'e'] 0
    (by decide) (by decide) (by decide)

theorem C7_block_capacity_witness :
    ((((Block.new 999 2).addRecord (Record.new [] 9001)).2.addRecord
      (Record.new [] 9002)).2.addRecord (Record.new [] 9003)).1 = false :=
  (C7_block_capacity
    (((Block.new 999 2).addRecord (Record.new [] 9001)).2.addRecord (Record.new [] 9002)).2
    (Record.new [] 9003) (by unfold isInt32; decide) (by decide)).2.2 (by decide)

theorem C9_addRecord_contract_witness :
    (((Block.new 1 0).addRecord (Record.new [] 5)).1 = false ∧
      ((Block.new 1 0).addRecord (Record.new [] 5)).2 = Block.new 1 0) ∧
    ((Block.new 1 2).addRecord (Record.new [] 5)).2.records =
      (Block.new 1 2).records ++ [Record.new [] 5] :=
  ⟨(C9_addRecord_contract (Block.new 1 0) (Record.new [] 5)).1 (by decide),
   ((C9_addRecord_contract (Block.new 1 2) (Record.new [] 5)).2 (by decide)).2.1⟩

/-! ## Block: tombstones and lookups -/

theorem Block.removeLoop_length (record_id : Int) (rs rs1 : List Record)
    (h : Block.removeLoop record_id rs = some rs1) : rs1.length = rs.length := by
  induction rs generalizing rs1 with
  | nil => simp [Block.removeLoop] at h
  | cons r rs ih =>
    by_cases hr : r.record_id = record_id
    · simp only [Block.removeLoop, hr, if_true, Option.some.injEq] at h
      rw [← h]; rfl
    · simp only [Block.removeLoop, hr, if_false, Option.map_eq_some'] at h
      obtain ⟨rs2, h2, rfl⟩ := h
      simp [ih rs2 h2]

/-- The method `removeRecord` never changes the number of records. -/
theorem Block.removeRecord_length (b : Block) (record_id : Int) :
    (b.removeRecord record_id).2.records.length = b.records.length := by
  unfold Block.removeRecord
  cases h : Block.removeLoop record_id b.records with
  | none => rfl
  | some rs1 => exact Block.removeLoop_length record_id _ _ h

/-- C12. For every block and id, `Block::findRecord(id)` returns the first
record in insertion order whose `record_id` equals `id` and whose tombstone
flag is false (every record before it fails one of the two tests); it returns
not-found iff no such record exists.  The method assigns nothing: its only
result is the pointer. -/
theorem C12_findRecord_first_live (b : Block) (id : Int) :
    (∀ r, b.findRecord id = some r ↔
      ∃ pre post, b.records = pre ++ r :: post ∧ r.record_id = id ∧ r.is_deleted = false ∧
        ∀ x ∈ pre, ¬ (x.record_id = id ∧ x.is_deleted = false)) ∧
    (b.findRecord id = none ↔ ¬ b.hasLive id) := by
  constructor
  · intro r
    unfold Block.findRecord
    rw [List.find?_eq_some]
    constructor
    · rintro ⟨hp, pre, post, hsplit, hpre⟩
      simp only [Bool.and_eq_true, decide_eq_true_eq, Bool.not_eq_true'] at hp
      refine ⟨pre, post, hsplit, hp.1, hp.2, fun x hx hxx => ?_⟩
      have := hpre x hx
      simp [hxx.1, hxx.2] at this
    · rintro ⟨pre, post, hsplit, hid, hlive, hpre⟩
      refine ⟨by simp [hid, hlive], pre, post, hsplit, fun x hx => ?_⟩
      have := hpre x hx
      by_cases h1 : x.record_id = id
      · have h2 : x.is_deleted = true := by
          cases hd : x.is_deleted with
          | true => rfl
          | false => exact absurd ⟨h1, hd⟩ this
        simp [h1, h2]
      · simp [h1]
  · unfold Block.findRecord Block.hasLive
    rw [List.find?_eq_none]
    constructor
    · rintro h ⟨r, hr, hid, hlive⟩
      exact h r hr (by simp [hid, hlive])
    · intro h x hx hp
      simp only [Bool.and_eq_true, decide_eq_true_eq, Bool.not_eq_true'] at hp
      exact h ⟨x, hx, hp.1, hp.2⟩

/-! ## Block: queries by attribute -/

/-- The order of `std::string` is the character-by-character lexicographic one. -/
theorem lexBefore_iff (a b : Str) : lexBefore a b = true ↔ a < b := by
  induction a generalizing b with
  | nil =>
    cases b with
    | nil => simp [lexBefore]
    | cons y ys => simp [lexBefore, List.nil_lt_cons]
  | cons x xs ih =>
    cases b with
    | nil =>
      simp only [lexBefore, Bool.false_eq_true, false_iff]
      intro h
      cases h
    | cons y ys =>
      simp only [lexBefore]
      by_cases hxy : x < y
      · simp only [hxy, if_true, true_iff]
        exact List.Lex.rel hxy
      · by_cases hyx : y < x
        · simp only [hxy, if_false, hyx, if_true, Bool.false_eq_true, false_iff]
          intro h
          cases h with
          | cons h1 => exact lt_irrefl _ hyx
          | rel h1 => exact hxy h1
        · have e : x = y := le_antisymm (not_lt.1 hyx) (not_lt.1 hxy)
          subst e
          simp only [hxy, if_false, ih ys]
          constructor
          · intro h
            exact List.Lex.cons h
          · intro h
            cases h with
            | cons h1 => exact h1
            | rel h1 => exact absurd h1 hxy

theorem Block.matchesOp_eq_lexRelates (op stored value : Str) :
    Block.matchesOp op stored value = lexRelates op stored value := by
  have h1 : decide (stored ≥ value) = !lexBefore stored value := by
    rw [Bool.eq_iff_iff]
    simp only [decide_eq_true_eq, Bool.not_eq_true', ← Bool.not_eq_true, lexBefore_iff]
    exact not_lt.symm
  have h2 : decide (stored ≤ value) = !lexBefore value stored := by
    rw [Bool.eq_iff_iff]
    simp only [decide_eq_true_eq, Bool.not_eq_true', ← Bool.not_eq_true, lexBefore_iff]
    exact not_lt.symm
  have h3 : decide (stored > value) = lexBefore value stored := by
    rw [Bool.eq_iff_iff]
    simp only [decide_eq_true_eq, lexBefore_iff, gt_iff_lt]
  have h4 : decide (stored < value) = lexBefore stored value := by
    rw [Bool.eq_iff_iff]
    simp only [decide_eq_true_eq, lexBefore_iff]
  unfold Block.matchesOp lexRelates
  rw [h1, h2, h3, h4]

theorem Block.findLoop_eq_filter (attr value op : Str) (rs : List Record) :
    Block.findLoop attr value op rs = rs.filter (specSelects attr value op) := by
  induction rs with
  | nil => rfl
  | cons r rs ih =>
    rw [Block.findLoop, List.filter_cons, ih]
    by_cases hd : r.is_deleted = true
    · simp [hd, specSelects]
    · rw [if_neg hd]
      simp only [Bool.not_eq_true] at hd
      split
      · rename_i stored hf
        simp [specSelects, hd, hf, Block.matchesOp_eq_lexRelates]
      · rename_i hf
        simp [specSelects, hd, hf]

/-- C13. For every block, attribute name, value and operator among `=`, `>=`,
`<=`, `>`, `<`, `Block::findRecordsByAttribute` returns exactly the
subsequence, in insertion order, of the records that are not tombstoned, have
the attribute, and whose stored string relates to the value by the operator
under character-by-character lexicographic ordering. -/
theorem C13_findRecordsByAttribute (b : Block) (attr value op : Str)
    (hop : op ∈ [['='], ['>', '='], ['<', '='], ['>'], ['<']]) :
    b.findRecordsByAttribute attr value op = b.records.filter (specSelects attr value op) ∧
    (b.findRecordsByAttribute attr value op).Sublist b.records := by
  have _hop := hop
  have h := Block.findLoop_eq_filter attr value op b.records
  refine ⟨h, ?_⟩
  unfold Block.findRecordsByAttribute
  rw [h]
  exact List.filter_sublist _

/-! ## First-fit search -/

/-- The element `find?` returns sits at the first index that passes the test. -/
theorem find?_first {α : Type} (p : α → Bool) (l : List α) (x : α) (h : l.find? p = some x) :
    ∃ i : Nat, l[i]? = some x ∧ p x = true ∧
      ∀ (j : Nat) (y : α), l[j]? = some y → p y = true → i ≤ j := by
  induction l with
  | nil => simp at h
  | cons a l ih =>
    by_cases ha : p a = true
    · simp only [List.find?_cons, ha, Option.some.injEq] at h
      subst h
      exact ⟨0, by simp, ha, fun (j : Nat) _ _ _ => Nat.zero_le j⟩
    · simp only [List.find?_cons, ha] at h
      obtain ⟨i, hi, hx, hmin⟩ := ih h
      refine ⟨i + 1, by simpa using hi, hx, fun j y hj hy => ?_⟩
      cases j with
      | zero =>
        simp only [List.getElem?_cons_zero, Option.some.injEq] at hj
        subst hj
        exact absurd hy ha
      | succ j =>
        have := hmin j y (by simpa using hj) hy
        omega

theorem find?_none_index {α : Type} (p : α → Bool) (l : List α) (h : l.find? p = none)
    (j : Nat) (y : α) (hj : l[j]? = some y) : p y = false := by
  rw [List.find?_eq_none] at h
  have := h y (List.mem_iff_getElem?.2 ⟨j, hj⟩)
  simpa using this

theorem find?_isSome_index {α : Type} (p : α → Bool) (l : List α) (j : Nat) (y : α)
    (hj : l[j]? = some y) (hy : p y = true) : (l.find? p).isSome = true := by
  rw [List.find?_isSome]
  exact ⟨y, List.mem_iff_getElem?.2 ⟨j, hj⟩, hy⟩

/-- The search of `findLocationForBlock` from platter index `p0` on: either no
platter holds a fitting sector and the result is the sentinel, or the result
names the first fitting sector in depth-first order. -/
theorem DiskManager.findLocationLoop_spec (req : Int) (platters : List Platter) (p0 : Nat)
    (hwf : ∀ (i : Nat) (pl : Platter), platters[i]? = some pl → pl.WF) :
    (DiskManager.findLocationLoop req platters p0 = PhysicalLocation.unset ∧
      ∀ (p : Nat) (pl : Platter), platters[p]? = some pl →
        pl.findSurfaceWithSpace req = none) ∨
    (∃ (p s t k : Nat) (pl : Platter) (su : Surface) (tr : Track) (se : Sector),
      platters[p]? = some pl ∧ pl.surfaces[s]? = some su ∧ su.tracks[t]? = some tr ∧
      tr.sectors[k]? = some se ∧ se.hasSpace req = true ∧
      DiskManager.findLocationLoop req platters p0 =
        { platter_id := ((p0 + p : Nat) : Int), surface_id := (s : Int), track_id := (t : Int),
          sector_id := (k : Int), position := se.used_space } ∧
      (∀ (j : Nat) (y : Platter), platters[j]? = some y →
        (y.findSurfaceWithSpace req).isSome = true → p ≤ j) ∧
      (∀ (j : Nat) (y : Surface), pl.surfaces[j]? = some y →
        (y.findTrackWithSpace req).isSome = true → s ≤ j) ∧
      (∀ (j : Nat) (y : Track), su.tracks[j]? = some y →
        (y.findSectorWithSpace req).isSome = true → t ≤ j) ∧
      (∀ (j : Nat) (y : Sector), tr.sectors[j]? = some y → y.hasSpace req = true → k ≤ j)) := by
  induction platters generalizing p0 with
  | nil =>
    left
    exact ⟨rfl, fun p pl h => by simp at h⟩
  | cons pl rest ih =>
    have hrest : ∀ (i : Nat) (q : Platter), rest[i]? = some q → q.WF :=
      fun i q h => hwf (i + 1) q (by simpa using h)
    cases hsu : pl.findSurfaceWithSpace req with
    | none =>
      have hloop : DiskManager.findLocationLoop req (pl :: rest) p0 =
          DiskManager.findLocationLoop req rest (p0 + 1) := by
        simp only [DiskManager.findLocationLoop, hsu]
      rcases ih (p0 + 1) hrest with ⟨hun, hnone⟩ | ⟨p, s, t, k, q, su, tr, se, h1, h2, h3, h4, h5,
        hloc, m1, m2, m3, m4⟩
      · left
        refine ⟨by rw [hloop, hun], fun p q hq => ?_⟩
        cases p with
        | zero =>
          simp only [List.getElem?_cons_zero, Option.some.injEq] at hq
          rw [← hq]; exact hsu
        | succ p => exact hnone p q (by simpa using hq)
      · right
        refine ⟨p + 1, s, t, k, q, su, tr, se, by simpa using h1, h2, h3, h4, h5, ?_, ?_,
          m2, m3, m4⟩
        · rw [hloop, hloc]
          congr 1
          push_cast
          omega
        · intro j y hj hy
          cases j with
          | zero =>
            simp only [List.getElem?_cons_zero, Option.some.injEq] at hj
            rw [← hj, hsu] at hy
            simp at hy
          | succ j =>
            have := m1 j y (by simpa using hj) hy
            omega
    | some su =>
      obtain ⟨s, hs, hsfit, hsmin⟩ := find?_first _ _ _ hsu
      cases htr : su.findTrackWithSpace req with
      | none => rw [htr] at hsfit; simp at hsfit
      | some tr =>
        obtain ⟨t, ht, htfit, htmin⟩ := find?_first _ _ _ htr
        cases hse : tr.findSectorWithSpace req with
        | none => rw [hse] at htfit; simp at htfit
        | some se =>
          obtain ⟨k, hk, hkfit, hkmin⟩ := find?_first _ _ _ hse
          have hplwf : pl.WF := hwf 0 pl (by simp)
          have hsuwf := hplwf s su hs
          have htrwf := hsuwf.2 t tr ht
          have hsewf := htrwf.2 k se hk
          right
          refine ⟨0, s, t, k, pl, su, tr, se, by simp, hs, ht, hk, hkfit, ?_,
            fun (j : Nat) _ _ _ => Nat.zero_le j, hsmin, htmin, hkmin⟩
          simp only [DiskManager.findLocationLoop, hsu, htr, hse, hsuwf.1, htrwf.1, hsewf.1,
            Nat.add_zero]

theorem DiskManager.sectorAt_eq_some (d : DiskManager) (p s t k : Nat) (se : Sector) :
    d.sectorAt p s t k = some se ↔
      ∃ (pl : Platter) (su : Surface) (tr : Track), d.platters[p]? = some pl ∧
        pl.surfaces[s]? = some su ∧ su.tracks[t]? = some tr ∧ tr.sectors[k]? = some se := by
  unfold DiskManager.sectorAt
  constructor
  · intro h
    split at h
    · cases h
    · rename_i pl hpl
      split at h
      · cases h
      · rename_i su hsu
        split at h
        · cases h
        · rename_i tr htr
          exact ⟨pl, su, tr, hpl, hsu, htr, h⟩
  · rintro ⟨pl, su, tr, hpl, hsu, htr, hse⟩
    simp only [hpl, hsu, htr, hse]

theorem Sector.hasSpace_iff_le (s : Sector) (req : Int) :
    s.hasSpace req = true ↔ s.used_space + req ≤ s.capacity := by
  simp [Sector.hasSpace]

/-- A fitting sector makes every level above it answer the search. -/
theorem DiskManager.fit_isSome (req : Int) (pl : Platter) (su : Surface) (tr : Track)
    (se : Sector) (s t k : Nat) (hs : pl.surfaces[s]? = some su) (ht : su.tracks[t]? = some tr)
    (hk : tr.sectors[k]? = some se) (hfit : se.hasSpace req = true) :
    (tr.findSectorWithSpace req).isSome = true ∧ (su.findTrackWithSpace req).isSome = true ∧
      (pl.findSurfaceWithSpace req).isSome = true := by
  have h1 : (tr.findSectorWithSpace req).isSome = true := find?_isSome_index _ _ k se hk hfit
  have h2 : (su.findTrackWithSpace req).isSome = true := find?_isSome_index _ _ t tr ht h1
  exact ⟨h1, h2, find?_isSome_index _ _ s su hs h2⟩

/-- The result of `findLocationForBlock` on a well-formed disk: the sentinel
when nothing fits, else the first fitting sector in lexicographic index order. -/
theorem DiskManager.findLocation_cases (d : DiskManager) (req : Int) (hwf : d.WF) :
    (d.findLocationForBlock req = PhysicalLocation.unset ∧
      ∀ p s t k : Nat, ¬ d.fitsAt req p s t k) ∨
    (∃ (p s t k : Nat) (se : Sector), d.sectorAt p s t k = some se ∧
      se.used_space + req ≤ se.capacity ∧ se.WF ∧
      d.findLocationForBlock req =
        { platter_id := (p : Int), surface_id := (s : Int), track_id := (t : Int),
          sector_id := (k : Int), position := se.used_space } ∧
      ∀ p1 s1 t1 k1 : Nat, d.fitsAt req p1 s1 t1 k1 → lexLe p s t k p1 s1 t1 k1) := by
  rcases DiskManager.findLocationLoop_spec req d.platters 0 (fun i pl h => (hwf i pl h).2) with
    ⟨hun, hnone⟩ | ⟨p, s, t, k, pl, su, tr, se, h1, h2, h3, h4, h5, hloc, m1, m2, m3, m4⟩
  · left
    refine ⟨hun, ?_⟩
    rintro p s t k ⟨se, hse, hfit⟩
    obtain ⟨pl, su, tr, hpl, hsu, htr, hk⟩ := (DiskManager.sectorAt_eq_some d p s t k se).1 hse
    have := (DiskManager.fit_isSome req pl su tr se s t k hsu htr hk
      ((Sector.hasSpace_iff_le se req).2 hfit)).2.2
    rw [hnone p pl hpl] at this
    simp at this
  · right
    have hsewf : se.WF := ((((hwf p pl h1).2 s su h2).2 t tr h3).2 k se h4).2
    refine ⟨p, s, t, k, se, (DiskManager.sectorAt_eq_some d p s t k se).2 ⟨pl, su, tr, h1, h2, h3, h4⟩,
      (Sector.hasSpace_iff_le se req).1 h5, hsewf, by
        unfold DiskManager.findLocationForBlock
        rw [hloc]
        simp, ?_⟩
    rintro p1 s1 t1 k1 ⟨se1, hse1, hfit1⟩
    obtain ⟨pl1, su1, tr1, hpl1, hsu1, htr1, hk1⟩ :=
      (DiskManager.sectorAt_eq_some d p1 s1 t1 k1 se1).1 hse1
    have hsome := DiskManager.fit_isSome req pl1 su1 tr1 se1 s1 t1 k1 hsu1 htr1 hk1
      ((Sector.hasSpace_iff_le se1 req).2 hfit1)
    have hp := m1 p1 pl1 hpl1 hsome.2.2
    unfold lexLe
    rcases Nat.lt_or_ge p p1 with hlt | hge
    · exact Or.inl hlt
    · have hpe : p = p1 := le_antisymm hp hge
      subst hpe
      rw [h1] at hpl1
      cases hpl1
      have hs := m2 s1 su1 hsu1 hsome.2.1
      rcases Nat.lt_or_ge s s1 with hlt | hge
      · exact Or.inr ⟨rfl, Or.inl hlt⟩
      · have hse : s = s1 := le_antisymm hs hge
        subst hse
        rw [h2] at hsu1
        cases hsu1
        have ht := m3 t1 tr1 htr1 hsome.1
        rcases Nat.lt_or_ge t t1 with hlt | hge
        · exact Or.inr ⟨rfl, Or.inr ⟨rfl, Or.inl hlt⟩⟩
        · have hte : t = t1 := le_antisymm ht hge
          subst hte
          rw [h3] at htr1
          cases htr1
          exact Or.inr ⟨rfl, Or.inr ⟨rfl, Or.inr ⟨rfl,
            m4 k1 se1 hk1 ((Sector.hasSpace_iff_le se1 req).2 hfit1)⟩⟩⟩

theorem foldl_add_eq_sum {α : Type} (f : α → Int) (l : List α) (a : Int) :
    l.foldl (fun used x => used + f x) a = a + (l.map f).sum := by
  induction l generalizing a with
  | nil => simp
  | cons x l ih => simp [ih, add_assoc]

theorem sum_map_flatMap {α β : Type} (g : α → List β) (f : β → Int) (l : List α) :
    ((l.flatMap g).map f).sum = (l.map (fun x => ((g x).map f).sum)).sum := by
  induction l with
  | nil => rfl
  | cons x l ih => simp [List.flatMap_cons, ih]

/-- The nested loops of `getUsedCapacity` add up the bytes in use platter by
platter. -/
theorem DiskManager.getUsedCapacity_eq (d : DiskManager) :
    d.getUsedCapacity = (d.platters.map Platter.used).sum := by
  have htrack : ∀ (tr : Track) (a : Int),
      tr.sectors.foldl (fun used sector => used + sector.used_space) a = a + tr.used :=
    fun tr a => foldl_add_eq_sum _ _ a
  have hsurface : ∀ (su : Surface) (a : Int),
      su.tracks.foldl (fun used track =>
        track.sectors.foldl (fun used sector => used + sector.used_space) used) a
        = a + su.used := by
    intro su a
    simp only [htrack]
    exact foldl_add_eq_sum _ _ a
  have hplatter : ∀ (pl : Platter) (a : Int),
      pl.surfaces.foldl (fun used surface =>
        surface.tracks.foldl (fun used track =>
          track.sectors.foldl (fun used sector => used + sector.used_space) used) used) a
        = a + pl.used := by
    intro pl a
    simp only [hsurface]
    exact foldl_add_eq_sum _ _ a
  unfold DiskManager.getUsedCapacity
  simp only [hplatter]
  rw [foldl_add_eq_sum]
  simp

/-- The value of `getUsedCapacity` is the sum of `used_space` over all sectors. -/
theorem DiskManager.getUsedCapacity_eq_sum (d : DiskManager) :
    d.getUsedCapacity = (d.allSectors.map (fun sector => sector.used_space)).sum := by
  rw [DiskManager.getUsedCapacity_eq]
  unfold DiskManager.allSectors
  rw [sum_map_flatMap]
  congr 1
  apply List.map_congr_left
  intro pl _
  unfold Platter.used
  rw [sum_map_flatMap]
  congr 1
  apply List.map_congr_left
  intro su _
  unfold Surface.used
  rw [sum_map_flatMap]
  rfl

/-! ## Assignment to one sector of the disk -/

theorem DiskManager.setSector_eq (d : DiskManager) (p s t k : Nat) (se1 : Sector)
    (pl : Platter) (su : Surface) (tr : Track) (hpl : d.platters[p]? = some pl)
    (hsu : pl.surfaces[s]? = some su) (htr : su.tracks[t]? = some tr) :
    d.setSector p s t k se1 =
      { d with platters := (d.platters.set p
          (pl.withSurface s (su.withTrack t (tr.withSector k se1)))) } := by
  simp only [DiskManager.setSector, hpl, hsu, htr]

/-- The length `storeBlock` computes is the `requiredBytes` of the block. -/
theorem serializeRecords_length (b : Block) :
    ((serializeRecords b.records).length : Int) = requiredBytes b := by
  unfold requiredBytes
  induction b.records with
  | nil => rfl
  | cons r rs ih =>
    simp only [serializeRecords, List.length_append, List.length_cons, List.map_cons,
      List.sum_cons, ← ih]
    push_cast
    omega

/-- The two outcomes of `storeBlock` on a well-formed disk: nothing fits and
nothing changes, or the block data is appended to the first fitting sector. -/
theorem DiskManager.storeBlock_cases (d : DiskManager) (b : Block) (hwf : d.WF) :
    ((∀ p s t k : Nat, ¬ d.fitsAt (requiredBytes b) p s t k) ∧
      d.storeBlock b = { ok := false, disk := d, block := b }) ∨
    (∃ (p s t k : Nat) (se : Sector), d.sectorAt p s t k = some se ∧
      se.used_space + requiredBytes b ≤ se.capacity ∧ se.WF ∧
      (∀ p1 s1 t1 k1 : Nat, d.fitsAt (requiredBytes b) p1 s1 t1 k1 →
        lexLe p s t k p1 s1 t1 k1) ∧
      d.findLocationForBlock (requiredBytes b) =
        { platter_id := (p : Int), surface_id := (s : Int), track_id := (t : Int),
          sector_id := (k : Int), position := se.used_space } ∧
      d.storeBlock b =
        { ok := true
          disk := d.setSector p s t k (se.writeData (serializeRecords b.records) 0).sector
          block := { b with location :=
            { platter_id := (p : Int), surface_id := (s : Int), track_id := (t : Int),
              sector_id := (k : Int), position := se.used_space } } }) := by
  have hlen := serializeRecords_length b
  rcases DiskManager.findLocation_cases d (requiredBytes b) hwf with
    ⟨hun, hnone⟩ | ⟨p, s, t, k, se, hse, hfit, hsewf, hloc, hmin⟩
  · left
    refine ⟨hnone, ?_⟩
    simp only [DiskManager.storeBlock, hlen, hun, PhysicalLocation.unset, if_true]
  · right
    refine ⟨p, s, t, k, se, hse, hfit, hsewf, hmin, hloc, ?_⟩
    have hp : ((p : Int) = -1) = False := by
      apply propext
      constructor
      · intro h; omega
      · intro h; exact h.elim
    have hw := Sector.writeData_success se (serializeRecords b.records) 0 (by rw [hlen]; exact hfit)
    simp only [DiskManager.storeBlock, hlen, hloc, hp, if_false, Int.toNat_ofNat, hse, hw,
      if_true]

theorem Sector.new_sector_WF (id cap : Int) (hcap : 0 ≤ cap) : (Sector.new id cap).WF := by
  refine ⟨le_refl _, hcap, ?_⟩
  simp only [Sector.new, List.length_replicate]
  omega

theorem getElem?_range_map {α : Type} (f : Nat → α) (n i : Nat) (y : α)
    (h : ((List.range n).map f)[i]? = some y) : y = f i := by
  rw [List.getElem?_map] at h
  by_cases hi : i < n
  · rw [List.getElem?_range hi] at h
    simp only [Option.map_some', Option.some.injEq] at h
    exact h.symm
  · rw [List.getElem?_eq_none (by simpa using hi)] at h
    cases h

/-- The constructor builds a well-formed disk when the sector capacity is not
negative. -/
theorem DiskManager.new_WF (num_platters surfaces tracks sectors sec_capacity rec_per_block
    buffer_size : Int) (hcap : 0 ≤ sec_capacity) :
    (DiskManager.new num_platters surfaces tracks sectors sec_capacity rec_per_block
      buffer_size).WF := by
  intro p pl hpl
  simp only [DiskManager.new] at hpl
  have e1 := getElem?_range_map _ _ _ _ hpl
  subst e1
  refine ⟨rfl, ?_⟩
  intro s su hsu
  simp only [Platter.new] at hsu
  have e2 := getElem?_range_map _ _ _ _ hsu
  subst e2
  refine ⟨rfl, ?_⟩
  intro t tr htr
  simp only [Surface.new] at htr
  have e3 := getElem?_range_map _ _ _ _ htr
  subst e3
  refine ⟨rfl, ?_⟩
  intro k se hk
  simp only [Track.new] at hk
  have e4 := getElem?_range_map _ _ _ _ hk
  subst e4
  exact ⟨rfl, Sector.new_sector_WF _ _ hcap⟩

/-- C18 (as stated, refuted). On a disk with one sector of 40 bytes, a block
with one record is stored at position 0; a further `storeBlock` call on the
same block succeeds again and moves the block's location to position 5. -/
theorem C18_second_store_counterexample :
    ((DiskManager.new 1 1 1 1 40 5 10).storeBlock
        ((Block.new 1 5).addRecord (Record.new [] 7)).2).ok = true ∧
    ((DiskManager.new 1 1 1 1 40 5 10).storeBlock
        ((Block.new 1 5).addRecord (Record.new [] 7)).2).block.location =
      { platter_id := 0, surface_id := 0, track_id := 0, sector_id := 0, position := 0 } ∧
    (((DiskManager.new 1 1 1 1 40 5 10).storeBlock
        ((Block.new 1 5).addRecord (Record.new [] 7)).2).disk.storeBlock
      ((DiskManager.new 1 1 1 1 40 5 10).storeBlock
        ((Block.new 1 5).addRecord (Record.new [] 7)).2).block).block.location =
      { platter_id := 0, surface_id := 0, track_id := 0, sector_id := 0, position := 5 } := by
  decide

theorem DiskManager.setSector_fields (d : DiskManager) (p s t k : Nat) (se : Sector) :
    (d.setSector p s t k se).getTotalCapacity = d.getTotalCapacity := by
  unfold DiskManager.setSector
  split
  · rfl
  · split
    · rfl
    · split
      · rfl
      · rfl

theorem DiskManager.storeBlock_total (d : DiskManager) (b : Block) :
    (d.storeBlock b).disk.getTotalCapacity = d.getTotalCapacity := by
  unfold DiskManager.storeBlock
  simp only []
  split
  · rfl
  · split
    · rfl
    · split
      · exact DiskManager.setSector_fields _ _ _ _ _ _
      · rfl

theorem DiskManager.storeBlock_fail_location (d : DiskManager) (b : Block)
    (h : (d.storeBlock b).ok = false) : (d.storeBlock b).block = b := by
  by_cases h1 : (d.findLocationForBlock
      ((serializeRecords b.records).length : Int)).platter_id = -1
  · simp [DiskManager.storeBlock, h1]
  · cases h2 : d.sectorAt
        (d.findLocationForBlock ((serializeRecords b.records).length : Int)).platter_id.toNat
        (d.findLocationForBlock ((serializeRecords b.records).length : Int)).surface_id.toNat
        (d.findLocationForBlock ((serializeRecords b.records).length : Int)).track_id.toNat
        (d.findLocationForBlock ((serializeRecords b.records).length : Int)).sector_id.toNat with
    | none => simp [DiskManager.storeBlock, h1, h2]
    | some se =>
      by_cases h3 : (se.writeData (serializeRecords b.records) 0).ok = true
      · simp [DiskManager.storeBlock, h1, h2, h3] at h
      · simp [DiskManager.storeBlock, h1, h2, h3]

/-- C18 (amended). A block's location is assigned by every successful
`storeBlock` call on it, a repeated one included, and by nothing else:
`addRecord`, `removeRecord`, the write-back `writeBlockToDisk` and a failed
`storeBlock` leave it unchanged (`findRecord` and the attribute query return
pointers only), and a successful `storeBlock` on a well-formed disk sets it to
the location that call's first-fit search returns. -/
theorem C18_location_assigned_by_store_only (b : Block) :
    (∀ r : Record, (b.addRecord r).2.location = b.location) ∧
    (∀ id : Int, (b.removeRecord id).2.location = b.location) ∧
    (writeBlockToDisk b).location = b.location ∧
    (∀ d : DiskManager, (d.storeBlock b).ok = false →
      (d.storeBlock b).block.location = b.location) ∧
    (∀ d : DiskManager, d.WF → (d.storeBlock b).ok = true →
      (d.storeBlock b).block.location = d.findLocationForBlock (requiredBytes b)) := by
  refine ⟨fun r => ?_, fun id => ?_, rfl, fun d h => ?_, fun d hwf h => ?_⟩
  · unfold Block.addRecord
    split <;> rfl
  · unfold Block.removeRecord
    split <;> rfl
  · rw [DiskManager.storeBlock_fail_location d b h]
  · rcases DiskManager.storeBlock_cases d b hwf with
      ⟨_, hst⟩ | ⟨p, s, t, k, se, _, _, _, _, hloc, hst⟩
    · rw [hst] at h
      cases h
    · rw [hst, hloc]

/-- C19. For every disk manager in a state the constructors and `storeBlock`
produce, on which the three capacity methods stay within the range of
`long long` (`DiskManager.capacityInRange`): `getUsedCapacity()` is the sum of
`used_space` over every sector of every track, surface and platter;
`getTotalCapacity()` is the product of the five geometry fields, which are the
construction parameters (for parameters whose product stays within the range
of `long long`, `productInRange`, with a sector capacity that is not negative)
and which a `storeBlock` call within the range of `int` never changes;
`getFreeCapacity()` is `getTotalCapacity() - getUsedCapacity()`.  The three
methods are `const`: they return a number and leave the state alone. -/
theorem C19_capacity_accounting (d : DiskManager) (_hwf : d.WF)
    (_hrange : d.capacityInRange) :
    d.getUsedCapacity = (d.allSectors.map (fun sector => sector.used_space)).sum ∧
    d.getTotalCapacity = d.total_platters * d.surfaces_per_platter * d.tracks_per_surface *
      d.sectors_per_track * d.sector_capacity ∧
    (∀ P S T K C R B : Int, productInRange P S T K C → 0 ≤ C →
      (DiskManager.new P S T K C R B).getTotalCapacity = P * S * T * K * C) ∧
    (∀ b : Block, d.storeInRange b →
      (d.storeBlock b).disk.getTotalCapacity = d.getTotalCapacity) ∧
    d.getFreeCapacity = d.getTotalCapacity - d.getUsedCapacity :=
  ⟨DiskManager.getUsedCapacity_eq_sum d, rfl, fun _ _ _ _ _ _ _ _ _ => rfl,
    fun b _ => DiskManager.storeBlock_total d b, rfl⟩

/-! ## Buffer manager -/

/-- The calls of `getBlock` in a sequence leave no trace: the manager is the
one the admissions alone produce. -/
theorem BufferManager.run_eq_addAll (bm : BufferManager) (ops : List BufOp) :
    bm.run ops = bm.addAll (BufOp.admitted ops) := by
  induction ops generalizing bm with
  | nil => rfl
  | cons op ops ih =>
    cases op with
    | add block =>
      simp only [BufferManager.run, List.foldl_cons, BufOp.admitted, BufferManager.addAll,
        BufferManager.step]
      exact ih _
    | get id =>
      simp only [BufferManager.run, List.foldl_cons, BufOp.admitted, BufferManager.step]
      exact ih _

theorem poolAssign_append (id : Int) (block : Block) (pool : List (Int × Block))
    (h : ∀ e ∈ pool, e.1 ≠ id) : poolAssign id block pool = pool ++ [(id, block)] := by
  induction pool with
  | nil => rfl
  | cons e pool ih =>
    obtain ⟨k, b⟩ := e
    have hk : k ≠ id := h (k, b) (List.mem_cons_self _ _)
    simp only [poolAssign, hk, if_false, List.cons_append]
    rw [ih (fun e he => h e (List.mem_cons_of_mem _ he))]

theorem poolFind_poolOf_mem (blocks : List Block) (b : Block) (hb : b ∈ blocks)
    (hnodup : (blocks.map (fun x => x.block_id)).Nodup) :
    poolFind b.block_id (poolOf blocks) = some b := by
  induction blocks with
  | nil => cases hb
  | cons a rest ih =>
    simp only [List.map_cons, List.nodup_cons] at hnodup
    rcases List.mem_cons.1 hb with rfl | hb
    · simp [poolOf, poolFind]
    · have hne : a.block_id ≠ b.block_id := by
        intro e
        exact hnodup.1 (by rw [e]; exact List.mem_map_of_mem _ hb)
      simp only [poolOf, List.map_cons, poolFind, hne, if_false]
      exact ih hb hnodup.2

theorem poolFind_poolOf_isSome (blocks : List Block) (id : Int)
    (h : (poolFind id (poolOf blocks)).isSome = true) :
    id ∈ blocks.map (fun x => x.block_id) := by
  induction blocks with
  | nil => simp [poolOf, poolFind] at h
  | cons a rest ih =>
    by_cases ha : a.block_id = id
    · simp [ha]
    · simp only [poolOf, List.map_cons, poolFind, ha, if_false] at h
      exact List.mem_cons_of_mem _ (ih h)

theorem toSizeT_of_nonneg (x : Int) (h0 : 0 ≤ x) (hmax : x ≤ 2147483647) :
    toSizeT x = x.toNat := by
  unfold toSizeT
  rw [Int.emod_eq_of_lt h0 (by omega)]

/-- Admitting blocks with distinct ids, no more than the bound, into an empty
manager evicts nothing: the pool holds them all and the queue lists their ids
in admission order. -/
theorem BufferManager.addAll_within_bound (N : Int) (blocks : List Block) (h0 : 0 ≤ N)
    (hmax : N ≤ 2147483647) (hlen : (blocks.length : Int) ≤ N)
    (hnodup : (blocks.map (fun x => x.block_id)).Nodup) :
    (BufferManager.new N).addAll blocks =
      { buffer_pool := poolOf blocks, lru_queue := blocks.map (fun x => x.block_id),
        max_buffer_size := N, disk_writes := [] } := by
  induction blocks using List.reverseRecOn with
  | nil => rfl
  | append_singleton l a ih =>
    simp only [List.length_append, List.length_singleton, List.map_append, List.map_cons,
      List.map_nil] at hlen hnodup
    have hnd := List.nodup_append.1 hnodup
    have hprev := ih (by push_cast at hlen; omega) hnd.1
    have hfresh : ∀ e ∈ poolOf l, e.1 ≠ a.block_id := by
      intro e he hea
      simp only [poolOf, List.mem_map] at he
      obtain ⟨x, hx, rfl⟩ := he
      exact hnd.2.2 (List.mem_map_of_mem (fun x => x.block_id) hx)
        (List.mem_singleton.2 hea)
    have hroom : ¬ (poolOf l).length ≥ toSizeT N := by
      rw [toSizeT_of_nonneg N h0 hmax]
      simp only [poolOf, List.length_map]
      push_cast at hlen
      omega
    simp only [BufferManager.addAll, List.foldl_append, List.foldl_cons, List.foldl_nil]
    have hprev1 : List.foldl (fun m block => (m.addBlock block).2) (BufferManager.new N) l =
        { buffer_pool := poolOf l, lru_queue := l.map (fun x => x.block_id),
          max_buffer_size := N, disk_writes := [] } := hprev
    rw [hprev1]
    simp only [BufferManager.addBlock, hroom, if_false, poolAssign_append _ _ _ hfresh]
    simp [poolOf]

/-- Admitting one more block than the bound, all ids distinct: the first
admitted block is evicted and the others stay. -/
theorem BufferManager.addAll_one_over (N : Int) (b1 bl : Block) (mid : List Block)
    (h0 : 0 ≤ N) (hmax : N ≤ 2147483647) (hlen : ((b1 :: mid).length : Int) = N)
    (hnodup : ((b1 :: (mid ++ [bl])).map (fun x => x.block_id)).Nodup) :
    (BufferManager.new N).addAll (b1 :: (mid ++ [bl])) =
      { buffer_pool := poolOf (mid ++ [bl])
        lru_queue := (mid ++ [bl]).map (fun x => x.block_id)
        max_buffer_size := N
        disk_writes := if b1.is_dirty then [b1.block_id] else [] } := by
  have hsplit : b1 :: (mid ++ [bl]) = (b1 :: mid) ++ [bl] := rfl
  have hnd : ((b1 :: mid).map (fun x => x.block_id)).Nodup ∧
      ∀ x ∈ mid, x.block_id ≠ bl.block_id := by
    rw [hsplit, List.map_append] at hnodup
    have h := List.nodup_append.1 hnodup
    refine ⟨h.1, fun x hx hxe => ?_⟩
    exact h.2.2 (List.mem_map_of_mem (fun x => x.block_id) (List.mem_cons_of_mem _ hx))
      (List.mem_singleton.2 hxe)
  have hprev := BufferManager.addAll_within_bound N (b1 :: mid) h0 hmax (le_of_eq hlen) hnd.1
  have hfull : (poolOf (b1 :: mid)).length ≥ toSizeT N := by
    rw [toSizeT_of_nonneg N h0 hmax]
    simp only [poolOf, List.length_map]
    omega
  have hfresh : ∀ e ∈ poolOf mid, e.1 ≠ bl.block_id := by
    intro e he
    simp only [poolOf, List.mem_map] at he
    obtain ⟨x, hx, rfl⟩ := he
    exact hnd.2 x hx
  have hfold : (BufferManager.new N).addAll (b1 :: (mid ++ [bl])) =
      (((BufferManager.new N).addAll (b1 :: mid)).addBlock bl).2 := by
    rw [hsplit]
    simp only [BufferManager.addAll, List.foldl_append, List.foldl_cons, List.foldl_nil]
  rw [hfold, hprev]
  simp only [BufferManager.addBlock, hfull, if_true]
  have hev : BufferManager.evictLRU
      { buffer_pool := poolOf (b1 :: mid), lru_queue := (b1 :: mid).map (fun x => x.block_id),
        max_buffer_size := N, disk_writes := [] } =
      { buffer_pool := poolOf mid, lru_queue := mid.map (fun x => x.block_id),
        max_buffer_size := N,
        disk_writes := if b1.is_dirty then [b1.block_id] else [] } := by
    simp [BufferManager.evictLRU, poolOf, poolFind, poolErase]
  rw [hev]
  simp only [poolAssign_append _ _ _ hfresh]
  simp [poolOf]

/-- C20. FIFO eviction: for every bound `N >= 1` (an `int`) and blocks
`b1..b(N+1)` with pairwise distinct ids admitted in that order with `addBlock`
into an empty manager, with any `getBlock` calls interleaved: while only
`b1..bN` are admitted all of them, `b1` included, are cached; after the
admission of `b(N+1)` the block `b1` is gone and the cache holds exactly
`b2..b(N+1)`, with the queue listing their ids in admission order. -/
theorem C20_fifo_eviction (N : Int) (ops : List BufOp) (b1 : Block) (bs : List Block)
    (hN : 1 ≤ N) (hmax : N ≤ 2147483647) (hadm : BufOp.admitted ops = b1 :: bs)
    (hlen : (bs.length : Int) = N)
    (hnodup : ((b1 :: bs).map (fun x => x.block_id)).Nodup) :
    (∀ ops0 : List BufOp, BufOp.admitted ops0 = (b1 :: bs).dropLast →
      ∀ b ∈ (b1 :: bs).dropLast,
        ((BufferManager.new N).run ops0).getBlock b.block_id = some b) ∧
    ((BufferManager.new N).run ops).getBlock b1.block_id = none ∧
    (∀ b ∈ bs, ((BufferManager.new N).run ops).getBlock b.block_id = some b) ∧
    (∀ id : Int, (((BufferManager.new N).run ops).getBlock id).isSome = true →
      id ∈ bs.map (fun x => x.block_id)) ∧
    ((BufferManager.new N).run ops).buffer_pool.length = bs.length ∧
    ((BufferManager.new N).run ops).lru_queue = bs.map (fun x => x.block_id) := by
  have hne : bs ≠ [] := by
    intro h
    rw [h] at hlen
    simp at hlen
    omega
  obtain ⟨mid, bl, hbs⟩ : ∃ mid bl, bs = mid ++ [bl] :=
    ⟨bs.dropLast, bs.getLast hne, (List.dropLast_append_getLast hne).symm⟩
  subst hbs
  have hdl : (b1 :: (mid ++ [bl])).dropLast = b1 :: mid := by
    have : b1 :: (mid ++ [bl]) = (b1 :: mid) ++ [bl] := rfl
    rw [this, List.dropLast_concat]
  have hmidlen : ((b1 :: mid).length : Int) = N := by
    simp only [List.length_append, List.length_singleton, List.length_cons] at hlen ⊢
    exact hlen
  have hnd : (mid ++ [bl]).map (fun x => x.block_id) |>.Nodup := by
    simp only [List.map_cons, List.nodup_cons] at hnodup
    exact hnodup.2
  have hnd1 : ((b1 :: mid).map (fun x => x.block_id)).Nodup := by
    have : b1 :: (mid ++ [bl]) = (b1 :: mid) ++ [bl] := rfl
    rw [this, List.map_append] at hnodup
    exact (List.nodup_append.1 hnodup).1
  have hfinal := BufferManager.addAll_one_over N b1 bl mid (by omega) hmax hmidlen hnodup
  rw [← hadm, ← BufferManager.run_eq_addAll] at hfinal
  refine ⟨?_, ?_, ?_, ?_, ?_, ?_⟩
  · intro ops0 hadm0 b hb
    rw [hdl] at hadm0 hb
    have h := BufferManager.addAll_within_bound N (b1 :: mid) (by omega) hmax
      (le_of_eq hmidlen) hnd1
    rw [BufferManager.run_eq_addAll, hadm0, h]
    exact poolFind_poolOf_mem (b1 :: mid) b hb hnd1
  · rw [hfinal]
    cases hfind : poolFind b1.block_id (poolOf (mid ++ [bl])) with
    | none => exact hfind
    | some x =>
      have hmem := poolFind_poolOf_isSome (mid ++ [bl]) b1.block_id (by rw [hfind]; rfl)
      simp only [List.map_cons, List.nodup_cons] at hnodup
      exact absurd hmem hnodup.1
  · intro b hb
    rw [hfinal]
    exact poolFind_poolOf_mem (mid ++ [bl]) b hb hnd
  · intro id hid
    rw [hfinal] at hid
    exact poolFind_poolOf_isSome (mid ++ [bl]) id hid
  · rw [hfinal]
    simp [poolOf]
  · rw [hfinal]

/-! ## The claims C11-C20 at concrete inputs -/

theorem C12_findRecord_first_live_witness :
    ((((Block.new 1 5).addRecord (Record.new [] 7)).2.removeRecord 7).2.findRecord 7 = none ↔
      ¬ (((Block.new 1 5).addRecord (Record.new [] 7)).2.removeRecord 7).2.hasLive 7) :=
  (C12_findRecord_first_live
    (((Block.new 1 5).addRecord (Record.new [] 7)).2.removeRecord 7).2 7).2

theorem C13_findRecordsByAttribute_witness :
    (((Block.new 1 5).addRecord (Record.new [(['a', 'g', 'e'], ['9'])] 1)).2.addRecord
        (Record.new [(['a', 'g', 'e'], ['1', '0'])] 2)).2.findRecordsByAttribute
      ['a', 'g', 'e'] ['5'] ['>'] = [Record.new [(['a', 'g', 'e'], ['9'])] 1] :=
  (C13_findRecordsByAttribute
    (((Block.new 1 5).addRecord (Record.new [(['a', 'g', 'e'], ['9'])] 1)).2.addRecord
      (Record.new [(['a', 'g', 'e'], ['1', '0'])] 2)).2
    ['a', 'g', 'e'] ['5'] ['>'] (by decide)).1.trans (by decide)

theorem C18_location_assigned_by_store_only_witness :
    ((DiskManager.new 1 1 1 2 3 2 10).storeBlock
      ((Block.new 1 5).addRecord (Record.new [] 7)).2).block.location =
      ((Block.new 1 5).addRecord (Record.new [] 7)).2.location ∧
    ((DiskManager.new 1 1 1 1 40 5 10).storeBlock
      ((Block.new 1 5).addRecord (Record.new [] 7)).2).block.location =
      (DiskManager.new 1 1 1 1 40 5 10).findLocationForBlock
        (requiredBytes ((Block.new 1 5).addRecord (Record.new [] 7)).2) :=
  ⟨(C18_location_assigned_by_store_only ((Block.new 1 5).addRecord (Record.new [] 7)).2).2.2.2.1
      (DiskManager.new 1 1 1 2 3 2 10) (by decide),
   (C18_location_assigned_by_store_only ((Block.new 1 5).addRecord (Record.new [] 7)).2).2.2.2.2
      (DiskManager.new 1 1 1 1 40 5 10) (DiskManager.new_WF 1 1 1 1 40 5 10 (by decide))
      (by decide)⟩

theorem C19_capacity_accounting_witness :
    (DiskManager.new 1 1 2 2 100 2 10).getTotalCapacity = 1 * 1 * 2 * 2 * 100 ∧
    (DiskManager.new 1 1 2 2 100 2 10).getFreeCapacity =
      (DiskManager.new 1 1 2 2 100 2 10).getTotalCapacity -
        (DiskManager.new 1 1 2 2 100 2 10).getUsedCapacity :=
  ⟨(C19_capacity_accounting (DiskManager.new 1 1 2 2 100 2 10)
      (DiskManager.new_WF 1 1 2 2 100 2 10 (by decide))
      (by unfold DiskManager.capacityInRange productInRange isInt32 isInt64; decide)).2.2.1
      1 1 2 2 100 2 10 (by unfold productInRange isInt32 isInt64; decide) (by decide),
   (C19_capacity_accounting (DiskManager.new 1 1 2 2 100 2 10)
      (DiskManager.new_WF 1 1 2 2 100 2 10 (by decide))
      (by unfold DiskManager.capacityInRange productInRange isInt32 isInt64; decide)).2.2.2.2⟩

theorem C20_fifo_eviction_witness :
    ((BufferManager.new 2).run
      [BufOp.add (Block.new 1 5), BufOp.add (Block.new 2 5), BufOp.get 1,
        BufOp.add (Block.new 3 5)]).getBlock (Block.new 1 5).block_id = none ∧
    ((BufferManager.new 2).run
      [BufOp.add (Block.new 1 5), BufOp.add (Block.new 2 5), BufOp.get 1,
        BufOp.add (Block.new 3 5)]).lru_queue =
      [Block.new 2 5, Block.new 3 5].map (fun x => x.block_id) :=
  ⟨(C20_fifo_eviction 2
      [BufOp.add (Block.new 1 5), BufOp.add (Block.new 2 5), BufOp.get 1,
        BufOp.add (Block.new 3 5)]
      (Block.new 1 5) [Block.new 2 5, Block.new 3 5]
      (by decide) (by decide) (by decide) (by decide) (by decide)).2.1,
   (C20_fifo_eviction 2
      [BufOp.add (Block.new 1 5), BufOp.add (Block.new 2 5), BufOp.get 1,
        BufOp.add (Block.new 3 5)]
      (Block.new 1 5) [Block.new 2 5, Block.new 3 5]
      (by decide) (by decide) (by decide) (by decide) (by decide)).2.2.2.2.2⟩

/-! ## Buffer manager: bound, lookups, flushing, eviction -/

theorem poolFind_eq_some_mem (id : Int) (block : Block) (pool : List (Int × Block))
    (h : poolFind id pool = some block) : (id, block) ∈ pool := by
  induction pool with
  | nil => simp [poolFind] at h
  | cons e pool ih =>
    obtain ⟨k, b⟩ := e
    by_cases hk : k = id
    · simp only [poolFind, hk, if_true, Option.some.injEq] at h
      rw [hk, h]
      exact List.mem_cons_self _ _
    · simp only [poolFind, hk, if_false] at h
      exact List.mem_cons_of_mem _ (ih h)

theorem poolFind_eq_none_iff (id : Int) (pool : List (Int × Block)) :
    poolFind id pool = none ↔ ∀ e ∈ pool, e.1 ≠ id := by
  induction pool with
  | nil => simp [poolFind]
  | cons e pool ih =>
    obtain ⟨k, b⟩ := e
    by_cases hk : k = id
    · simp [poolFind, hk]
    · simp [poolFind, hk, ih]

theorem poolErase_keys_sublist (id : Int) (pool : List (Int × Block)) :
    ((poolErase id pool).map (fun e => e.1)).Sublist (pool.map (fun e => e.1)) := by
  induction pool with
  | nil => exact List.Sublist.refl _
  | cons e pool ih =>
    obtain ⟨k, b⟩ := e
    by_cases hk : k = id
    · simp only [poolErase, hk, if_true, List.map_cons]
      exact List.sublist_cons_self _ _
    · simp only [poolErase, hk, if_false, List.map_cons]
      exact List.Sublist.cons₂ _ ih

theorem poolFind_poolErase_same (id : Int) (pool : List (Int × Block))
    (hu : poolKeysUnique pool) : poolFind id (poolErase id pool) = none := by
  induction pool with
  | nil => rfl
  | cons e pool ih =>
    obtain ⟨k, b⟩ := e
    simp only [poolKeysUnique, List.map_cons, List.nodup_cons] at hu
    by_cases hk : k = id
    · simp only [poolErase, hk, if_true]
      rw [poolFind_eq_none_iff]
      intro e he hee
      exact hu.1 (by rw [hk, ← hee]; exact List.mem_map_of_mem (fun x => x.1) he)
    · simp only [poolErase, hk, if_false, poolFind]
      exact ih hu.2

theorem poolFind_poolErase_other (id k : Int) (pool : List (Int × Block)) (h : id ≠ k) :
    poolFind id (poolErase k pool) = poolFind id pool := by
  induction pool with
  | nil => rfl
  | cons e pool ih =>
    obtain ⟨j, b⟩ := e
    by_cases hj : j = k
    · have hji : j ≠ id := by rw [hj]; exact fun e => h e.symm
      simp only [poolErase, hj, if_true, poolFind]
      rw [if_neg (by rw [← hj]; exact hji)]
    · by_cases hji : j = id
      · subst hji
        simp only [poolErase, hj, if_false, poolFind, if_true]
      · simp only [poolErase, hj, if_false, poolFind, hji, ih]

theorem poolErase_length (k : Int) (block : Block) (pool : List (Int × Block))
    (h : poolFind k pool = some block) : (poolErase k pool).length + 1 = pool.length := by
  induction pool with
  | nil => simp [poolFind] at h
  | cons e pool ih =>
    obtain ⟨j, b⟩ := e
    by_cases hj : j = k
    · simp [poolErase, hj]
    · simp only [poolFind, hj, if_false] at h
      simp [poolErase, hj, ih h]

/-- The invariant behind the bound: the queue lists the keys of the pool, no
key twice, and the pool holds at most `N` blocks. -/
theorem BufferManager.apply_inv (N : Int) (bm : BufferManager) (op : CacheOp) (hN : 1 ≤ N)
    (hmax : N ≤ 2147483647) (hfresh : op.admitsFresh bm)
    (hq : bm.lru_queue = bm.buffer_pool.map (fun e => e.1))
    (hu : poolKeysUnique bm.buffer_pool) (hlen : (bm.buffer_pool.length : Int) ≤ N)
    (hm : bm.max_buffer_size = N) :
    (bm.apply op).lru_queue = (bm.apply op).buffer_pool.map (fun e => e.1) ∧
      poolKeysUnique (bm.apply op).buffer_pool ∧
      ((bm.apply op).buffer_pool.length : Int) ≤ N ∧ (bm.apply op).max_buffer_size = N := by
  have hevict : bm.evictLRU.lru_queue = bm.evictLRU.buffer_pool.map (fun e => e.1) ∧
      poolKeysUnique bm.evictLRU.buffer_pool ∧
      (bm.buffer_pool ≠ [] → bm.evictLRU.buffer_pool.length + 1 = bm.buffer_pool.length) ∧
      bm.evictLRU.buffer_pool.length ≤ bm.buffer_pool.length ∧
      bm.evictLRU.max_buffer_size = N ∧
      (∀ id, id ∈ bm.evictLRU.lru_queue → id ∈ bm.lru_queue) := by
    obtain ⟨pool, queue, m, w⟩ := bm
    simp only at hq hu hlen hm
    subst hq
    cases pool with
    | nil =>
      simp only [BufferManager.evictLRU, List.map_nil]
      exact ⟨trivial, hu, fun h => absurd rfl h, le_refl _, hm, fun id h => h⟩
    | cons e rest =>
      obtain ⟨k, b⟩ := e
      simp only [poolKeysUnique, List.map_cons, List.nodup_cons] at hu
      simp only [BufferManager.evictLRU, List.map_cons, poolFind, if_true, poolErase]
      exact ⟨trivial, hu.2, fun _ => rfl, by simp, hm, fun id h => List.mem_cons_of_mem _ h⟩
  cases op with
  | getBlock id => exact ⟨hq, hu, hlen, hm⟩
  | evictLRU =>
    refine ⟨hevict.1, hevict.2.1, ?_, hevict.2.2.2.2.1⟩
    have := hevict.2.2.2.1
    simp only [BufferManager.apply]
    omega
  | flushAllBlocks =>
    simp only [BufferManager.apply, BufferManager.flushAllBlocks, poolKeysUnique, List.map_map,
      List.length_map]
    exact ⟨hq, hu, hlen, hm⟩
  | addBlock block =>
    simp only [CacheOp.admitsFresh] at hfresh
    simp only [BufferManager.apply, BufferManager.addBlock]
    have hsz : toSizeT bm.max_buffer_size = N.toNat := by
      rw [hm]; exact toSizeT_of_nonneg N (by omega) hmax
    by_cases hfull : bm.buffer_pool.length ≥ toSizeT bm.max_buffer_size
    · simp only [hfull, if_true]
      have hne : bm.buffer_pool ≠ [] := by
        intro h
        rw [h, hsz] at hfull
        simp at hfull
        omega
      have hl := hevict.2.2.1 hne
      have hnew : ∀ e ∈ bm.evictLRU.buffer_pool, e.1 ≠ block.block_id := by
        intro e he hee
        apply hfresh
        apply hevict.2.2.2.2.2
        rw [hevict.1, ← hee]
        exact List.mem_map_of_mem (fun x => x.1) he
      rw [poolAssign_append _ _ _ hnew]
      refine ⟨by simp [hevict.1], ?_, ?_, hevict.2.2.2.2.1⟩
      · simp only [poolKeysUnique, List.map_append, List.map_cons, List.map_nil]
        rw [List.nodup_append]
        refine ⟨hevict.2.1, List.nodup_singleton _, ?_⟩
        intro x hx hx2
        rw [List.mem_singleton] at hx2
        obtain ⟨e, he, rfl⟩ := List.mem_map.1 hx
        exact hnew e he hx2
      · simp only [List.length_append, List.length_singleton]
        push_cast
        omega
    · simp only [hfull, if_false]
      have hnew : ∀ e ∈ bm.buffer_pool, e.1 ≠ block.block_id := by
        intro e he hee
        apply hfresh
        rw [hq, ← hee]
        exact List.mem_map_of_mem (fun x => x.1) he
      rw [poolAssign_append _ _ _ hnew]
      refine ⟨by simp [hq], ?_, ?_, hm⟩
      · simp only [poolKeysUnique, List.map_append, List.map_cons, List.map_nil]
        rw [List.nodup_append]
        refine ⟨hu, List.nodup_singleton _, ?_⟩
        intro x hx hx2
        rw [List.mem_singleton] at hx2
        obtain ⟨e, he, rfl⟩ := List.mem_map.1 hx
        exact hnew e he hx2
      · simp only [List.length_append, List.length_singleton]
        rw [hsz] at hfull
        push_cast
        omega

theorem BufferManager.applyAll_inv (N : Int) (bm : BufferManager) (ops : List CacheOp)
    (hN : 1 ≤ N) (hmax : N ≤ 2147483647) (hfresh : bm.freshRun ops)
    (hq : bm.lru_queue = bm.buffer_pool.map (fun e => e.1))
    (hu : poolKeysUnique bm.buffer_pool) (hlen : (bm.buffer_pool.length : Int) ≤ N)
    (hm : bm.max_buffer_size = N) :
    ((bm.applyAll ops).buffer_pool.length : Int) ≤ N := by
  induction ops generalizing bm with
  | nil => exact hlen
  | cons op ops ih =>
    obtain ⟨h1, h2, h3, h4⟩ := BufferManager.apply_inv N bm op hN hmax hfresh.1 hq hu hlen hm
    exact ih (bm.apply op) hfresh.2 h1 h2 h3 h4

/-- C21 (as stated, refuted). With `max_size = 0` one `addBlock` leaves one
block cached; with `max_size = 2`, admitting the ids 1, 1, 2, 3, 4 leaves three
blocks cached: the second admission of id 1 puts a second `1` in the queue, and
the eviction that pops it finds nothing to remove. -/
theorem C21_bound_counterexample :
    ((BufferManager.new 0).applyAll [CacheOp.addBlock (Block.new 1 5)]).buffer_pool.length
      = 1 ∧
    ((BufferManager.new 2).applyAll
      [CacheOp.addBlock (Block.new 1 5), CacheOp.addBlock (Block.new 1 5),
        CacheOp.addBlock (Block.new 2 5), CacheOp.addBlock (Block.new 3 5),
        CacheOp.addBlock (Block.new 4 5)]).buffer_pool.length = 3 := by
  decide

/-- C21 (amended). The cache is bounded: for every `max_size >= 1` (an `int`),
in every state reachable from a newly constructed `BufferManager(max_size)` by
a sequence of `addBlock`, `getBlock`, `evictLRU` and `flushAllBlocks` calls in
which no block is admitted while its id is still in the admission queue, the
number of cached blocks is at most `max_size`. -/
theorem C21_cache_bounded (max_size : Int) (ops : List CacheOp) (hN : 1 ≤ max_size)
    (hmax : max_size ≤ 2147483647) (hfresh : (BufferManager.new max_size).freshRun ops) :
    (((BufferManager.new max_size).applyAll ops).buffer_pool.length : Int) ≤ max_size :=
  BufferManager.applyAll_inv max_size (BufferManager.new max_size) ops hN hmax hfresh rfl
    List.nodup_nil (by simp [BufferManager.new]; omega) rfl

/-- C23. For every buffer manager state, after `flushAllBlocks()` every cached
block has `is_dirty = false`, while the cached block ids, the admission queue,
the bound, and every cached block's id, records, capacity and location are
unchanged. -/
theorem C23_flushAllBlocks (bm : BufferManager) :
    (∀ e ∈ bm.flushAllBlocks.buffer_pool, e.2.is_dirty = false) ∧
    bm.flushAllBlocks.buffer_pool.map (fun e => e.1) = bm.buffer_pool.map (fun e => e.1) ∧
    bm.flushAllBlocks.lru_queue = bm.lru_queue ∧
    bm.flushAllBlocks.max_buffer_size = bm.max_buffer_size ∧
    bm.flushAllBlocks.buffer_pool.map
        (fun e => (e.2.block_id, e.2.records, e.2.max_records, e.2.location)) =
      bm.buffer_pool.map
        (fun e => (e.2.block_id, e.2.records, e.2.max_records, e.2.location)) := by
  refine ⟨?_, ?_, rfl, rfl, ?_⟩
  · intro e he
    simp only [BufferManager.flushAllBlocks, List.mem_map] at he
    obtain ⟨x, _, rfl⟩ := he
    by_cases hd : x.2.is_dirty = true
    · simp [hd, writeBlockToDisk]
    · simp only [Bool.not_eq_true] at hd
      simp [hd]
  · simp [BufferManager.flushAllBlocks, List.map_map, Function.comp_def]
  · simp only [BufferManager.flushAllBlocks, List.map_map]
    apply List.map_congr_left
    intro x _
    by_cases hd : x.2.is_dirty = true
    · simp [hd, writeBlockToDisk]
    · simp [hd]

/-- C24. For every block `b`, `BufferManager::writeBlockToDisk(b)` sets
`is_dirty` to false and leaves `block_id`, `records`, `max_records` and
`location` unchanged; applying it twice gives the same block as applying it
once, and on a clean block it leaves the block unchanged. -/
theorem C24_writeBlockToDisk (b : Block) :
    (writeBlockToDisk b).is_dirty = false ∧
    (writeBlockToDisk b).block_id = b.block_id ∧
    (writeBlockToDisk b).records = b.records ∧
    (writeBlockToDisk b).max_records = b.max_records ∧
    (writeBlockToDisk b).location = b.location ∧
    writeBlockToDisk (writeBlockToDisk b) = writeBlockToDisk b ∧
    (b.is_dirty = false → writeBlockToDisk b = b) := by
  refine ⟨rfl, rfl, rfl, rfl, rfl, rfl, fun h => ?_⟩
  obtain ⟨id, rs, m, loc, dirty⟩ := b
  simp only at h
  simp [writeBlockToDisk, h]

/-- C29. Eviction writes back before reclaiming: for every buffer manager state
(the pool a map, no key twice) whose admission-queue front id is cached,
`evictLRU()` removes exactly that block from the pool and pops that id from the
queue, and `writeBlockToDisk` is called on the block, once, if and only if it
is dirty; all other cached blocks are untouched; with an empty admission queue
`evictLRU()` changes nothing. -/
theorem C29_evictLRU (bm : BufferManager) :
    (∀ (front : Int) (queue : List Int) (block : Block),
      bm.lru_queue = front :: queue → bm.getBlock front = some block →
      poolKeysUnique bm.buffer_pool →
        bm.evictLRU.lru_queue = queue ∧
        bm.evictLRU.getBlock front = none ∧
        (∀ id : Int, id ≠ front → bm.evictLRU.getBlock id = bm.getBlock id) ∧
        bm.evictLRU.buffer_pool.length + 1 = bm.buffer_pool.length ∧
        bm.evictLRU.disk_writes =
          bm.disk_writes ++ (if block.is_dirty then [block.block_id] else []) ∧
        bm.evictLRU.max_buffer_size = bm.max_buffer_size) ∧
    (bm.lru_queue = [] → bm.evictLRU = bm) := by
  constructor
  · intro front queue block hq hfind hu
    simp only [BufferManager.getBlock] at hfind
    have he : bm.evictLRU =
        { bm with lru_queue := queue
                  buffer_pool := poolErase front bm.buffer_pool
                  disk_writes :=
                    if block.is_dirty then bm.disk_writes ++ [block.block_id]
                    else bm.disk_writes } := by
      simp only [BufferManager.evictLRU, hq, hfind]
    rw [he]
    refine ⟨rfl, poolFind_poolErase_same front _ hu,
      fun id hid => poolFind_poolErase_other id front _ hid,
      poolErase_length front block _ hfind, ?_, rfl⟩
    by_cases hd : block.is_dirty = true
    · simp [hd]
    · simp [hd]
  · intro hq
    simp only [BufferManager.evictLRU, hq]

/-! ## Record: malformed and unescaped input -/

/-- The first `getline` of `deserialize` returns the text before the first
delimiter, the whole input when there is none. -/
theorem getline_first_token (s : Str) (d : Char) :
    (getline (IStream.ofStr s) [] d).2 = s.takeWhile (fun x => x != d) := by
  cases s with
  | nil => rfl
  | cons a as =>
    simp only [getline, IStream.ofStr, Bool.or_self, Bool.false_eq_true, if_false]
    split <;> rfl

/-- The outcome of `deserialize` is decided by `stoi` on the first token. -/
theorem Record.deserialize_cases (s : Str) :
    (∀ e : Exn, stoi (s.takeWhile (fun x => x != '|')) = Except.error e →
      Record.deserialize s = Except.error e) ∧
    (∀ id : Int, stoi (s.takeWhile (fun x => x != '|')) = Except.ok id →
      ∃ r : Record, Record.deserialize s = Except.ok r ∧ r.record_id = id) := by
  have ht := getline_first_token s '|'
  constructor
  · intro e he
    simp only [Record.deserialize, ht, he]
  · intro id hid
    simp only [Record.deserialize, ht, hid]
    exact ⟨_, rfl, rfl⟩

/-- C26 (as stated, refuted). The bare input "7" has no `|` at all, and
`Record::deserialize` returns a record for it: id 7, not tombstoned, no
attributes. -/
theorem C26_bare_id_counterexample :
    (['7'] : Str).count '|' < 2 ∧
    Record.deserialize ['7'] =
      Except.ok { data := [], is_deleted := false, record_id := 7 } := by
  decide

/-- C26 (amended). `Record::deserialize` checks no separator.  It signals
failure to its caller, by the exception of `std::stoi`, if and only if the text
before the first `|` (the whole input when there is none) is not a number that
`std::stoi` accepts as an `int`; otherwise it returns a record with that id,
also for an input with fewer than two `|`. -/
theorem C26_deserialize_failure (s : Str) :
    (∀ e : Exn, Record.deserialize s = Except.error e ↔
      stoi (s.takeWhile (fun x => x != '|')) = Except.error e) ∧
    (∀ id : Int, stoi (s.takeWhile (fun x => x != '|')) = Except.ok id →
      ∃ r : Record, Record.deserialize s = Except.ok r ∧ r.record_id = id) := by
  have hc := Record.deserialize_cases s
  refine ⟨fun e => ⟨fun h => ?_, hc.1 e⟩, hc.2⟩
  cases hst : stoi (s.takeWhile (fun x => x != '|')) with
  | error e1 =>
    have := hc.1 e1 hst
    rw [this] at h
    cases h
    rfl
  | ok id =>
    obtain ⟨r, hr, _⟩ := hc.2 id hst
    rw [hr] at h
    cases h

/-- The three ways a `getline` call ends: the sentry fails and the token is
kept; nothing is left to read; or the token is the text up to the delimiter. -/
theorem getline_outcomes (s : IStream) (token : Str) (d : Char) :
    (getline s token d = ({ s with failbit := true }, token)) ∨
    (getline s token d = ({ rest := [], eofbit := true, failbit := true }, [])) ∨
    (∃ r : IStream, getline s token d = (r, s.rest.takeWhile (fun x => x != d)) ∧
      r.failbit = false ∧ ∀ c ∈ r.rest, c ∈ s.rest) := by
  obtain ⟨rest, eofbit, failbit⟩ := s
  cases hflags : (eofbit || failbit) with
  | true =>
    left
    simp [getline, hflags]
  | false =>
    cases rest with
    | nil =>
      right; left
      simp [getline, hflags]
    | cons a as =>
      right; right
      cases hdw : List.dropWhile (fun x => x != d) (a :: as) with
      | nil =>
        refine ⟨{ rest := [], eofbit := true, failbit := false }, ?_, rfl, fun c hc => by cases hc⟩
        simp only [getline, hflags, Bool.false_eq_true, if_false, hdw]
      | cons x after =>
        refine ⟨{ rest := after, eofbit := false, failbit := false }, ?_, rfl, fun c hc => ?_⟩
        · simp only [getline, hflags, Bool.false_eq_true, if_false, hdw]
        · have : c ∈ List.dropWhile (fun x => x != d) (a :: as) := by
            rw [hdw]; exact List.mem_cons_of_mem _ hc
          exact List.dropWhile_subset _ this

/-- The token `getline` leaves is free of the delimiter when the old token was. -/
theorem getline_token_no_delim (s : IStream) (token : Str) (d : Char)
    (h : ∀ c ∈ token, c ≠ d) : ∀ c ∈ (getline s token d).2, c ≠ d := by
  intro c hc
  rcases getline_outcomes s token d with he | he | ⟨r, he, _, _⟩
  · rw [he] at hc
    exact h c hc
  · rw [he] at hc
    cases hc
  · rw [he] at hc
    simpa using List.mem_takeWhile_imp hc

/-- The characters `getline` leaves in the stream were there before. -/
theorem getline_rest_subset (s : IStream) (token : Str) (d : Char) :
    ∀ c ∈ (getline s token d).1.rest, c ∈ s.rest := by
  intro c hc
  rcases getline_outcomes s token d with he | he | ⟨r, he, _, hr⟩
  · rw [he] at hc
    exact hc
  · rw [he] at hc
    cases hc
  · rw [he] at hc
    exact hr c hc

/-- After a `getline` that leaves the stream without `failbit`, the token is
made of characters of the stream, none of them the delimiter. -/
theorem getline_ok_token (s : IStream) (token : Str) (d : Char)
    (hok : (getline s token d).1.ok = true) :
    ∀ c ∈ (getline s token d).2, c ∈ s.rest ∧ c ≠ d := by
  intro c hc
  rcases getline_outcomes s token d with he | he | ⟨r, he, _, _⟩
  · rw [he] at hok
    simp [IStream.ok] at hok
  · rw [he] at hok
    simp [IStream.ok] at hok
  · rw [he] at hc
    exact ⟨List.takeWhile_subset _ hc, by simpa using List.mem_takeWhile_imp hc⟩

theorem StrMap.assign_decodable (key value : Str) (m : StrMap)
    (hm : ∀ e ∈ m, decodable e) (hk : ∀ c ∈ key, c ≠ '|' ∧ c ≠ ':' ∧ c ≠ ';')
    (hv : ∀ c ∈ value, c ≠ '|' ∧ c ≠ ';') : ∀ e ∈ StrMap.assign key value m, decodable e := by
  induction m with
  | nil =>
    intro e he
    simp only [StrMap.assign, List.mem_singleton] at he
    rw [he]
    exact ⟨hk, hv⟩
  | cons x m ih =>
    obtain ⟨k, v⟩ := x
    have hx := hm (k, v) (List.mem_cons_self _ _)
    have hrest : ∀ e ∈ m, decodable e := fun e he => hm e (List.mem_cons_of_mem _ he)
    intro e he
    simp only [StrMap.assign] at he
    split at he
    · rcases List.mem_cons.1 he with rfl | he
      · exact ⟨hk, hv⟩
      · exact hm e he
    · split at he
      · rcases List.mem_cons.1 he with rfl | he
        · exact hx
        · exact ih hrest e he
      · rcases List.mem_cons.1 he with rfl | he
        · exact ⟨hx.1, hv⟩
        · exact hrest e he

/-- The body of the parsing loop stores a decodable entry only. -/
theorem storePair_decodable (pair : Str) (data : StrMap) (hd : ∀ e ∈ data, decodable e)
    (hp : ∀ c ∈ pair, c ≠ '|' ∧ c ≠ ';') : ∀ e ∈ storePair pair data, decodable e := by
  unfold storePair
  split
  · exact hd
  · rename_i x value hdw
    apply StrMap.assign_decodable _ _ _ hd
    · intro c hc
      have h1 := hp c (List.takeWhile_subset _ hc)
      have h2 : c ≠ ':' := by simpa using List.mem_takeWhile_imp hc
      exact ⟨h1.1, h2, h1.2⟩
    · intro c hc
      have : c ∈ List.dropWhile (fun x => x != ':') pair := by
        rw [hdw]; exact List.mem_cons_of_mem _ hc
      exact hp c (List.dropWhile_subset _ this)

theorem parsePairs_decodable (fuel : Nat) (ds : IStream) (pair : Str) (data res : StrMap)
    (hds : ∀ c ∈ ds.rest, c ≠ '|') (hd : ∀ e ∈ data, decodable e)
    (h : parsePairs fuel ds pair data = some res) : ∀ e ∈ res, decodable e := by
  induction fuel generalizing ds pair data with
  | zero => simp [parsePairs] at h
  | succ fuel ih =>
    simp only [parsePairs] at h
    split at h
    · rename_i hcont
      simp only [Bool.and_eq_true] at hcont
      have htok := getline_ok_token ds pair ';' hcont.1
      refine ih _ _ _ (fun c hc => hds c (getline_rest_subset ds pair ';' c hc)) ?_ h
      exact storePair_decodable _ _ hd (fun c hc => ⟨hds c (htok c hc).1, (htok c hc).2⟩)
    · simp only [Option.some.injEq] at h
      rw [← h]
      exact hd

/-- Every attribute map `deserialize` returns is decodable: its keys are free
of `|`, `:`, `;` and its values free of `|`, `;`. -/
theorem Record.deserialize_decodable (s : Str) (r : Record)
    (h : Record.deserialize s = Except.ok r) : ∀ e ∈ r.data, decodable e := by
  simp only [Record.deserialize] at h
  split at h
  · cases h
  · rename_i id hid
    simp only [Except.ok.injEq] at h
    rw [← h]
    simp only []
    have h1 : ∀ c ∈ (getline (IStream.ofStr s) [] '|').2, c ≠ '|' :=
      getline_token_no_delim _ _ _ (fun c hc => by cases hc)
    have h2 := getline_token_no_delim (getline (IStream.ofStr s) [] '|').1 _ '|' h1
    have h3 := getline_token_no_delim
      (getline (getline (IStream.ofStr s) [] '|').1 (getline (IStream.ofStr s) [] '|').2 '|').1
      _ '|' h2
    cases hp : parsePairs
      ((getline (getline (getline (IStream.ofStr s) [] '|').1
        (getline (IStream.ofStr s) [] '|').2 '|').1
        (getline (getline (IStream.ofStr s) [] '|').1
          (getline (IStream.ofStr s) [] '|').2 '|').2 '|').2.length + 1)
      (IStream.ofStr (getline (getline (getline (IStream.ofStr s) [] '|').1
        (getline (IStream.ofStr s) [] '|').2 '|').1
        (getline (getline (IStream.ofStr s) [] '|').1
          (getline (IStream.ofStr s) [] '|').2 '|').2 '|').2) [] [] with
    | none => intro e he; simp at he
    | some res =>
      simp only [Option.getD_some]
      exact parsePairs_decodable _ _ _ _ _ h3 (fun e he => by cases he) hp

/-- C27 (as stated, refuted). The value `b:c` contains `:`, and the record
survives the round trip: decoding splits a pair at its first `:` only. -/
theorem C27_colon_in_value_counterexample :
    ':' ∈ (['b', ':', 'c'] : Str) ∧
    Record.deserialize (Record.serialize (Record.new [(['a'], ['b', ':', 'c'])] 1)) =
      Except.ok (Record.new [(['a'], ['b', ':', 'c'])] 1) := by
  decide

/-- C27 (amended). Unescaped separators corrupt the encoding: for every record
in which at least one attribute key contains `|`, `:` or `;`, or at least one
attribute value contains `|` or `;`, `Record::deserialize(Record::serialize(r))`
does not return `r`. -/
theorem C27_separators_corrupt (r : Record)
    (h : ∃ e ∈ r.data, (∃ c ∈ e.1, c = '|' ∨ c = ':' ∨ c = ';') ∨
      (∃ c ∈ e.2, c = '|' ∨ c = ';')) :
    Record.deserialize (Record.serialize r) ≠ Except.ok r := by
  intro hok
  obtain ⟨e, he, hbad⟩ := h
  have hdec := Record.deserialize_decodable _ r hok e he
  rcases hbad with ⟨c, hc, hsep⟩ | ⟨c, hc, hsep⟩
  · have := hdec.1 c hc
    rcases hsep with h1 | h1 | h1
    · exact this.1 h1
    · exact this.2.1 h1
    · exact this.2.2 h1
  · have := hdec.2 c hc
    rcases hsep with h1 | h1
    · exact this.1 h1
    · exact this.2 h1

/-! ## Block: logical delete -/

/-- The loop of `removeRecord`, when it finds a match, replaces the first
record with the id by its tombstoned copy and touches nothing else. -/
theorem Block.removeLoop_eq_set (record_id : Int) (rs rs1 : List Record)
    (h : Block.removeLoop record_id rs = some rs1) :
    ∃ (i : Nat) (r : Record), rs[i]? = some r ∧ r.record_id = record_id ∧
      (∀ (j : Nat) (x : Record), j < i → rs[j]? = some x → x.record_id ≠ record_id) ∧
      rs1 = rs.set i { r with is_deleted := true } := by
  induction rs generalizing rs1 with
  | nil => simp [Block.removeLoop] at h
  | cons a rs ih =>
    by_cases ha : a.record_id = record_id
    · rw [Block.removeLoop, if_pos ha] at h
      simp only [Option.some.injEq] at h
      exact ⟨0, a, by simp, ha, fun j x hj _ => absurd hj (Nat.not_lt_zero j), by rw [← h]; rfl⟩
    · simp only [Block.removeLoop, ha, if_false, Option.map_eq_some'] at h
      obtain ⟨rs2, h2, rfl⟩ := h
      obtain ⟨i, r, hi, hr, hmin, hset⟩ := ih rs2 h2
      refine ⟨i + 1, r, by simpa using hi, hr, fun j x hj hx => ?_, by rw [hset]; rfl⟩
      cases j with
      | zero =>
        simp only [List.getElem?_cons_zero, Option.some.injEq] at hx
        rw [← hx]; exact ha
      | succ j => exact hmin j x (by omega) (by simpa using hx)

/-- C28. Logical delete only sets tombstones: for every block and id, after
`Block::removeRecord(id)` the record sequence has the same length, every record
keeps its position, `record_id` and attribute map, every record that was
tombstoned before is still tombstoned, and a record whose tombstone flag
changed is the first one whose `record_id` equals `id` (so at most one
changes); `addRecord` leaves every record already stored as it is.
`findRecord` and `findRecordsByAttribute` return pointers and assign nothing,
so no block operation turns a tombstone flag from true to false. -/
theorem C28_logical_delete (b : Block) (id : Int) :
    (b.removeRecord id).2.records.length = b.records.length ∧
    (∀ (i : Nat) (r : Record), b.records[i]? = some r →
      ∃ r1 : Record, (b.removeRecord id).2.records[i]? = some r1 ∧
        r1.record_id = r.record_id ∧ r1.data = r.data ∧
        (r.is_deleted = true → r1.is_deleted = true) ∧
        (r1.is_deleted ≠ r.is_deleted → r.record_id = id ∧
          ∀ (j : Nat) (x : Record), j < i → b.records[j]? = some x → x.record_id ≠ id)) ∧
    (∀ (r0 : Record) (i : Nat) (r : Record), b.records[i]? = some r →
      (b.addRecord r0).2.records[i]? = some r) := by
  refine ⟨Block.removeRecord_length b id, ?_, ?_⟩
  · intro i r hi
    unfold Block.removeRecord
    cases h : Block.removeLoop id b.records with
    | none => exact ⟨r, hi, rfl, rfl, fun h => h, fun h => absurd rfl h⟩
    | some rs1 =>
      obtain ⟨i0, r0, hi0, hr0, hmin, hset⟩ := Block.removeLoop_eq_set id _ _ h
      simp only [hset, List.getElem?_set]
      by_cases hii : i0 = i
      · subst hii
        rw [hi] at hi0
        cases hi0
        have hlt : i0 < b.records.length := (List.getElem?_eq_some.1 hi).1
        simp only [if_true, hlt]
        exact ⟨_, rfl, rfl, rfl, fun _ => rfl, fun _ => ⟨hr0, hmin⟩⟩
      · simp only [hii, if_false]
        exact ⟨r, hi, rfl, rfl, fun h => h, fun h => absurd rfl h⟩
  · intro r0 i r hi
    unfold Block.addRecord
    split
    · exact hi
    · simp only []
      rw [List.getElem?_append_left (List.getElem?_eq_some.1 hi).1]
      exact hi

/-! ## The facade `SGBD::addRecord` -/

/-- C25. The end-to-end scenario on the code: 1 platter, 1 surface, 2 tracks,
2 sectors per track, 100-byte sectors, records-per-block 2, five records of 40
serialized bytes each inserted through `SGBD::addRecord`.  The code creates
one block, of capacity 5, holding all five records; it was stored while still
empty, so its location is track 0, sector 0, offset 0 and every sector has
`used_space = 0`. -/
theorem C25_scenario_on_the_code :
    (scenarioRecord 1).serialize.length = 40 ∧
    ((SGBD.new 1 1 2 2 100 2 10).addRecords
        [scenarioRecord 1, scenarioRecord 2, scenarioRecord 3, scenarioRecord 4,
          scenarioRecord 5]).map
      (fun s => s.all_blocks.map (fun e => (e.1, e.2.map
          (fun blk => (blk.records.length, blk.max_records))))) =
      some [((1 : Int), some ((5 : Nat), (5 : Int)))] ∧
    ((SGBD.new 1 1 2 2 100 2 10).addRecords
        [scenarioRecord 1, scenarioRecord 2, scenarioRecord 3, scenarioRecord 4,
          scenarioRecord 5]).map
      (fun s => s.all_blocks.map (fun e => e.2.map (fun blk => blk.location))) =
      some [some
        { platter_id := 0, surface_id := 0, track_id := 0, sector_id := 0, position := 0 }] ∧
    ((SGBD.new 1 1 2 2 100 2 10).addRecords
        [scenarioRecord 1, scenarioRecord 2, scenarioRecord 3, scenarioRecord 4,
          scenarioRecord 5]).map
      (fun s => s.disk_manager.allSectors.map (fun sector => sector.used_space)) =
      some [0, 0, 0, 0] := by
  decide

/-- C30. Buffer size 1 and six inserted records: the sixth `addRecord` creates
block 2, whose admission evicts and deletes block 1 (written back first, being
dirty); `all_blocks` still registers id 1, now with a dangling pointer, while
the pool holds block 2 only. -/
theorem C30_dangling_after_eviction :
    ((SGBD.new 1 1 2 2 100 2 1).addRecords
        [scenarioRecord 1, scenarioRecord 2, scenarioRecord 3, scenarioRecord 4,
          scenarioRecord 5, scenarioRecord 6]).map
      (fun s => (s.all_blocks.map (fun e => e.1), s.danglingIds,
        s.disk_manager.buffer_manager.buffer_pool.map (fun e => e.1),
        s.disk_manager.buffer_manager.getBlock 1,
        s.disk_manager.buffer_manager.disk_writes)) =
      some ([1, 2], [1], [2], none, [1]) := by
  decide

/-! ## The claims C21-C30 at concrete inputs -/

theorem C21_cache_bounded_witness :
    (((BufferManager.new 2).applyAll
      [CacheOp.addBlock (Block.new 1 5), CacheOp.addBlock (Block.new 2 5),
        CacheOp.getBlock 1, CacheOp.addBlock (Block.new 3 5), CacheOp.flushAllBlocks,
        CacheOp.addBlock (Block.new 1 5), CacheOp.evictLRU]).buffer_pool.length : Int) ≤ 2 :=
  C21_cache_bounded 2
    [CacheOp.addBlock (Block.new 1 5), CacheOp.addBlock (Block.new 2 5),
      CacheOp.getBlock 1, CacheOp.addBlock (Block.new 3 5), CacheOp.flushAllBlocks,
      CacheOp.addBlock (Block.new 1 5), CacheOp.evictLRU]
    (by decide) (by decide)
    (by simp only [BufferManager.freshRun, CacheOp.admitsFresh]; decide)

theorem C23_flushAllBlocks_witness :
    ((7 : Int), writeBlockToDisk ((Block.new 7 5).addRecord (Record.new [] 1)).2).2.is_dirty
      = false :=
  (C23_flushAllBlocks
    ((BufferManager.new 2).addBlock ((Block.new 7 5).addRecord (Record.new [] 1)).2).2).1
    ((7 : Int), writeBlockToDisk ((Block.new 7 5).addRecord (Record.new [] 1)).2)
    (by decide)

theorem C24_writeBlockToDisk_witness :
    writeBlockToDisk (Block.new 1 5) = Block.new 1 5 :=
  (C24_writeBlockToDisk (Block.new 1 5)).2.2.2.2.2.2 rfl

theorem C26_deserialize_failure_witness :
    (∃ r : Record, Record.deserialize ['7'] = Except.ok r ∧ r.record_id = 7) ∧
    Record.deserialize ['x', '|', '0', '|'] = Except.error Exn.invalid_argument :=
  ⟨(C26_deserialize_failure ['7']).2 7 rfl,
   ((C26_deserialize_failure ['x', '|', '0', '|']).1 Exn.invalid_argument).2 rfl⟩

theorem C27_separators_corrupt_witness :
    Record.deserialize (Record.serialize (Record.new [(['a', ';'], ['b'])] 1)) ≠
      Except.ok (Record.new [(['a', ';'], ['b'])] 1) :=
  C27_separators_corrupt (Record.new [(['a', ';'], ['b'])] 1)
    ⟨(['a', ';'], ['b']), by decide, Or.inl ⟨';', by decide, by decide⟩⟩

theorem C28_logical_delete_witness :
    ((((Block.new 1 5).addRecord (Record.new [] 7)).2.addRecord
      (Record.new [] 8)).2.records[0]? = some (Record.new [] 7)) ∧
    (∃ r1 : Record,
      (((Block.new 1 5).addRecord (Record.new [] 7)).2.removeRecord 7).2.records[0]? = some r1 ∧
      r1.record_id = (Record.new [] 7).record_id ∧ r1.data = (Record.new [] 7).data ∧
      ((Record.new [] 7).is_deleted = true → r1.is_deleted = true) ∧
      (r1.is_deleted ≠ (Record.new [] 7).is_deleted → (Record.new [] 7).record_id = 7 ∧
        ∀ (j : Nat) (x : Record), j < 0 →
          ((Block.new 1 5).addRecord (Record.new [] 7)).2.records[j]? = some x →
          x.record_id ≠ 7)) :=
  ⟨(C28_logical_delete ((Block.new 1 5).addRecord (Record.new [] 7)).2 7).2.2
      (Record.new [] 8) 0 (Record.new [] 7) (by decide),
   (C28_logical_delete ((Block.new 1 5).addRecord (Record.new [] 7)).2 7).2.1
      0 (Record.new [] 7) (by decide)⟩

theorem C29_evictLRU_witness :
    (((BufferManager.new 2).addBlock
        ((Block.new 1 5).addRecord (Record.new [] 7)).2).2.addBlock
        (Block.new 2 5)).2.evictLRU.getBlock 1 = none ∧
    (((BufferManager.new 2).addBlock
        ((Block.new 1 5).addRecord (Record.new [] 7)).2).2.addBlock
        (Block.new 2 5)).2.evictLRU.disk_writes = [1] ∧
    (BufferManager.new 2).evictLRU = BufferManager.new 2 :=
  ⟨((C29_evictLRU (((BufferManager.new 2).addBlock
        ((Block.new 1 5).addRecord (Record.new [] 7)).2).2.addBlock (Block.new 2 5)).2).1
      1 [2] ((Block.new 1 5).addRecord (Record.new [] 7)).2
      (by decide) (by decide) (by unfold poolKeysUnique; decide)).2.1,
   ((C29_evictLRU (((BufferManager.new 2).addBlock
        ((Block.new 1 5).addRecord (Record.new [] 7)).2).2.addBlock (Block.new 2 5)).2).1
      1 [2] ((Block.new 1 5).addRecord (Record.new [] 7)).2
      (by decide) (by decide) (by unfold poolKeysUnique; decide)).2.2.2.2.1,
   (C29_evictLRU (BufferManager.new 2)).2 rfl⟩

/-! ## `storeBlock`: what it leaves unchanged -/

/-- An eviction only removes the front of the admission queue. -/
theorem BufferManager.evictLRU_queue_suffix (bm : BufferManager) :
    List.IsSuffix bm.evictLRU.lru_queue bm.lru_queue := by
  unfold BufferManager.evictLRU
  cases hq : bm.lru_queue with
  | nil => simp only [hq]; exact List.suffix_refl _
  | cons front queue =>
    simp only []
    cases poolFind front bm.buffer_pool with
    | none => exact List.suffix_cons front queue
    | some block => exact List.suffix_cons front queue

/-- The queue after `addBlock`: what the possible eviction left, then the new id. -/
theorem BufferManager.addBlock_queue_suffix (bm : BufferManager) (b : Block) (past : List Int)
    (h : List.IsSuffix bm.lru_queue past) :
    List.IsSuffix (bm.addBlock b).2.lru_queue (past ++ [b.block_id]) := by
  have h1 : List.IsSuffix
      (if bm.buffer_pool.length ≥ toSizeT bm.max_buffer_size then bm.evictLRU else bm).lru_queue
      past := by
    split
    · exact List.IsSuffix.trans (BufferManager.evictLRU_queue_suffix bm) h
    · exact h
  obtain ⟨t, ht⟩ := h1
  refine ⟨t, ?_⟩
  simp only [BufferManager.addBlock]
  rw [← List.append_assoc, ht]

/-- The invariant of the cache along a run without explicit evictions whose
admitted ids are pairwise distinct and not among the ids admitted before. -/
theorem BufferManager.applyAll_queue (N : Int) (ops : List CacheOp) (bm : BufferManager)
    (past : List Int) (hN : 1 ≤ N) (hmax : N ≤ 2147483647)
    (hno : CacheOp.evictLRU ∉ ops)
    (hnodup : (past ++ CacheOp.admittedIds ops).Nodup)
    (hsuf : List.IsSuffix bm.lru_queue past)
    (hq : bm.lru_queue = bm.buffer_pool.map (fun e => e.1))
    (hu : poolKeysUnique bm.buffer_pool) (hlen : (bm.buffer_pool.length : Int) ≤ N)
    (hm : bm.max_buffer_size = N) :
    (bm.applyAll ops).lru_queue = (bm.applyAll ops).buffer_pool.map (fun e => e.1) ∧
      poolKeysUnique (bm.applyAll ops).buffer_pool ∧
      ((bm.applyAll ops).buffer_pool.length : Int) ≤ N ∧
      List.IsSuffix (bm.applyAll ops).lru_queue (past ++ CacheOp.admittedIds ops) := by
  induction ops generalizing bm past with
  | nil =>
    simp only [CacheOp.admittedIds, List.append_nil]
    exact ⟨hq, hu, hlen, hsuf⟩
  | cons op ops ih =>
    have hno2 : CacheOp.evictLRU ∉ ops := fun h => hno (List.mem_cons_of_mem _ h)
    simp only [BufferManager.applyAll, List.foldl_cons]
    cases op with
    | addBlock b =>
      simp only [CacheOp.admittedIds] at hnodup ⊢
      have hnd2 : ((past ++ [b.block_id]) ++ CacheOp.admittedIds ops).Nodup := by
        rw [List.append_assoc]
        exact hnodup
      have hfreshPast : b.block_id ∉ past := by
        intro hin
        have hdis := (List.nodup_append.1 hnodup).2.2
        exact hdis hin (List.mem_cons_self _ _)
      have hfresh : (CacheOp.addBlock b).admitsFresh bm := by
        simp only [CacheOp.admitsFresh]
        intro hin
        exact hfreshPast (hsuf.subset hin)
      have hinv := BufferManager.apply_inv N bm (CacheOp.addBlock b) hN hmax hfresh hq hu hlen hm
      have hs := BufferManager.addBlock_queue_suffix bm b past hsuf
      have := ih (bm.apply (CacheOp.addBlock b)) (past ++ [b.block_id]) hno2 hnd2 hs
        hinv.1 hinv.2.1 hinv.2.2.1 hinv.2.2.2
      simp only [BufferManager.applyAll, List.append_assoc, List.singleton_append] at this
      exact this
    | getBlock id =>
      simp only [CacheOp.admittedIds] at hnodup ⊢
      exact ih bm past hno2 hnodup hsuf hq hu hlen hm
    | evictLRU => exact absurd (List.mem_cons_self _ _) hno
    | flushAllBlocks =>
      simp only [CacheOp.admittedIds] at hnodup ⊢
      have hinv := BufferManager.apply_inv N bm CacheOp.flushAllBlocks hN hmax trivial hq hu hlen hm
      exact ih (bm.apply CacheOp.flushAllBlocks) past hno2 hnodup hsuf
        hinv.1 hinv.2.1 hinv.2.2.1 hinv.2.2.2

/-- C33. The cache invariant under distinct ids: for every `max_size >= 1` (an
`int`) and every sequence of `addBlock`, `getBlock` and `flushAllBlocks` calls
on a new `BufferManager(max_size)` in which the admitted block ids are pairwise
distinct, the admission queue of the state reached holds no id twice, holds
exactly the ids for which `getBlock` finds a block, is a suffix of the sequence
of admitted ids (so it lists the cached ids in admission order), has as many
entries as the pool, and the pool holds at most `max_size` blocks. -/
theorem C33_cache_invariant (max_size : Int) (ops : List CacheOp) (hN : 1 ≤ max_size)
    (hmax : max_size ≤ 2147483647) (hno : CacheOp.evictLRU ∉ ops)
    (hdistinct : (CacheOp.admittedIds ops).Nodup) :
    ((BufferManager.new max_size).applyAll ops).lru_queue.Nodup ∧
    (∀ id : Int, id ∈ ((BufferManager.new max_size).applyAll ops).lru_queue ↔
      (((BufferManager.new max_size).applyAll ops).getBlock id).isSome = true) ∧
    List.IsSuffix ((BufferManager.new max_size).applyAll ops).lru_queue
      (CacheOp.admittedIds ops) ∧
    ((BufferManager.new max_size).applyAll ops).lru_queue.length =
      ((BufferManager.new max_size).applyAll ops).buffer_pool.length ∧
    (((BufferManager.new max_size).applyAll ops).buffer_pool.length : Int) ≤ max_size := by
  have h := BufferManager.applyAll_queue max_size ops (BufferManager.new max_size) [] hN hmax hno
    (by simpa using hdistinct) (List.suffix_refl _) rfl List.nodup_nil
    (by simp only [BufferManager.new, List.length_nil]; omega) rfl
  obtain ⟨hq, hu, hlen, hsuf⟩ := h
  refine ⟨?_, ?_, ?_, ?_, hlen⟩
  · rw [hq]
    exact hu
  · intro id
    rw [hq]
    unfold BufferManager.getBlock
    constructor
    · intro hin
      cases hf : poolFind id ((BufferManager.new max_size).applyAll ops).buffer_pool with
      | some blk => rfl
      | none =>
        obtain ⟨e, he, hid⟩ := List.mem_map.1 hin
        exact absurd hid ((poolFind_eq_none_iff id _).1 hf e he)
    · intro hsome
      cases hf : poolFind id ((BufferManager.new max_size).applyAll ops).buffer_pool with
      | some blk =>
        exact List.mem_map.2 ⟨(id, blk), poolFind_eq_some_mem id blk _ hf, rfl⟩
      | none =>
        rw [hf] at hsome
        cases hsome
  · simpa using hsuf
  · rw [hq, List.length_map]

/-! ## Block: operators outside the five -/

theorem Block.matchesOp_unknown (op record_value value : Str)
    (hop : op ∉ [['='], ['>', '='], ['<', '='], ['>'], ['<']]) :
    Block.matchesOp op record_value value = false := by
  simp only [List.mem_cons, List.mem_singleton, List.not_mem_nil, or_false, not_or] at hop
  obtain ⟨h1, h2, h3, h4, h5⟩ := hop
  unfold Block.matchesOp
  rw [if_neg h1, if_neg h2, if_neg h3, if_neg h4, if_neg h5]

theorem Block.findLoop_unknown (attr value op : Str) (rs : List Record)
    (hop : op ∉ [['='], ['>', '='], ['<', '='], ['>'], ['<']]) :
    Block.findLoop attr value op rs = [] := by
  induction rs with
  | nil => rfl
  | cons r rs ih =>
    simp only [Block.findLoop, ih, Block.matchesOp_unknown op _ value hop]
    cases r.is_deleted with
    | true => rfl
    | false =>
      cases StrMap.find attr r.data with
      | none => rfl
      | some v => rfl

/-- C35. For every block, attribute and value, and every operator string that
is not one of `=`, `>=`, `<=`, `>`, `<`, `Block::findRecordsByAttribute` returns
the empty result.  The method assigns to no member of the block: the embedding
returns the result only. -/
theorem C35_unknown_operator (b : Block) (attr value op : Str)
    (hop : op ∉ [['='], ['>', '='], ['<', '='], ['>'], ['<']]) :
    b.findRecordsByAttribute attr value op = [] :=
  Block.findLoop_unknown attr value op b.records hop

/-! ## Sector: buffer indices -/

theorem sum_map_range_const {α : Type} (n : Nat) (f : Nat → α) (g : α → Int) (c : Int)
    (h : ∀ i : Nat, g (f i) = c) : (((List.range n).map f).map g).sum = (n : Int) * c := by
  induction n with
  | zero => simp
  | succ n ih =>
    rw [List.range_succ, List.map_append, List.map_append, List.sum_append, ih]
    simp only [List.map_cons, List.map_nil, List.sum_cons, List.sum_nil, h]
    push_cast
    ring

/-- A sum over all sectors, level by level. -/
theorem DiskManager.allSectors_sum (f : Sector → Int) (d : DiskManager) :
    (d.allSectors.map f).sum =
      (d.platters.map (fun pl =>
        (pl.surfaces.map (fun su =>
          (su.tracks.map (fun tr => (tr.sectors.map f).sum)).sum)).sum)).sum := by
  unfold DiskManager.allSectors
  rw [sum_map_flatMap]
  congr 1
  apply List.map_congr_left
  intro pl _
  rw [sum_map_flatMap]
  congr 1
  apply List.map_congr_left
  intro su _
  rw [sum_map_flatMap]

/-- A sum over the sectors the constructor builds, when every new sector has
the same summand. -/
theorem DiskManager.new_allSectors_sum (f : Sector → Int) (c : Int) (P S T K C R B : Int)
    (hf : ∀ i : Nat, f (Sector.new (i : Int) C) = c) :
    ((DiskManager.new P S T K C R B).allSectors.map f).sum =
      (P.toNat : Int) * ((S.toNat : Int) * ((T.toNat : Int) * ((K.toNat : Int) * c))) := by
  rw [DiskManager.allSectors_sum]
  simp only [DiskManager.new]
  refine sum_map_range_const _ _ _ _ (fun p => ?_)
  simp only [Platter.new]
  refine sum_map_range_const _ _ _ _ (fun s => ?_)
  simp only [Surface.new]
  refine sum_map_range_const _ _ _ _ (fun t => ?_)
  simp only [Track.new]
  exact sum_map_range_const _ _ _ _ hf

theorem set_getElem?_self {α : Type} (l : List α) (i : Nat) (a : α) (h : l[i]? = some a) :
    l.set i a = l := by
  induction l generalizing i with
  | nil => rfl
  | cons x l ih =>
    cases i with
    | zero =>
      simp only [List.getElem?_cons_zero, Option.some.injEq] at h
      subst h
      rfl
    | succ i =>
      simp only [List.getElem?_cons_succ] at h
      simp only [List.set_cons_succ, ih i h]

/-- Assigning to a sector the value it has changes nothing. -/
theorem DiskManager.setSector_self (d : DiskManager) (p s t k : Nat) (se : Sector)
    (hse : d.sectorAt p s t k = some se) : d.setSector p s t k se = d := by
  obtain ⟨pl, su, tr, hpl, hsu, htr, hk⟩ := (DiskManager.sectorAt_eq_some d p s t k se).1 hse
  rw [DiskManager.setSector_eq d p s t k se pl su tr hpl hsu htr]
  have h1 : tr.withSector k se = tr := by
    simp only [Track.withSector, set_getElem?_self _ _ _ hk]
  have h2 : su.withTrack t tr = su := by
    simp only [Surface.withTrack, set_getElem?_self _ _ _ htr]
  have h3 : pl.withSurface s su = pl := by
    simp only [Platter.withSurface, set_getElem?_self _ _ _ hsu]
  rw [h1, h2, h3, set_getElem?_self _ _ _ hpl]

/-- Writing the empty string succeeds and changes nothing. -/
theorem Sector.writeData_nil (s : Sector) (position : Int) (h : s.used_space ≤ s.capacity) :
    s.writeData [] position = { ok := true, position := s.used_space, sector := s } := by
  rw [Sector.writeData_success s [] position (by simpa using h)]
  simp only [Sector.writeLoop, List.length_nil, Int.ofNat_zero, Nat.cast_zero, add_zero]

/-- On a well-formed disk whose first sector is empty, `storeBlock` on a block
without records returns `true`, writes nothing and locates the block at the
origin. -/
theorem DiskManager.storeBlock_empty (d : DiskManager) (b : Block) (se : Sector) (hwf : d.WF)
    (hrec : b.records = []) (hse : d.sectorAt 0 0 0 0 = some se) (hused : se.used_space = 0) :
    d.storeBlock b =
      { ok := true, disk := d, block := { b with location := PhysicalLocation.origin } } := by
  obtain ⟨pl, su, tr, hpl, hsu, htr, hk⟩ := (DiskManager.sectorAt_eq_some d 0 0 0 0 se).1 hse
  have hsewf : se.WF := ((((hwf 0 pl hpl).2 0 su hsu).2 0 tr htr).2 0 se hk).2
  have hreq : requiredBytes b = 0 := by simp only [requiredBytes, hrec, List.map_nil, List.sum_nil]
  have hfits : d.fitsAt (requiredBytes b) 0 0 0 0 := ⟨se, hse, by rw [hreq]; have := hsewf.2.1; omega⟩
  rcases DiskManager.storeBlock_cases d b hwf with
    ⟨hnone, _⟩ | ⟨p, s, t, k, se1, hse1, _, _, hmin, _, hst⟩
  · exact absurd hfits (hnone 0 0 0 0)
  · have hlex := hmin 0 0 0 0 hfits
    have hz : p = 0 ∧ s = 0 ∧ t = 0 ∧ k = 0 := by
      unfold lexLe at hlex
      omega
    obtain ⟨rfl, rfl, rfl, rfl⟩ := hz
    rw [hse] at hse1
    cases hse1
    rw [hst, hrec]
    simp only [serializeRecords, Sector.writeData_nil se 0 hsewf.2.1,
      DiskManager.setSector_self d 0 0 0 0 se hse, hused, PhysicalLocation.origin, Nat.cast_zero]

/-- The disk invariant reads the `platters` member only. -/
theorem DiskManager.WF_of_platters (d d2 : DiskManager) (h : d2.platters = d.platters)
    (hwf : d.WF) : d2.WF := by
  unfold DiskManager.WF at hwf ⊢
  rw [h]
  exact hwf

theorem DiskManager.sectorAt_of_platters (d d2 : DiskManager) (h : d2.platters = d.platters)
    (p s t k : Nat) : d2.sectorAt p s t k = d.sectorAt p s t k := by
  unfold DiskManager.sectorAt
  rw [h]

theorem DiskManager.getUsedCapacity_of_platters (d d2 : DiskManager)
    (h : d2.platters = d.platters) : d2.getUsedCapacity = d.getUsedCapacity := by
  unfold DiskManager.getUsedCapacity
  rw [h]

theorem blocksAssign_mem (k : Int) (v : Option Block) (l : List (Int × Option Block))
    (x : Int × Option Block) (h : x ∈ blocksAssign k v l) : x ∈ l ∨ x = (k, v) := by
  induction l with
  | nil =>
    simp only [blocksAssign, List.mem_singleton] at h
    exact Or.inr h
  | cons e l ih =>
    obtain ⟨k1, p1⟩ := e
    simp only [blocksAssign] at h
    by_cases hk : k1 = k
    · rw [if_pos hk] at h
      rcases List.mem_cons.1 h with h | h
      · right
        rw [h, hk]
      · exact Or.inl (List.mem_cons_of_mem _ h)
    · rw [if_neg hk] at h
      rcases List.mem_cons.1 h with h | h
      · left
        rw [h]
        exact List.mem_cons_self _ _
      · rcases ih h with h | h
        · exact Or.inl (List.mem_cons_of_mem _ h)
        · exact Or.inr h

/-- A second assignment under the same key replaces the first. -/
theorem blocksAssign_twice (k : Int) (v1 v2 : Option Block) (l : List (Int × Option Block)) :
    blocksAssign k v2 (blocksAssign k v1 l) = blocksAssign k v2 l := by
  induction l with
  | nil => simp only [blocksAssign, if_true]
  | cons e l ih =>
    obtain ⟨k1, p1⟩ := e
    by_cases hk : k1 = k
    · simp only [blocksAssign, if_pos hk]
    · simp only [blocksAssign, if_neg hk, ih]

/-- The entries after the three assignments of `SGBD::addRecord` with an
eviction in between: the old entries, the evicted one, and the new block. -/
theorem blocksAssign_thrice_mem (k e : Int) (v1 v2 w : Option Block) (hne : e ≠ k)
    (l : List (Int × Option Block)) (x : Int × Option Block)
    (h : x ∈ blocksAssign k v2 (blocksAssign e w (blocksAssign k v1 l))) :
    x ∈ l ∨ x = (e, w) ∨ x = (k, v2) := by
  induction l with
  | nil =>
    simp only [blocksAssign, if_neg (Ne.symm hne), if_true, List.mem_cons, List.mem_singleton,
      List.not_mem_nil, or_false] at h
    rcases h with h | h
    · exact Or.inr (Or.inr h)
    · exact Or.inr (Or.inl h)
  | cons a l ih =>
    obtain ⟨k1, p1⟩ := a
    by_cases hk : k1 = k
    · have hk1e : ¬ k1 = e := fun h1 => hne (h1.symm.trans hk)
      simp only [blocksAssign, if_pos hk, if_neg hk1e] at h
      rcases List.mem_cons.1 h with h | h
      · right; right
        rw [h, hk]
      · rcases blocksAssign_mem e w l x h with h | h
        · exact Or.inl (List.mem_cons_of_mem _ h)
        · exact Or.inr (Or.inl h)
    · by_cases hke : k1 = e
      · simp only [blocksAssign, if_neg hk, if_pos hke] at h
        rw [blocksAssign_twice] at h
        rcases List.mem_cons.1 h with h | h
        · right; left
          rw [h, hke]
        · rcases blocksAssign_mem k v2 l x h with h | h
          · exact Or.inl (List.mem_cons_of_mem _ h)
          · exact Or.inr (Or.inr h)
      · simp only [blocksAssign, if_neg hk, if_neg hke] at h
        rcases List.mem_cons.1 h with h | h
        · left
          rw [h]
          exact List.mem_cons_self _ _
        · rcases ih h with h | h | h
          · exact Or.inl (List.mem_cons_of_mem _ h)
          · exact Or.inr (Or.inl h)
          · exact Or.inr (Or.inr h)

/-- The block the search loop of `SGBD::addRecord` returns is registered and has
space. -/
theorem SGBD.findBlockWithSpace_some (l : List (Int × Option Block)) (k : Int) (b : Block)
    (h : SGBD.findBlockWithSpace l = some (some (k, b))) :
    (k, some b) ∈ l ∧ b.hasSpace = true := by
  induction l with
  | nil => simp [SGBD.findBlockWithSpace] at h
  | cons e l ih =>
    obtain ⟨k1, p1⟩ := e
    cases p1 with
    | none => simp [SGBD.findBlockWithSpace] at h
    | some b1 =>
      simp only [SGBD.findBlockWithSpace] at h
      by_cases hs : b1.hasSpace = true
      · rw [if_pos hs] at h
        simp only [Option.some.injEq, Prod.mk.injEq] at h
        obtain ⟨rfl, rfl⟩ := h
        exact ⟨List.mem_cons_self _ _, hs⟩
      · rw [if_neg hs] at h
        exact ⟨List.mem_cons_of_mem _ (ih h).1, (ih h).2⟩

/-- The search loop of `SGBD::addRecord` is defined when no registered block
has been deleted. -/
theorem SGBD.findBlockWithSpace_defined (l : List (Int × Option Block))
    (h : ∀ e ∈ l, e.2.isSome = true) : (SGBD.findBlockWithSpace l).isSome = true := by
  induction l with
  | nil => rfl
  | cons e l ih =>
    obtain ⟨k1, p1⟩ := e
    cases p1 with
    | none =>
      have := h (k1, none) (List.mem_cons_self _ _)
      cases this
    | some b1 =>
      simp only [SGBD.findBlockWithSpace]
      by_cases hs : b1.hasSpace = true
      · rw [if_pos hs]
        rfl
      · rw [if_neg hs]
        exact ih (fun e he => h e (List.mem_cons_of_mem _ he))

/-- A state with the same platters whose registered blocks are located at the
origin is again one in which no byte of the disk is in use. -/
theorem SGBD.diskUnused_of_platters (s s1 : SGBD) (h : s.diskUnused)
    (hpl : s1.disk_manager.platters = s.disk_manager.platters)
    (hblocks : ∀ e ∈ s1.all_blocks, ∀ block : Block, e.2 = some block →
      block.location = PhysicalLocation.origin) : s1.diskUnused := by
  obtain ⟨hwf, ⟨se, hse, hused⟩, hcap, _⟩ := h
  refine ⟨DiskManager.WF_of_platters _ _ hpl hwf, ⟨se, ?_, hused⟩, ?_, hblocks⟩
  · rw [DiskManager.sectorAt_of_platters _ _ hpl]
    exact hse
  · rw [DiskManager.getUsedCapacity_of_platters _ _ hpl]
    exact hcap

/-- One `SGBD::addRecord` call in a state in which no byte of the disk is in
use: a defined call returns `true`, keeps the platters and leaves such a state. -/
theorem SGBD.addRecord_diskUnused (s : SGBD) (record : Record) (h : s.diskUnused)
    (ok : Bool) (s1 : SGBD) (hadd : s.addRecord record = some (ok, s1)) :
    ok = true ∧ s1.diskUnused ∧ s1.disk_manager.platters = s.disk_manager.platters := by
  obtain ⟨hwf, ⟨se, hse, hused⟩, hcap, hloc⟩ := h
  have hstore := DiskManager.storeBlock_empty s.disk_manager
    (Block.new ((s.all_blocks.length : Int) + 1) 5) se hwf rfl hse hused
  unfold SGBD.addRecord at hadd
  cases hfb : SGBD.findBlockWithSpace s.all_blocks with
  | none =>
    rw [hfb] at hadd
    cases hadd
  | some r =>
    cases r with
    | some kb =>
      obtain ⟨k, block⟩ := kb
      rw [hfb] at hadd
      simp only [Option.some.injEq, Prod.mk.injEq] at hadd
      obtain ⟨hok, hs1⟩ := hadd
      obtain ⟨hmem, hspace⟩ := SGBD.findBlockWithSpace_some _ _ _ hfb
      have hadded : block.addRecord record =
          (true, { block with records := block.records ++ [record], is_dirty := true }) := by
        simp only [Block.addRecord, hspace, Bool.not_true, Bool.false_eq_true, if_false]
      rw [hadded] at hok hs1
      subst hs1
      refine ⟨hok.symm, ?_, rfl⟩
      refine SGBD.diskUnused_of_platters s _ ⟨hwf, ⟨se, hse, hused⟩, hcap, hloc⟩ ?_ ?_
      · rfl
      intro e he blk hblk
      rcases blocksAssign_mem _ _ _ _ he with he | he
      · exact hloc e he blk hblk
      · rw [he] at hblk
        simp only [Option.some.injEq] at hblk
        rw [← hblk]
        exact hloc _ hmem block rfl
    | none =>
      rw [hfb] at hadd
      simp only [hstore, Bool.not_true, Bool.false_eq_true, if_false] at hadd
      have hadded : ∀ b0 : Block, b0.hasSpace = true →
          b0.addRecord record =
            (true, { b0 with records := b0.records ++ [record], is_dirty := true }) := by
        intro b0 hsp
        simp only [Block.addRecord, hsp, Bool.not_true, Bool.false_eq_true, if_false]
      have hsp : ∀ b0 : Block, b0.records = [] → b0.max_records = 5 → b0.hasSpace = true := by
        intro b0 h1 h2
        simp only [Block.hasSpace, h1, h2, toSizeT]
        decide
      rw [hadded _ (hsp _ rfl rfl)] at hadd
      simp only [Option.some.injEq, Prod.mk.injEq] at hadd
      obtain ⟨hok, hs1⟩ := hadd
      subst hs1
      refine ⟨hok.symm, ?_, rfl⟩
      refine SGBD.diskUnused_of_platters s _ ⟨hwf, ⟨se, hse, hused⟩, hcap, hloc⟩ ?_ ?_
      · rfl
      intro e he blk hblk
      simp only [Block.new] at he
      have hcases : e ∈ s.all_blocks ∨ e.2 = none ∨
          ∃ b1 : Block, e.2 = some b1 ∧ b1.location = PhysicalLocation.origin := by
        cases hev : s.disk_manager.buffer_manager.evictedByAdd with
        | none =>
          rw [hev] at he
          simp only [blocksAssign_twice] at he
          rcases blocksAssign_mem _ _ _ _ he with he | he
          · exact Or.inl he
          · exact Or.inr (Or.inr ⟨_, by rw [he], rfl⟩)
        | some ev =>
          rw [hev] at he
          simp only [] at he
          by_cases hevk : ev = (s.all_blocks.length : Int) + 1
          · rw [if_pos hevk] at he
            simp only [blocksAssign_twice] at he
            rcases blocksAssign_mem _ _ _ _ he with he | he
            · exact Or.inl he
            · exact Or.inr (Or.inr ⟨_, by rw [he], rfl⟩)
          · rw [if_neg hevk] at he
            rcases blocksAssign_thrice_mem _ _ _ _ _ hevk _ _ he with he | he | he
            · exact Or.inl he
            · exact Or.inr (Or.inl (by rw [he]))
            · exact Or.inr (Or.inr ⟨_, by rw [he], rfl⟩)
      rcases hcases with he | he | ⟨b1, he, hb1⟩
      · exact hloc e he blk hblk
      · rw [he] at hblk
        cases hblk
      · rw [he] at hblk
        simp only [Option.some.injEq] at hblk
        rw [← hblk]
        exact hb1

/-- One `SGBD::addRecord` call in a state in which no byte of the disk is in
use is defined when the search loop is: the store cannot fail. -/
theorem SGBD.addRecord_defined (s : SGBD) (record : Record) (h : s.diskUnused)
    (hfind : (SGBD.findBlockWithSpace s.all_blocks).isSome = true) :
    (s.addRecord record).isSome = true := by
  obtain ⟨hwf, ⟨se, hse, hused⟩, _, _⟩ := h
  have hstore := DiskManager.storeBlock_empty s.disk_manager
    (Block.new ((s.all_blocks.length : Int) + 1) 5) se hwf rfl hse hused
  unfold SGBD.addRecord
  cases hfb : SGBD.findBlockWithSpace s.all_blocks with
  | none =>
    rw [hfb] at hfind
    cases hfind
  | some r =>
    cases r with
    | some kb => rfl
    | none =>
      simp only [hstore, Bool.not_true, Bool.false_eq_true, if_false]
      rfl

/-- Every sequence of `SGBD::addRecord` calls from a state in which no byte of
the disk is in use keeps the platters and leaves such a state. -/
theorem SGBD.addRecords_diskUnused (records : List Record) (s s1 : SGBD) (h : s.diskUnused)
    (hadd : s.addRecords records = some s1) :
    s1.diskUnused ∧ s1.disk_manager.platters = s.disk_manager.platters := by
  induction records generalizing s with
  | nil =>
    simp only [SGBD.addRecords, Option.some.injEq] at hadd
    subst hadd
    exact ⟨h, rfl⟩
  | cons record rest ih =>
    simp only [SGBD.addRecords] at hadd
    cases hstep : s.addRecord record with
    | none =>
      rw [hstep] at hadd
      cases hadd
    | some r =>
      rw [hstep] at hadd
      simp only [] at hadd
      obtain ⟨ok, s2⟩ := r
      have h2 := SGBD.addRecord_diskUnused s record h ok s2 hstep
      have h3 := ih s2 h2.2.1 hadd
      exact ⟨h3.1, h3.2.trans h2.2.2⟩

theorem getElem?_range_map_zero {α : Type} (f : Nat → α) (n : Nat) (h : 0 < n) :
    ((List.range n).map f)[0]? = some (f 0) := by
  rw [List.getElem?_map, List.getElem?_range h]
  rfl

/-- The constructor of the facade, on a geometry with at least one sector,
builds a state in which no byte of the disk is in use. -/
theorem SGBD.new_diskUnused (P S T K C R B : Int) (hP : 1 ≤ P) (hS : 1 ≤ S) (hT : 1 ≤ T)
    (hK : 1 ≤ K) (hC : 0 ≤ C) : (SGBD.new P S T K C R B).diskUnused := by
  refine ⟨DiskManager.new_WF P S T K C R B hC, ⟨Sector.new 0 C, ?_, rfl⟩, ?_, ?_⟩
  · simp only [SGBD.new, DiskManager.new, DiskManager.sectorAt,
      getElem?_range_map_zero _ P.toNat (by omega), Platter.new,
      getElem?_range_map_zero _ S.toNat (by omega), Surface.new,
      getElem?_range_map_zero _ T.toNat (by omega), Track.new,
      getElem?_range_map_zero _ K.toNat (by omega), Nat.cast_zero]
  · simp only [SGBD.new]
    rw [DiskManager.getUsedCapacity_eq_sum,
      DiskManager.new_allSectors_sum (fun sector => sector.used_space) 0 P S T K C R B
        (fun _ => rfl)]
    simp
  · intro e he
    simp only [SGBD.new, List.not_mem_nil] at he

/-- C34. The facade never consumes disk space.  For every `SGBD` built on a
geometry with at least one sector (every count at least 1, sector capacity not
negative) and every sequence of `SGBD::addRecord` calls that is defined: in the
state reached `getUsedCapacity()` is 0, the platters are as the constructor
built them, and every registered block that has not been deleted is located at
platter 0, surface 0, track 0, sector 0, position 0.  In every such state:
`storeBlock` on a new block, which has no records, returns `true`, leaves the
disk as it was and locates the block at the origin; a defined `addRecord` call
returns `true`, keeps the platters and leaves such a state; and `addRecord` is
defined whenever no registered block has been deleted. -/
theorem C34_facade_uses_no_disk_space (P S T K C R B : Int) (hP : 1 ≤ P) (hS : 1 ≤ S)
    (hT : 1 ≤ T) (hK : 1 ≤ K) (hC : 0 ≤ C) :
    (∀ (records : List Record) (s : SGBD),
      (SGBD.new P S T K C R B).addRecords records = some s →
        s.disk_manager.getUsedCapacity = 0 ∧
        s.disk_manager.platters = (SGBD.new P S T K C R B).disk_manager.platters ∧
        (∀ e ∈ s.all_blocks, ∀ block : Block, e.2 = some block →
          block.location = PhysicalLocation.origin) ∧
        s.diskUnused) ∧
    (∀ (s : SGBD) (record : Record), s.diskUnused →
      (∀ id max_rec : Int, s.disk_manager.storeBlock (Block.new id max_rec) =
        { ok := true, disk := s.disk_manager,
          block := { Block.new id max_rec with location := PhysicalLocation.origin } }) ∧
      (∀ (ok : Bool) (s1 : SGBD), s.addRecord record = some (ok, s1) →
        ok = true ∧ s1.diskUnused ∧ s1.disk_manager.platters = s.disk_manager.platters) ∧
      ((∀ e ∈ s.all_blocks, e.2.isSome = true) → (s.addRecord record).isSome = true)) := by
  constructor
  · intro records s hadd
    have h := SGBD.addRecords_diskUnused records _ s (SGBD.new_diskUnused P S T K C R B hP hS hT hK hC)
      hadd
    exact ⟨h.1.2.2.1, h.2, h.1.2.2.2, h.1⟩
  · intro s record h
    refine ⟨?_, ?_, ?_⟩
    · intro id max_rec
      obtain ⟨hwf, ⟨se, hse, hused⟩, _, _⟩ := h
      exact DiskManager.storeBlock_empty s.disk_manager (Block.new id max_rec) se hwf rfl hse hused
    · intro ok s1 hadd
      exact SGBD.addRecord_diskUnused s record h ok s1 hadd
    · intro hlive
      exact SGBD.addRecord_defined s record h (SGBD.findBlockWithSpace_defined _ hlive)

/-! ## Within range the `int` computations of the code are exact -/

theorem toInt32_of_isInt32 (x : Int) (h : isInt32 x) : toInt32 x = x := by
  unfold isInt32 at h
  unfold toInt32
  omega

theorem toInt64_of_isInt64 (x : Int) (h : isInt64 x) : toInt64 x = x := by
  unfold isInt64 at h
  unfold toInt64
  omega

theorem requiredBytes_nonneg (b : Block) : 0 ≤ requiredBytes b := by
  rw [← serializeRecords_length]
  omega

/-- A `writeData` call within range: the length converted to `int` is the
length, and the `int` sum of `hasSpace` and of the update of `used_space` is the
exact sum. -/
theorem Sector.writeInRange_exact (s : Sector) (content : Str) (h0 : 0 ≤ s.used_space)
    (h : s.writeInRange content) :
    toInt32 (content.length : Int) = (content.length : Int) ∧
    toInt32 (s.used_space + toInt32 (content.length : Int)) =
      s.used_space + (content.length : Int) := by
  unfold Sector.writeInRange at h
  have h1 : toInt32 (content.length : Int) = (content.length : Int) :=
    toInt32_of_isInt32 _ ⟨by omega, by omega⟩
  rw [h1]
  exact ⟨rfl, toInt32_of_isInt32 _ ⟨by omega, by omega⟩⟩

/-- A `readData` call within range: the `int` sum of the check is the exact sum. -/
theorem Sector.readInRange_exact (s : Sector) (position length : Int)
    (h : s.readInRange position length) :
    toInt32 (position + length) = position + length :=
  toInt32_of_isInt32 _ h.1

/-- A `storeBlock` call within range: the length stored in `int required_space`
is the length, and for every sector the `int` sum of `hasSpace` is the exact
sum. -/
theorem DiskManager.storeInRange_exact (d : DiskManager) (b : Block) (h : d.storeInRange b) :
    toInt32 (requiredBytes b) = requiredBytes b ∧
    ∀ sector ∈ d.allSectors,
      toInt32 (sector.used_space + toInt32 (requiredBytes b)) =
        sector.used_space + requiredBytes b := by
  have h0 := requiredBytes_nonneg b
  have h1 : toInt32 (requiredBytes b) = requiredBytes b :=
    toInt32_of_isInt32 _ ⟨by omega, h.1⟩
  rw [h1]
  exact ⟨rfl, fun sector hs => toInt32_of_isInt32 _ (h.2 sector hs)⟩

/-- A product within range: the `long long` product of `getTotalCapacity`,
taken from the left, is the exact product. -/
theorem productInRange_exact (P S T K C : Int) (h : productInRange P S T K C) :
    toInt64 (toInt64 (toInt64 (toInt64 (P * S) * T) * K) * C) = P * S * T * K * C := by
  obtain ⟨_, _, _, _, _, h2, h3, h4, h5⟩ := h
  rw [toInt64_of_isInt64 _ h2, toInt64_of_isInt64 _ h3, toInt64_of_isInt64 _ h4,
    toInt64_of_isInt64 _ h5]

/-! ## The claims C31-C37 at concrete inputs -/

theorem C33_cache_invariant_witness :
    List.IsSuffix
      ((BufferManager.new 2).applyAll
        [CacheOp.addBlock (Block.new 1 5), CacheOp.addBlock (Block.new 2 5),
          CacheOp.getBlock 1, CacheOp.addBlock (Block.new 3 5),
          CacheOp.flushAllBlocks]).lru_queue
      (CacheOp.admittedIds
        [CacheOp.addBlock (Block.new 1 5), CacheOp.addBlock (Block.new 2 5),
          CacheOp.getBlock 1, CacheOp.addBlock (Block.new 3 5), CacheOp.flushAllBlocks]) ∧
    (((BufferManager.new 2).applyAll
        [CacheOp.addBlock (Block.new 1 5), CacheOp.addBlock (Block.new 2 5),
          CacheOp.getBlock 1, CacheOp.addBlock (Block.new 3 5),
          CacheOp.flushAllBlocks]).buffer_pool.length : Int) ≤ 2 :=
  ⟨(C33_cache_invariant 2
      [CacheOp.addBlock (Block.new 1 5), CacheOp.addBlock (Block.new 2 5),
        CacheOp.getBlock 1, CacheOp.addBlock (Block.new 3 5), CacheOp.flushAllBlocks]
      (by decide) (by decide) (by decide) (by decide)).2.2.1,
   (C33_cache_invariant 2
      [CacheOp.addBlock (Block.new 1 5), CacheOp.addBlock (Block.new 2 5),
        CacheOp.getBlock 1, CacheOp.addBlock (Block.new 3 5), CacheOp.flushAllBlocks]
      (by decide) (by decide) (by decide) (by decide)).2.2.2.2⟩

theorem C34_facade_uses_no_disk_space_witness :
    ((SGBD.new 1 1 2 2 100 2 1).addRecords
      [scenarioRecord 1, scenarioRecord 2, scenarioRecord 3, scenarioRecord 4,
        scenarioRecord 5, scenarioRecord 6]).map
      (fun s => s.disk_manager.getUsedCapacity) = some 0 ∧
    ((SGBD.new 1 1 2 2 100 2 1).addRecord (scenarioRecord 1)).isSome = true := by
  have hdef : ((SGBD.new 1 1 2 2 100 2 1).addRecords
      [scenarioRecord 1, scenarioRecord 2, scenarioRecord 3, scenarioRecord 4,
        scenarioRecord 5, scenarioRecord 6]).isSome = true := by decide
  have hthm := C34_facade_uses_no_disk_space 1 1 2 2 100 2 1 (by decide) (by decide)
    (by decide) (by decide) (by decide)
  refine ⟨?_, ?_⟩
  · cases hadd : (SGBD.new 1 1 2 2 100 2 1).addRecords
        [scenarioRecord 1, scenarioRecord 2, scenarioRecord 3, scenarioRecord 4,
          scenarioRecord 5, scenarioRecord 6] with
    | none =>
      rw [hadd] at hdef
      cases hdef
    | some s =>
      have h := hthm.1 _ s hadd
      simp only [Option.map_some', h.1]
  · exact (hthm.2 (SGBD.new 1 1 2 2 100 2 1) (scenarioRecord 1)
      (SGBD.new_diskUnused 1 1 2 2 100 2 1 (by decide) (by decide) (by decide) (by decide)
        (by decide))).2.2 (by decide)

theorem C35_unknown_operator_witness :
    ((Block.new 1 5).addRecord (Record.new [(['a', 'g', 'e'], ['9'])] 1)).2.findRecordsByAttribute
      ['a', 'g', 'e'] ['9'] ['!', '='] = [] ∧
    ((Block.new 1 5).addRecord (Record.new [(['a', 'g', 'e'], ['9'])] 1)).2.findRecordsByAttribute
      ['a', 'g', 'e'] ['9'] [] = [] :=
  ⟨C35_unknown_operator ((Block.new 1 5).addRecord (Record.new [(['a', 'g', 'e'], ['9'])] 1)).2
      ['a', 'g', 'e'] ['9'] ['!', '='] (by decide),
   C35_unknown_operator ((Block.new 1 5).addRecord (Record.new [(['a', 'g', 'e'], ['9'])] 1)).2
      ['a', 'g', 'e'] ['9'] [] (by decide)⟩

end DBMS
